import Mathlib

/-!
Verification of the `vctrs` dictionary (`src/dictionary.c`).

A shallow embedding of the open-addressing hash index and of the set-style
entry points built on it.

Conventions of the embedding

* An R vector (`SEXP`) is a record of its address (pointer identity, used by
  the `d->x != y` test of `dict_hash_scalar`) and of its elements.
* C arrays of `int` (`R_len_t*`, `int*`) are `List Int`; a read `p[i]` is
  `aget p i`, a write `p[i] = v` is `List.set p i v`.  Freshly allocated R
  vectors hold unspecified values; they are modelled as filled with `0`.
* `uint32_t` arithmetic is arithmetic on `Nat` reduced `% 2 ^ 32`.
* `int32_t` values are `Int`; the decrement and the increment of `ceil2` wrap
  modulo `2 ^ 32` into the signed range (`wrap_int32`).
* `Rf_error` / `Rf_errorcall` are the `Except.error` results.
* The element level hash and equality (`hash_scalar`, `equal_scalar`, defined
  in other translation units) are parameters `hash : α → Nat` and
  `eq : α → α → Bool`.
-/

namespace Vctrs

/-! ## Data model -/

/-- An R vector: its address and its elements. -/
structure SEXP (α : Type) where
  addr : Nat
  elts : List α

/-- The two internal errors raised by `dict_hash_scalar`. -/
inductive dict_error where
  | hashed_unhashed
  | dictionary_full
  deriving DecidableEq, Repr

/-- Sentinel of an unoccupied slot (`#define DICT_EMPTY -1`). -/
def DICT_EMPTY : Int := -1

/-- The missing marker of R integers (`NA_INTEGER`, i.e. `INT_MIN`). -/
def NA_INTEGER : Int := -2147483648

/-- Number of elements of a vector. -/
def vec_size {α : Type} (x : SEXP α) : Nat := x.elts.length

/-- Read of a C `int` array, `p[i]`. -/
def aget (p : List Int) (i : Nat) : Int := p.getD i 0

/-- Read of a C `uint32_t` array, `p[i]`. -/
def uget (p : List Nat) (i : Nat) : Nat := p.getD i 0

/-- Hash of the element at position `i` of `y`, as a `uint32_t`;
`hash` is the element level hash function. -/
def hash_scalar {α : Type} (hash : α → Nat) (y : SEXP α) (i : Nat) : Nat :=
  match y.elts[i]? with
  | some a => hash a % 2 ^ 32
  | none => 0

/-- Equality of the element at position `i` of `x` and the element at
position `j` of `y`; `eq` is the element level equality. -/
def equal_scalar {α : Type} (eq : α → α → Bool)
    (x : SEXP α) (i : Nat) (y : SEXP α) (j : Nat) : Bool :=
  match x.elts[i]?, y.elts[j]? with
  | some a, some b => eq a b
  | _, _ => false

/-- Modelled from the spec: `hash_fill` (not part of these sources)
precomputes the hash of every element of the bound sequence, once. -/
def hash_fill {α : Type} (hash : α → Nat) (n : Nat) (x : SEXP α) : List Nat :=
  (List.range n).map (fun i => hash_scalar hash x i)

/-- The dictionary object of `dictionary.h`. -/
structure dictionary (α : Type) where
  x : SEXP α
  key : List Int
  hash : Option (List Nat)
  size : Nat
  used : Nat

/-! ## `ceil2` and `dict_init` -/

/-- Value that an `int32_t` holds after an arithmetic step with the exact result
`v`: the two's complement wrap modulo `2 ^ 32` (signed overflow is undefined in C
and wraps on the usual machines). -/
def wrap_int32 (v : Int) : Int := (v + 2147483648) % 4294967296 - 2147483648

/-- Round up to a power of two (bit smearing), on `int32_t`; `>>>` on `Int`
is the arithmetic shift, and the decrement and the increment wrap. -/
def ceil2 (x : Int) : Int :=
  let x := wrap_int32 (x - 1)
  let x := Int.lor x (x >>> 1)
  let x := Int.lor x (x >>> 2)
  let x := Int.lor x (x >>> 4)
  let x := Int.lor x (x >>> 8)
  let x := Int.lor x (x >>> 16)
  wrap_int32 (x + 1)

/-- Initialisation of a dictionary for `x`.  The C expression
`vec_size(x) / 0.77` is a `double` that is truncated by the conversion to
`int32_t`; it is modelled by the truncated exact quotient `100 * n / 77`
(the conversion is defined while the quotient is below `2 ^ 31`). -/
def dict_init {α : Type} (hash : α → Nat) (x : SEXP α) (hashed : Bool) :
    dictionary α :=
  let size : Int := ceil2 (Int.ofNat (100 * vec_size x / 77))
  let size : Int := if size < 16 then 16 else size
  { x := x
    key := List.replicate size.toNat DICT_EMPTY
    hash := if hashed then some (hash_fill hash (vec_size x) x) else none
    size := size.toNat
    used := 0 }

/-! ## Probing -/

/-- The probe expression `(hash + k * (k + 1) / 2) % d->size` in `uint32_t`
arithmetic. -/
def dict_probe (size hash k : Nat) : Nat :=
  ((hash + (k * (k + 1)) % 2 ^ 32 / 2) % 2 ^ 32) % size

/-- The probing loop of `dict_hash_scalar`, `fuel` iterations left, at
iteration `k`. -/
def dict_hash_scalar_loop {α : Type} (eq : α → α → Bool) (d : dictionary α)
    (y : SEXP α) (i : Nat) (hash : Nat) : Nat → Nat → Except dict_error Nat
  | 0, _ => .error .dictionary_full
  | fuel + 1, k =>
    let probe := dict_probe d.size hash k
    if k > 1 ∧ probe = hash then
      .error .dictionary_full
    else
      let idx := aget d.key probe
      if idx = DICT_EMPTY then
        .ok probe
      else if equal_scalar eq d.x idx.toNat y i = true then
        .ok probe
      else
        dict_hash_scalar_loop eq d y i hash fuel (k + 1)

/-- Slot of the element `y[i]` in the dictionary: the slot holding an equal
element, or the empty slot where it is to be inserted. -/
def dict_hash_scalar {α : Type} (hash : α → Nat) (eq : α → α → Bool)
    (d : dictionary α) (y : SEXP α) (i : Nat) : Except dict_error Nat :=
  match d.hash with
  | some h =>
    if d.x.addr ≠ y.addr then
      .error .hashed_unhashed
    else
      dict_hash_scalar_loop eq d y i (uget h i) d.size 0
  | none =>
    dict_hash_scalar_loop eq d y i (hash_scalar hash y i) d.size 0

/-- Store position `i` in slot `hash`. -/
def dict_put {α : Type} (d : dictionary α) (hash : Nat) (i : Nat) :
    dictionary α :=
  { d with key := d.key.set hash (i : Int), used := d.used + 1 }

/-! ## Loops and growable buffers -/

/-- Iterations `i, i + 1, ...` of a counted loop, `fuel` of them. -/
def for_loop_from {σ ε : Type} (body : Nat → σ → Except ε σ) :
    Nat → Nat → σ → Except ε σ
  | 0, _, s => .ok s
  | fuel + 1, i, s =>
    match body i s with
    | .error e => .error e
    | .ok s1 => for_loop_from body fuel (i + 1) s1

/-- The loop `for (int i = 0; i < n; ++i) body`. -/
def for_loop {σ ε : Type} (n : Nat) (body : Nat → σ → Except ε σ) (s : σ) :
    Except ε σ :=
  for_loop_from body n 0 s

/-- Modelled from the spec: a growable buffer (`growable.h`, not part of these
sources) is an append-only array. -/
def growable_init : List Int := []

/-- Modelled from the spec: `push` appends a value. -/
def growable_push_int (g : List Int) (v : Int) : List Int := g ++ [v]

/-- Modelled from the spec: `finalize` yields the used prefix. -/
def growable_values (g : List Int) : List Int := g

/-! ## Entry points

The body of every counted loop is a function of the loop index and of the
variables that the loop modifies. -/

/-- Body of the loop of `vctrs_unique_loc`; the state is the dictionary and
the growable buffer. -/
def unique_loc_body {α : Type} (hash : α → Nat) (eq : α → α → Bool) (x : SEXP α)
    (i : Nat) (s : dictionary α × List Int) :
    Except dict_error (dictionary α × List Int) :=
  match dict_hash_scalar hash eq s.1 x i with
  | .error e => .error e
  | .ok h =>
    if aget s.1.key h = DICT_EMPTY then
      .ok (dict_put s.1 h i, growable_push_int s.2 ((i : Int) + 1))
    else
      .ok s

/-- Positions of the first occurrences. -/
def vctrs_unique_loc {α : Type} (hash : α → Nat) (eq : α → α → Bool)
    (x : SEXP α) : Except dict_error (List Int) :=
  let d := dict_init hash x true
  let g := growable_init
  let n := vec_size x
  match for_loop n (unique_loc_body hash eq x) (d, g) with
  | .error e => .error e
  | .ok s => .ok (growable_values s.2)

/-- The loop of `vctrs_duplicated_any`, which leaves at the first element
found in the dictionary; `fuel` iterations left, at iteration `i`. -/
def vctrs_duplicated_any_loop {α : Type} (hash : α → Nat) (eq : α → α → Bool)
    (x : SEXP α) : Nat → Nat → dictionary α → Except dict_error Bool
  | 0, _, _ => .ok false
  | fuel + 1, i, d =>
    match dict_hash_scalar hash eq d x i with
    | .error e => .error e
    | .ok h =>
      if aget d.key h = DICT_EMPTY then
        vctrs_duplicated_any_loop hash eq x fuel (i + 1) (dict_put d h i)
      else
        .ok true

/-- Is any element of `x` a duplicate of an earlier one. -/
def vctrs_duplicated_any {α : Type} (hash : α → Nat) (eq : α → α → Bool)
    (x : SEXP α) : Except dict_error Bool :=
  let d := dict_init hash x false
  let n := vec_size x
  vctrs_duplicated_any_loop hash eq x n 0 d

/-- Body of the loop that loads a dictionary with the elements of `x`, the
same statements in `vctrs_n_distinct`, `vctrs_match` and `vctrs_in`:
`hash = dict_hash_scalar(&d, x, i); if (d.key[hash] == DICT_EMPTY) dict_put(&d, hash, i);` -/
def load_body {α : Type} (hash : α → Nat) (eq : α → α → Bool) (x : SEXP α)
    (i : Nat) (d : dictionary α) : Except dict_error (dictionary α) :=
  match dict_hash_scalar hash eq d x i with
  | .error e => .error e
  | .ok h =>
    if aget d.key h = DICT_EMPTY then
      .ok (dict_put d h i)
    else
      .ok d

/-- Number of distinct elements. -/
def vctrs_n_distinct {α : Type} (hash : α → Nat) (eq : α → α → Bool)
    (x : SEXP α) : Except dict_error Int :=
  let d := dict_init hash x true
  let n := vec_size x
  match for_loop n (load_body hash eq x) d with
  | .error e => .error e
  | .ok d => .ok (d.used : Int)

/-- Body of the loop of `vctrs_id`; the state is the dictionary and `p_out`. -/
def id_body {α : Type} (hash : α → Nat) (eq : α → α → Bool) (x : SEXP α)
    (i : Nat) (s : dictionary α × List Int) :
    Except dict_error (dictionary α × List Int) :=
  match dict_hash_scalar hash eq s.1 x i with
  | .error e => .error e
  | .ok h =>
    let d := if aget s.1.key h = DICT_EMPTY then dict_put s.1 h i else s.1
    .ok (d, s.2.set i (aget d.key h + 1))

/-- Group identifier of every element. -/
def vctrs_id {α : Type} (hash : α → Nat) (eq : α → α → Bool)
    (x : SEXP α) : Except dict_error (List Int) :=
  let d := dict_init hash x true
  let n := vec_size x
  let out : List Int := List.replicate n 0
  match for_loop n (id_body hash eq x) (d, out) with
  | .error e => .error e
  | .ok s => .ok s.2

/-- Body of the loop of `vctrs_match` that locates the needles; the state is
`p_out`. -/
def match_body {α : Type} (hash : α → Nat) (eq : α → α → Bool)
    (d : dictionary α) (needles : SEXP α) (i : Nat) (out : List Int) :
    Except dict_error (List Int) :=
  match dict_hash_scalar hash eq d needles i with
  | .error e => .error e
  | .ok h =>
    if aget d.key h = DICT_EMPTY then
      .ok (out.set i NA_INTEGER)
    else
      .ok (out.set i (aget d.key h + 1))

/-- Position in `haystack` of every element of `needles`. -/
def vctrs_match {α : Type} (hash : α → Nat) (eq : α → α → Bool)
    (needles haystack : SEXP α) : Except dict_error (List Int) :=
  let d := dict_init hash haystack false
  let n_haystack := vec_size haystack
  match for_loop n_haystack (load_body hash eq haystack) d with
  | .error e => .error e
  | .ok d =>
    let n_needle := vec_size needles
    let out : List Int := List.replicate n_needle 0
    for_loop n_needle (match_body hash eq d needles) out

/-- Body of the loop of `vctrs_in` that locates the needles; the state is
`p_out`. -/
def in_body {α : Type} (hash : α → Nat) (eq : α → α → Bool)
    (d : dictionary α) (needles : SEXP α) (i : Nat) (out : List Bool) :
    Except dict_error (List Bool) :=
  match dict_hash_scalar hash eq d needles i with
  | .error e => .error e
  | .ok h => .ok (out.set i (decide (aget d.key h ≠ DICT_EMPTY)))

/-- Membership in `haystack` of every element of `needles`. -/
def vctrs_in {α : Type} (hash : α → Nat) (eq : α → α → Bool)
    (needles haystack : SEXP α) : Except dict_error (List Bool) :=
  let d := dict_init hash haystack false
  let n_haystack := vec_size haystack
  match for_loop n_haystack (load_body hash eq haystack) d with
  | .error e => .error e
  | .ok d =>
    let n_needle := vec_size needles
    let out : List Bool := List.replicate n_needle false
    for_loop n_needle (in_body hash eq d needles) out

/-- Body of the counting loop, the same statements in `vctrs_count` and
`vctrs_duplicated`; the state is the dictionary and `p_val`. -/
def count_body {α : Type} (hash : α → Nat) (eq : α → α → Bool) (x : SEXP α)
    (i : Nat) (s : dictionary α × List Int) :
    Except dict_error (dictionary α × List Int) :=
  match dict_hash_scalar hash eq s.1 x i with
  | .error e => .error e
  | .ok h =>
    let s : dictionary α × List Int :=
      if aget s.1.key h = DICT_EMPTY then
        (dict_put s.1 h i, s.2.set h 0)
      else
        s
    .ok (s.1, s.2.set h (aget s.2 h + 1))

/-- Body of the output loop of `vctrs_count`, over the slots; the state is
`p_out_key`, `p_out_val` and the output index `i`. -/
def count_out_body {α : Type} (d : dictionary α) (val : List Int)
    (h : Nat) (s : List Int × List Int × Nat) :
    Except dict_error (List Int × List Int × Nat) :=
  if aget d.key h = DICT_EMPTY then
    .ok s
  else
    .ok (s.1.set s.2.2 (aget d.key h + 1),
         s.2.1.set s.2.2 (aget val h),
         s.2.2 + 1)

/-- Frequency of every distinct element: the pair of `key` and `val`. -/
def vctrs_count {α : Type} (hash : α → Nat) (eq : α → α → Bool)
    (x : SEXP α) : Except dict_error (List Int × List Int) :=
  let d := dict_init hash x true
  let val : List Int := List.replicate d.size 0
  let n := vec_size x
  match for_loop n (count_body hash eq x) (d, val) with
  | .error e => .error e
  | .ok s =>
    let out_key : List Int := List.replicate s.1.used 0
    let out_val : List Int := List.replicate s.1.used 0
    match for_loop s.1.size (count_out_body s.1 s.2) (out_key, out_val, 0) with
    | .error e => .error e
    | .ok o => .ok (o.1, o.2.1)

/-- Body of the output loop of `vctrs_duplicated`; the state is `p_out`. -/
def duplicated_out_body {α : Type} (hash : α → Nat) (eq : α → α → Bool)
    (d : dictionary α) (val : List Int) (x : SEXP α) (i : Nat) (out : List Bool) :
    Except dict_error (List Bool) :=
  match dict_hash_scalar hash eq d x i with
  | .error e => .error e
  | .ok h => .ok (out.set i (decide (aget val h ≠ 1)))

/-- Flag of every element whose value occurs more than once. -/
def vctrs_duplicated {α : Type} (hash : α → Nat) (eq : α → α → Bool)
    (x : SEXP α) : Except dict_error (List Bool) :=
  let d := dict_init hash x true
  let val : List Int := List.replicate d.size 0
  let n := vec_size x
  match for_loop n (count_body hash eq x) (d, val) with
  | .error e => .error e
  | .ok s =>
    let out : List Bool := List.replicate n false
    for_loop n (duplicated_out_body hash eq s.1 s.2 x) out

/-- State of the first loop of `vctrs_duplicate_split`. -/
structure split_state (α : Type) where
  d : dictionary α
  tracker : List Int
  count : List Int
  out_pos : List Int

/-- State of the last loop of `vctrs_duplicate_split`. -/
structure split_out where
  out_key : List Int
  out_idx : List (List Int)
  counters : List Int

/-- Body of the first loop of `vctrs_duplicate_split`: fill the dictionary,
`out_pos` and `count`. -/
def split_body {α : Type} (hash : α → Nat) (eq : α → α → Bool) (x : SEXP α)
    (i : Nat) (s : split_state α) : Except dict_error (split_state α) :=
  match dict_hash_scalar hash eq s.d x i with
  | .error e => .error e
  | .ok h =>
    let s : split_state α :=
      if aget s.d.key h = DICT_EMPTY then
        { s with
          tracker := s.tracker.set h (s.d.used : Int)
          d := dict_put s.d h i
          count := s.count.set h 0 }
      else
        s
    .ok { s with
          out_pos := s.out_pos.set i (aget s.tracker h)
          count := s.count.set h (aget s.count h + 1) }

/-- Body of the second loop of `vctrs_duplicate_split`, over the slots: set
up the empty index container. -/
def split_alloc_body {α : Type} (s : split_state α) (h : Nat)
    (out_idx : List (List Int)) : Except dict_error (List (List Int)) :=
  if aget s.d.key h = DICT_EMPTY then
    .ok out_idx
  else
    .ok (out_idx.set (aget s.tracker h).toNat
          (List.replicate (aget s.count h).toNat 0))

/-- Body of the last loop of `vctrs_duplicate_split`: fill the index
container and the key locations. -/
def split_fill_body {α : Type} (s : split_state α) (i : Nat) (o : split_out) :
    Except dict_error split_out :=
  let j := (aget s.out_pos i).toNat
  let hash := aget o.counters j
  let out_key :=
    if hash = 0 then o.out_key.set j ((i : Int) + 1) else o.out_key
  .ok { out_key := out_key
        out_idx := o.out_idx.set j
          ((o.out_idx.getD j []).set hash.toNat ((i : Int) + 1))
        counters := o.counters.set j (hash + 1) }

/-- First occurrences and, for each of them, the positions of its group: the
pair of `key` and `idx`. -/
def vctrs_duplicate_split {α : Type} (hash : α → Nat) (eq : α → α → Bool)
    (x : SEXP α) : Except dict_error (List Int × List (List Int)) :=
  let d := dict_init hash x true
  let tracker : List Int := List.replicate d.size 0
  let count : List Int := List.replicate d.size 0
  let n := vec_size x
  let out_pos : List Int := List.replicate n 0
  match for_loop n (split_body hash eq x)
      { d := d, tracker := tracker, count := count, out_pos := out_pos } with
  | .error e => .error e
  | .ok s =>
    let out_key : List Int := List.replicate s.d.used 0
    let out_idx : List (List Int) := List.replicate s.d.used []
    let counters : List Int := List.replicate s.d.used 0
    match for_loop s.d.size (split_alloc_body s) out_idx with
    | .error e => .error e
    | .ok out_idx =>
      match for_loop n (split_fill_body s)
          { out_key := out_key, out_idx := out_idx, counters := counters } with
      | .error e => .error e
      | .ok o => .ok (o.out_key, o.out_idx)

/-! ## Auxiliary definitions of the proofs -/

/-- The five smearing steps of `ceil2` on a natural number. -/
def smear (y : Nat) : Nat :=
  let y := y ||| y >>> 1
  let y := y ||| y >>> 2
  let y := y ||| y >>> 4
  let y := y ||| y >>> 8
  y ||| y >>> 16

/-- The probing loop stops at slot `s`: it is empty or holds an element equal to `y[i]`. -/
def dict_stop {α : Type} (eq : α → α → Bool) (d : dictionary α) (y : SEXP α) (i : Nat)
    (s : Nat) : Prop :=
  aget d.key s = DICT_EMPTY ∨ equal_scalar eq d.x (aget d.key s).toNat y i = true

/-- The hash that `dict_hash_scalar` starts probing from. -/
def dict_hash_of {α : Type} (hash : α → Nat) (d : dictionary α) (y : SEXP α) (i : Nat) : Nat :=
  match d.hash with
  | some h => uget h i
  | none => hash_scalar hash y i

/-- The hypotheses on the element level equality and hash: the equality is an equivalence
relation and equal elements hash identically. -/
structure eq_hash_ok {α : Type} (hash : α → Nat) (eq : α → α → Bool) : Prop where
  refl : ∀ a, eq a a = true
  symm : ∀ a b, eq a b = true → eq b a = true
  trans : ∀ a b c, eq a b = true → eq b c = true → eq a c = true
  hash_eq : ∀ a b, eq a b = true → hash a = hash b

/-- Shape of a dictionary for `x` after positions `0 .. i - 1` of `x` were processed;
it holds whatever the equality is. -/
structure dict_wf {α : Type} (hash : α → Nat) (hashed : Bool) (x : SEXP α)
    (d : dictionary α) (i : Nat) : Prop where
  hx : d.x = x
  hpow : ∃ m, m ≤ 30 ∧ d.size = 2 ^ m
  hbig : vec_size x < d.size
  hlen : d.key.length = d.size
  hused : d.used = d.key.countP (fun v => decide (v ≠ DICT_EMPTY))
  hle : d.used ≤ i
  hkeys : ∀ s, s < d.size → aget d.key s = DICT_EMPTY ∨ ∃ j : Nat, j < i ∧ aget d.key s = (j : Int)
  hinj : ∀ s t, s < d.size → t < d.size → aget d.key s ≠ DICT_EMPTY →
    aget d.key s = aget d.key t → s = t
  hhash : d.hash = if hashed then some (hash_fill hash (vec_size x) x) else none

/-- Content of a dictionary for `x` after positions `0 .. i - 1` of `x` were processed:
every slot holds a first occurrence, reachable along its probe sequence through occupied
slots holding different elements, and every processed element has its first occurrence in
the table. -/
structure dict_inv {α : Type} (hash : α → Nat) (eq : α → α → Bool) (hashed : Bool)
    (x : SEXP α) (d : dictionary α) (i : Nat) : Prop where
  wf : dict_wf hash hashed x d i
  hfirst : ∀ (s j : Nat), s < d.size → aget d.key s = (j : Int) →
    ∀ j', j' < j → equal_scalar eq x j' x j = false
  hpath : ∀ (s j : Nat), s < d.size → aget d.key s = (j : Int) →
    ∃ k, k < d.size ∧ dict_probe d.size (hash_scalar hash x j) k = s ∧
      ∀ k', k' < k → ∃ j' : Nat,
        aget d.key (dict_probe d.size (hash_scalar hash x j) k') = (j' : Int) ∧
        equal_scalar eq x j' x j = false
  hcover : ∀ j, j < i → ∃ (s j0 : Nat), s < d.size ∧ aget d.key s = (j0 : Int) ∧
    equal_scalar eq x j0 x j = true

/-- Position `i` holds the first occurrence of its element: no earlier position holds an
equal element. -/
def is_first {α : Type} (eq : α → α → Bool) (x : SEXP α) (i : Nat) : Bool :=
  decide (∀ j, j < i → equal_scalar eq x j x i = false)

/-- One-based positions of the first occurrences among positions `0 .. i - 1`. -/
def first_locs {α : Type} (eq : α → α → Bool) (x : SEXP α) (i : Nat) : List Int :=
  ((List.range i).filter (is_first eq x)).map (fun (j : Nat) => (j : Int) + 1)

/-- Element equality and hash of the concrete scenarios: identity on numbers, hashed by
parity so that different elements collide. -/
def nat_eq (a b : Nat) : Bool := a == b

/-- Hash of the concrete scenarios. -/
def nat_hash (a : Nat) : Nat := a % 2

/-- Read of an R logical vector, `p[i]`. -/
def bget (p : List Bool) (i : Nat) : Bool := p.getD i false

/-- The probe sequence as the specification writes it:
`probe_k = (hash + k * (k + 1) / 2) mod capacity`. -/
def probe_k (capacity hash k : Nat) : Nat :=
  (hash + k * (k + 1) / 2) % capacity

/-- Number of positions `k < i` whose element is equal to the one at position `j`. -/
def freq_upto {α : Type} (eq : α → α → Bool) (x : SEXP α) (j i : Nat) : Nat :=
  (List.range i).countP (fun k => equal_scalar eq x j x k)

/-- Occupied slots below `h`, in ascending order. -/
def occupied {α : Type} (d : dictionary α) (h : Nat) : List Nat :=
  (List.range h).filter (fun s => decide (aget d.key s ≠ DICT_EMPTY))

/-- Number of first occurrences before position `j`: the index of the group of a first
occurrence `j` in the output of `vctrs_duplicate_split`. -/
def rank_of {α : Type} (eq : α → α → Bool) (x : SEXP α) (j : Nat) : Nat :=
  (first_locs eq x j).length

/-- State of `vctrs_duplicate_split` after its first loop processed positions
`0 .. i - 1`. -/
structure split_inv {α : Type} (hash : α → Nat) (eq : α → α → Bool) (x : SEXP α)
    (s : split_state α) (i : Nat) : Prop where
  inv : dict_inv hash eq true x s.d i
  hused : s.d.used = rank_of eq x i
  htl : s.tracker.length = s.d.size
  hcl : s.count.length = s.d.size
  hol : s.out_pos.length = vec_size x
  htr : ∀ (t j : Nat), t < s.d.size → aget s.d.key t = (j : Int) →
    aget s.tracker t = (rank_of eq x j : Int)
  hcnt : ∀ (t j : Nat), t < s.d.size → aget s.d.key t = (j : Int) →
    aget s.count t = (freq_upto eq x j i : Int)
  hpos : ∀ k, k < i → ∃ j0 : Nat, equal_scalar eq x j0 x k = true ∧
    (∀ a, a < j0 → equal_scalar eq x a x j0 = false) ∧
    aget s.out_pos k = (rank_of eq x j0 : Int)

/-- State of the last loop of `vctrs_duplicate_split` after positions `0 .. i - 1`: for
every first occurrence `j`, the counter, the buffer and the key of its group. -/
structure fill_inv {α : Type} (eq : α → α → Bool) (x : SEXP α) (used : Nat)
    (o : split_out) (i : Nat) : Prop where
  hkl : o.out_key.length = used
  hil : o.out_idx.length = used
  hcl : o.counters.length = used
  hgrp : ∀ j, j < vec_size x → (∀ a, a < j → equal_scalar eq x a x j = false) →
    aget o.counters (rank_of eq x j) = (freq_upto eq x j i : Int) ∧
    (o.out_idx.getD (rank_of eq x j) []).length = freq_upto eq x j (vec_size x) ∧
    (o.out_idx.getD (rank_of eq x j) []).take (freq_upto eq x j i) =
      ((List.range i).filter (fun k => equal_scalar eq x j x k)).map
        (fun (k : Nat) => (k : Int) + 1) ∧
    (j < i → aget o.out_key (rank_of eq x j) = (j : Int) + 1)

/-- Least power of two that is at least `v`, the `nextPow2` of the specification. -/
def next_pow2 (v : Nat) : Nat := 2 ^ Nat.clog 2 v

/-- Capacity as the specification writes it, `max(16, nextPow2(ceil(n / 0.77)))`, with
`n / 0.77` read as the exact rational `100 n / 77`. -/
def spec_capacity (n : Nat) : Nat := max 16 (next_pow2 ((100 * n + 76) / 77))

/-- Dictionaries that the filling loops reach: `dict_reach hash eq hashed x d i` holds when
`d` is the table built by `dict_init` for `x` after the positions `0 .. i - 1` of `x` went
through `dict_hash_scalar` and, on an empty slot, `dict_put`. -/
inductive dict_reach {α : Type} (hash : α → Nat) (eq : α → α → Bool) (hashed : Bool)
    (x : SEXP α) : dictionary α → Nat → Prop where
  | init : dict_reach hash eq hashed x (dict_init hash x hashed) 0
  | put (d : dictionary α) (i h : Nat) : dict_reach hash eq hashed x d i →
      i < vec_size x → dict_hash_scalar hash eq d x i = .ok h →
      aget d.key h = DICT_EMPTY → dict_reach hash eq hashed x (dict_put d h i) (i + 1)
  | keep (d : dictionary α) (i h : Nat) : dict_reach hash eq hashed x d i →
      i < vec_size x → dict_hash_scalar hash eq d x i = .ok h →
      aget d.key h ≠ DICT_EMPTY → dict_reach hash eq hashed x d (i + 1)

/-- Modelled from the spec: `unique_positions_applied_as_filter`, the sequence of the
elements of `x` at the one-based positions `locs` (the subsetting is done on the R side,
not in these sources); the result is a new vector. -/
def vec_slice {α : Type} (x : SEXP α) (locs : List Int) : SEXP α :=
  { addr := x.addr + 1
    elts := locs.filterMap (fun p => x.elts[(p - 1).toNat]?) }

/-! ## The truelength cache (`src/order-truelength.c`)

`R_xlen_t` values are `Int`; `uint64_t` values are `Nat` below `2 ^ 64`.  The strings
(`CHARSXP`) are values of a type `β` with decidable identity; their `TRUELENGTH` fields
form the tag store `β → Int`. -/

/-- The structure `truelength_info` of `order-truelength.h`; the arrays stand for the R
vectors and for the pointers into them. -/
structure truelength_info (β : Type) where
  strings : List β
  lengths : List Int
  uniques : List β
  sizes : List Int
  sizes_aux : List Int
  size_alloc : Int
  max_size_alloc : Int
  size_used : Int
  max_string_size : Int
  reencode : Bool

/-- Construct a new `truelength_info`; `R_NilValue` is the empty array. -/
def new_truelength_info {β : Type} (max_size_alloc : Int) : truelength_info β :=
  { strings := []
    lengths := []
    uniques := []
    sizes := []
    sizes_aux := []
    size_alloc := 0
    max_size_alloc := max_size_alloc
    size_used := 0
    max_string_size := 0
    reencode := false }

/-- The assignment `SET_TRUELENGTH(string, length)` on the tag store. -/
def SET_TRUELENGTH {β : Type} [DecidableEq β] (T : β → Int) (string : β) (length : Int) :
    β → Int :=
  fun e => if e = string then length else T e

/-- The loop of `truelength_reset`, `fuel` iterations left, at iteration `i`. -/
def truelength_reset_loop {β : Type} [DecidableEq β] (p : truelength_info β) :
    Nat → Nat → (β → Int) → (β → Int)
  | 0, _, T => T
  | fuel + 1, i, T =>
    match p.strings[i]? with
    | some string =>
      truelength_reset_loop p fuel (i + 1) (SET_TRUELENGTH T string (aget p.lengths i))
    | none => truelength_reset_loop p fuel (i + 1) T

/-- Reset the truelengths of all strings captured in `strings` using the original
truelengths in `lengths`; returns the cache and the tag store. -/
def truelength_reset {β : Type} [DecidableEq β] (p : truelength_info β) (T : β → Int) :
    truelength_info β × (β → Int) :=
  let size := p.size_used
  let T := truelength_reset_loop p size.toNat 0 T
  ({ p with size_used := 0, max_string_size := 0, reencode := false }, T)

/-- Conversion of an `R_xlen_t` to `uint64_t`. -/
def to_uint64 (v : Int) : Nat := (v % 2 ^ 64).toNat

/-- Conversion of a `uint64_t` to `R_xlen_t`. -/
def to_xlen (u : Nat) : Int := if u < 2 ^ 63 then (u : Int) else (u : Int) - 2 ^ 64

/-- The size of the next allocation; `size_default` is the constant
`TRUELENGTH_SIZE_ALLOC_DEFAULT` of `order-truelength.h`. -/
def truelength_realloc_size {β : Type} (size_default : Int) (p : truelength_info β) : Int :=
  let size_alloc := p.size_alloc
  let max_size_alloc := p.max_size_alloc
  if size_alloc = 0 then
    if size_default < max_size_alloc then size_default else max_size_alloc
  else
    let new_size_alloc : Nat := (to_uint64 size_alloc * 2) % 2 ^ 64
    if new_size_alloc > to_uint64 max_size_alloc then
      max_size_alloc
    else
      to_xlen new_size_alloc

/-- Modelled from the spec: `p_chr_resize` and `p_int_resize` (`utils.c`, not part of
these sources) allocate an array of `size` elements and copy the first `x_size` elements of
the old one, as far as they fit; `fill` stands for the content of fresh memory. -/
def p_resize {γ : Type} (fill : γ) (p_x : List γ) (x_size size : Int) : List γ :=
  p_x.take (min x_size size).toNat ++ List.replicate (size - min x_size size).toNat fill

/-- Extension of the array of original truelengths: `memcpy` of `size_old` elements into
an array of `size_new` elements. -/
def truelength_lengths_extend (p_lengths : List Int) (size_old size_new : Int) : List Int :=
  p_lengths.take size_old.toNat ++ List.replicate (size_new - size_old).toNat 0

/-- Extend the vectors in `truelength_info`; `blank` is the string of a fresh character
vector. -/
def truelength_realloc {β : Type} (size_default : Int) (blank : β) (p : truelength_info β) :
    truelength_info β :=
  let size := truelength_realloc_size size_default p
  { p with
    strings := p_resize blank p.strings p.size_used size
    lengths := truelength_lengths_extend p.lengths p.size_used size
    uniques := p_resize blank p.uniques p.size_used size
    sizes := p_resize 0 p.sizes p.size_used size
    sizes_aux := p_resize 0 p.sizes_aux p.size_used size
    size_alloc := size }

/-- Save a string `x` along with its original truelength and its size. -/
def truelength_save {β : Type} (size_default : Int) (blank : β) (p : truelength_info β)
    (x : β) (truelength : Int) (size : Int) : truelength_info β :=
  let p := if p.size_used = p.size_alloc then truelength_realloc size_default blank p else p
  { p with
    strings := p.strings.set p.size_used.toNat x
    lengths := p.lengths.set p.size_used.toNat truelength
    uniques := p.uniques.set p.size_used.toNat x
    sizes := p.sizes.set p.size_used.toNat size
    size_used := p.size_used + 1 }

/-- Consistency of a cache: the bounds on the three sizes and arrays of `size_alloc`
elements. -/
structure truelength_wf {β : Type} (p : truelength_info β) : Prop where
  h0 : 0 ≤ p.size_used
  h1 : p.size_used ≤ p.size_alloc
  h2 : p.size_alloc ≤ p.max_size_alloc
  h3 : p.max_size_alloc < 2 ^ 63
  hs : p.strings.length = p.size_alloc.toNat
  hl : p.lengths.length = p.size_alloc.toNat
  hu : p.uniques.length = p.size_alloc.toNat
  hz : p.sizes.length = p.size_alloc.toNat
  ha : p.sizes_aux.length = p.size_alloc.toNat

/-- The cache in which `truelength_save` writes: after the reallocation when the arrays
are full, unchanged otherwise. -/
def truelength_room {β : Type} (size_default : Int) (blank : β) (p : truelength_info β) :
    truelength_info β :=
  if p.size_used = p.size_alloc then truelength_realloc size_default blank p else p

/-- The cache after the entries `es`, pairs of a string and its size, were saved one after
the other with their truelength in the tag store `T`. -/
def truelength_save_all {β : Type} (size_default : Int) (blank : β) (T : β → Int)
    (p : truelength_info β) (es : List (β × Int)) : truelength_info β :=
  es.foldl (fun p e => truelength_save size_default blank p e.1 (T e.1) e.2) p

/-- The vector of the `n` pairwise distinct elements `0, 1, ..., n - 1`. -/
def distinct_vec (n : Nat) : SEXP Nat :=
  { addr := 0, elts := List.range n }

/-- State of a dictionary of 16 slots for `x` in which the positions `0 .. i - 1` of `x`
each occupy one slot. -/
structure dict_small {α : Type} (x : SEXP α) (d : dictionary α) (i : Nat) : Prop where
  hx : d.x = x
  hsize : d.size = 16
  hlen : d.key.length = 16
  hused : d.key.countP (fun v => decide (v ≠ DICT_EMPTY)) = i
  hkeys : ∀ s, s < 16 → aget d.key s = DICT_EMPTY ∨ ∃ j : Nat, j < i ∧ aget d.key s = (j : Int)

/-! # Theorems -/

/-! ## Triangular numbers modulo a power of two -/

theorem tri_double (k : Nat) : 2 * (k * (k + 1) / 2) = k * (k + 1) := by
  have h : 2 ∣ k * (k + 1) := (Nat.even_mul_succ_self k).two_dvd
  exact Nat.mul_div_cancel' h

theorem tri_mod_inj (m a b : Nat) (hab : a < b) (hb : b < 2 ^ m)
    (h : a * (a + 1) / 2 % 2 ^ m = b * (b + 1) / 2 % 2 ^ m) : False := by
  have h1 : (2 * (a * (a + 1) / 2)) % (2 * 2 ^ m) = (2 * (b * (b + 1) / 2)) % (2 * 2 ^ m) := by
    rw [Nat.mul_mod_mul_left, Nat.mul_mod_mul_left, h]
  rw [tri_double, tri_double] at h1
  obtain ⟨d, rfl⟩ : ∃ d, b = a + d + 1 := ⟨b - a - 1, by omega⟩
  have h2 : (2 * 2 ^ m) ∣ (a + d + 1) * (a + d + 1 + 1) - a * (a + 1) :=
    (Nat.modEq_iff_dvd' (by nlinarith)).mp h1
  have h3 : (a + d + 1) * (a + d + 1 + 1) - a * (a + 1) = (d + 1) * (2 * a + d + 2) := by
    have : (a + d + 1) * (a + d + 1 + 1) = a * (a + 1) + (d + 1) * (2 * a + d + 2) := by ring
    omega
  rw [h3, ← pow_succ'] at h2
  rcases Nat.even_or_odd d with hd | hd
  · -- d + 1 is odd
    have hc : Nat.Coprime (2 ^ (m + 1)) (d + 1) := by
      apply Nat.Coprime.pow_left
      exact (Nat.coprime_two_left).mpr hd.add_one
    have h4 := hc.dvd_of_dvd_mul_left h2
    have h5 := Nat.le_of_dvd (by omega) h4
    rw [pow_succ] at h5
    omega
  · have hc : Nat.Coprime (2 ^ (m + 1)) (2 * a + d + 2) := by
      apply Nat.Coprime.pow_left
      obtain ⟨e, he⟩ := hd
      exact (Nat.coprime_two_left).mpr ⟨a + e + 1, by omega⟩
    have h4 := hc.dvd_of_dvd_mul_right h2
    have h5 := Nat.le_of_dvd (by omega) h4
    omega

/-- The wrapped probe expression is the mathematical one. -/
theorem dict_probe_eq (m hash k : Nat) (hm : m ≤ 31) :
    dict_probe (2 ^ m) hash k = (hash + k * (k + 1) / 2) % 2 ^ m := by
  unfold dict_probe
  have h1 : k * (k + 1) % 2 ^ 32 / 2 = (k * (k + 1) / 2) % 2 ^ 31 := by
    conv_lhs => rw [← tri_double k]
    rw [show (2:Nat) ^ 32 = 2 * 2 ^ 31 by norm_num, Nat.mul_mod_mul_left]
    simp
  rw [h1]
  have d1 : 2 ^ m ∣ 2 ^ 32 := pow_dvd_pow 2 (by omega)
  have d2 : 2 ^ m ∣ 2 ^ 31 := pow_dvd_pow 2 hm
  rw [Nat.mod_mod_of_dvd _ d1, Nat.add_mod, Nat.mod_mod_of_dvd _ d2, ← Nat.add_mod]

theorem dict_probe_lt (m hash k : Nat) : dict_probe (2 ^ m) hash k < 2 ^ m :=
  Nat.mod_lt _ (by positivity)

theorem dict_probe_inj (m hash a b : Nat) (hm : m ≤ 31) (ha : a < 2 ^ m) (hb : b < 2 ^ m)
    (h : dict_probe (2 ^ m) hash a = dict_probe (2 ^ m) hash b) : a = b := by
  rw [dict_probe_eq m hash a hm, dict_probe_eq m hash b hm] at h
  have h' : a * (a + 1) / 2 % 2 ^ m = b * (b + 1) / 2 % 2 ^ m :=
    Nat.ModEq.add_left_cancel' hash h
  rcases Nat.lt_trichotomy a b with hlt | heq | hgt
  · exact (tri_mod_inj m a b hlt hb h').elim
  · exact heq
  · exact (tri_mod_inj m b a hgt ha h'.symm).elim

theorem dict_probe_surj (m hash s : Nat) (hm : m ≤ 31) (hs : s < 2 ^ m) :
    ∃ k, k < 2 ^ m ∧ dict_probe (2 ^ m) hash k = s := by
  let f : Fin (2 ^ m) → Fin (2 ^ m) := fun k => ⟨dict_probe (2 ^ m) hash k, dict_probe_lt m hash k⟩
  have hf : Function.Injective f := by
    intro a b hab
    have := congrArg Fin.val hab
    exact Fin.ext (dict_probe_inj m hash a b hm a.2 b.2 this)
  obtain ⟨k, hk⟩ := Finite.surjective_of_injective hf ⟨s, hs⟩
  exact ⟨k, k.2, congrArg Fin.val hk⟩

/-! ## `ceil2` -/

/-- One smearing step doubles the window of bits that are or-ed together. -/
theorem or_shift_window (y z w : Nat)
    (hz : ∀ i, z.testBit i = true ↔ ∃ j, j < w ∧ y.testBit (i + j) = true) (i : Nat) :
    (z ||| z >>> w).testBit i = true ↔ ∃ j, j < 2 * w ∧ y.testBit (i + j) = true := by
  rw [Nat.testBit_or, Bool.or_eq_true, Nat.testBit_shiftRight, hz, hz]
  constructor
  · rintro (⟨j, hj, h⟩ | ⟨j, hj, h⟩)
    · exact ⟨j, by omega, h⟩
    · refine ⟨w + j, by omega, ?_⟩
      rw [show i + (w + j) = w + i + j by omega]
      exact h
  · rintro ⟨j, hj, h⟩
    by_cases hjw : j < w
    · exact Or.inl ⟨j, hjw, h⟩
    · refine Or.inr ⟨j - w, by omega, ?_⟩
      rw [show w + i + (j - w) = i + j by omega]
      exact h

theorem smear_testBit (y i : Nat) :
    (smear y).testBit i = true ↔ ∃ j, j < 32 ∧ y.testBit (i + j) = true := by
  have h0 : ∀ i, y.testBit i = true ↔ ∃ j, j < 1 ∧ y.testBit (i + j) = true := by
    intro i
    constructor
    · intro h
      exact ⟨0, by omega, h⟩
    · rintro ⟨j, hj, h⟩
      have : j = 0 := by omega
      subst this
      exact h
  have h1 := or_shift_window y _ 1 h0
  have h2 := or_shift_window y _ 2 h1
  have h3 := or_shift_window y _ 4 h2
  have h4 := or_shift_window y _ 8 h3
  exact or_shift_window y _ 16 h4 i

theorem testBit_top (y b : Nat) (h1 : 2 ^ b ≤ y) (h2 : y < 2 ^ (b + 1)) :
    y.testBit b = true := by
  obtain ⟨r, rfl⟩ : ∃ r, y = 2 ^ b + r := ⟨y - 2 ^ b, by omega⟩
  rw [Nat.testBit_two_pow_add_eq, Nat.testBit_lt_two_pow (by rw [pow_succ] at h2; omega)]
  rfl

theorem smear_eq (y b : Nat) (hb : b < 32) (h1 : 2 ^ b ≤ y) (h2 : y < 2 ^ (b + 1)) :
    smear y = 2 ^ (b + 1) - 1 := by
  apply Nat.eq_of_testBit_eq
  intro i
  rw [Nat.testBit_two_pow_sub_one, Bool.eq_iff_iff, smear_testBit, decide_eq_true_iff]
  constructor
  · rintro ⟨j, _, h⟩
    by_contra hcon
    have hle : 2 ^ (b + 1) ≤ 2 ^ (i + j) := Nat.pow_le_pow_right (by omega) (by omega)
    have := Nat.testBit_lt_two_pow (lt_of_lt_of_le h2 hle)
    rw [this] at h
    exact Bool.noConfusion h
  · intro hi
    refine ⟨b - i, by omega, ?_⟩
    rw [show i + (b - i) = b by omega]
    exact testBit_top y b h1 h2

theorem wrap_int32_eq (v : Int) (h1 : -2147483648 ≤ v) (h2 : v < 2147483648) :
    wrap_int32 v = v := by
  unfold wrap_int32
  omega

theorem ceil2_natCast (n : Nat) (hn : 1 ≤ n) (h2 : n ≤ 2 ^ 31)
    (hs : smear (n - 1) + 1 < 2 ^ 31) :
    ceil2 (n : Int) = ((smear (n - 1) + 1 : Nat) : Int) := by
  obtain ⟨y, rfl⟩ : ∃ y, n = y + 1 := ⟨n - 1, by omega⟩
  have h : wrap_int32 (((y + 1 : Nat) : Int) - 1) = (y : Int) := by
    rw [wrap_int32_eq _ (by omega) (by omega)]
    omega
  unfold ceil2
  simp only [h]
  show wrap_int32 (((smear y : Nat) : Int) + 1) = _
  rw [wrap_int32_eq _ (by omega) (by simp only [Nat.add_sub_cancel] at hs; omega)]
  rfl

theorem ceil2_zero : ceil2 0 = 0 := by decide

/-- On `1 ≤ n ≤ 2 ^ 30`, `ceil2 n` is the least power of two that is at least `n`. -/
theorem ceil2_spec (n : Nat) (h1 : 1 ≤ n) (h2 : n ≤ 2 ^ 30) :
    ∃ m, m ≤ 30 ∧ ceil2 (n : Int) = ((2 ^ m : Nat) : Int) ∧ n ≤ 2 ^ m ∧ 2 ^ m < 2 * n := by
  by_cases hy : n - 1 = 0
  · refine ⟨0, by omega, ?_, by omega, by omega⟩
    have hn : n = 1 := by omega
    rw [hn]
    decide
  · have hlo := Nat.log2_self_le hy
    have hhi := @Nat.lt_log2_self (n - 1)
    have hb : (n - 1).log2 < 30 := (Nat.log2_lt hy).mpr (by omega)
    have hsm := smear_eq (n - 1) _ (by omega) hlo hhi
    have hpos : 0 < 2 ^ ((n - 1).log2 + 1) := by positivity
    have hple : 2 ^ ((n - 1).log2 + 1) ≤ 2 ^ 30 := Nat.pow_le_pow_right (by omega) (by omega)
    rw [ceil2_natCast n h1 (by omega) (by rw [hsm]; omega)]
    refine ⟨(n - 1).log2 + 1, by omega, ?_, ?_, ?_⟩
    · rw [hsm]
      congr 1
      omega
    · omega
    · rw [pow_succ]
      omega

theorem dict_size_spec (n : Nat) (h : 100 * n / 77 ≤ 2 ^ 30) :
    ∃ m, 4 ≤ m ∧ m ≤ 30 ∧
      (if ceil2 (Int.ofNat (100 * n / 77)) < 16 then (16 : Int)
        else ceil2 (Int.ofNat (100 * n / 77))).toNat = 2 ^ m ∧ n < 2 ^ m := by
  by_cases h0 : 100 * n / 77 = 0
  · refine ⟨4, by omega, by omega, ?_, by omega⟩
    rw [h0]
    decide
  · obtain ⟨m, hm, hc, hle, hlt⟩ := ceil2_spec (100 * n / 77) (by omega) (by omega)
    rw [Int.ofNat_eq_coe, hc]
    by_cases h16 : ((2 ^ m : Nat) : Int) < 16
    · rw [if_pos h16]
      have : (2:Nat) ^ m < 2 ^ 4 := by omega
      refine ⟨4, by omega, by omega, by decide, ?_⟩
      omega
    · rw [if_neg h16]
      have h4 : (2:Nat) ^ 4 ≤ 2 ^ m := by omega
      have hm4 : 4 ≤ m := (Nat.pow_le_pow_iff_right (by omega)).mp h4
      have hm30 : m ≤ 30 := by
        by_contra hcon
        have : (2:Nat) ^ 31 ≤ 2 ^ m := Nat.pow_le_pow_right (by omega) (by omega)
        omega
      refine ⟨m, hm4, hm30, Int.toNat_ofNat _, ?_⟩
      omega

/-! ## Arrays -/

theorem aget_set (l : List Int) (s t : Nat) (v : Int) :
    aget (l.set s v) t = if s = t ∧ s < l.length then v else aget l t := by
  unfold aget
  rw [List.getD_eq_getElem?_getD, List.getD_eq_getElem?_getD, List.getElem?_set]
  by_cases h : s = t
  · subst h
    by_cases h2 : s < l.length
    · simp [h2]
    · simp [h2]
      rw [List.getElem?_eq_none (by omega)]
      rfl
  · simp [h]

theorem aget_set_self (l : List Int) (s : Nat) (v : Int) (hs : s < l.length) :
    aget (l.set s v) s = v := by
  rw [aget_set]; simp [hs]

theorem aget_set_ne (l : List Int) (s t : Nat) (v : Int) (hs : s ≠ t) :
    aget (l.set s v) t = aget l t := by
  rw [aget_set]; simp [hs]

theorem aget_replicate (n : Nat) (v : Int) (s : Nat) (hs : s < n) :
    aget (List.replicate n v) s = v := by
  unfold aget
  rw [List.getD_eq_getElem?_getD, List.getElem?_replicate]
  simp [hs]

theorem aget_eq_getElem (l : List Int) (s : Nat) (hs : s < l.length) :
    aget l s = l[s] := by
  unfold aget
  exact List.getD_eq_getElem l 0 hs

/-! ## The probing loop -/

theorem dict_hash_scalar_loop_found {α : Type} (eq : α → α → Bool) (d : dictionary α)
    (y : SEXP α) (i hash : Nat) :
    ∀ (fuel k k0 : Nat), k ≤ k0 → k0 < k + fuel →
      (∀ k', k ≤ k' → k' ≤ k0 → ¬ (k' > 1 ∧ dict_probe d.size hash k' = hash)) →
      (∀ k', k ≤ k' → k' < k0 → ¬ dict_stop eq d y i (dict_probe d.size hash k')) →
      dict_stop eq d y i (dict_probe d.size hash k0) →
      dict_hash_scalar_loop eq d y i hash fuel k = .ok (dict_probe d.size hash k0) := by
  intro fuel
  induction fuel with
  | zero => intro k k0 h1 h2; omega
  | succ fuel ih =>
    intro k k0 h1 h2 hbrk hnot hstop
    unfold dict_hash_scalar_loop
    simp only
    rw [if_neg (hbrk k (le_refl k) h1)]
    by_cases hk : k = k0
    · subst hk
      rcases hstop with he | he
      · rw [if_pos he]
      · by_cases he' : aget d.key (dict_probe d.size hash k) = DICT_EMPTY
        · rw [if_pos he']
        · rw [if_neg he', if_pos he]
    · have hlt : k < k0 := by omega
      have hns := hnot k (le_refl k) hlt
      unfold dict_stop at hns
      push_neg at hns
      rw [if_neg hns.1, if_neg hns.2]
      exact ih (k + 1) k0 (by omega) (by omega)
        (fun k' a b => hbrk k' (by omega) b)
        (fun k' a b => hnot k' (by omega) b) hstop

theorem dict_probe_zero (m hash : Nat) (hm : m ≤ 31) (h : hash < 2 ^ m) :
    dict_probe (2 ^ m) hash 0 = hash := by
  rw [dict_probe_eq m hash 0 hm]
  simp [Nat.mod_eq_of_lt h]

/-- With an empty slot in a table of size `2 ^ m`, the probing loop returns the first slot
of the probe sequence at which it stops. -/
theorem dict_hash_scalar_loop_total {α : Type} (eq : α → α → Bool) (d : dictionary α)
    (y : SEXP α) (i hash m : Nat) (hm : m ≤ 31) (hsize : d.size = 2 ^ m)
    (hempty : ∃ s, s < d.size ∧ aget d.key s = DICT_EMPTY) :
    ∃ k0, k0 < d.size ∧
      dict_hash_scalar_loop eq d y i hash d.size 0 = .ok (dict_probe d.size hash k0) ∧
      dict_stop eq d y i (dict_probe d.size hash k0) ∧
      ∀ k', k' < k0 → ¬ dict_stop eq d y i (dict_probe d.size hash k') := by
  classical
  obtain ⟨s, hs, hse⟩ := hempty
  rw [hsize] at hs
  obtain ⟨k1, hk1, hk1s⟩ := dict_probe_surj m hash s hm hs
  have hex : ∃ k, k < d.size ∧ dict_stop eq d y i (dict_probe d.size hash k) := by
    refine ⟨k1, by rw [hsize]; exact hk1, Or.inl ?_⟩
    rw [hsize, hk1s]
    exact hse
  refine ⟨Nat.find hex, (Nat.find_spec hex).1, ?_, (Nat.find_spec hex).2, ?_⟩
  · apply dict_hash_scalar_loop_found eq d y i hash d.size 0 (Nat.find hex) (Nat.zero_le _)
    · have := (Nat.find_spec hex).1
      omega
    · intro k' _ hk' hcon
      have hk'lt : k' < 2 ^ m := by
        have := (Nat.find_spec hex).1
        omega
      have hlt : hash < 2 ^ m := by
        rw [← hcon.2, hsize]
        exact dict_probe_lt m hash k'
      have h0 := dict_probe_zero m hash hm hlt
      have h1 := hcon.2
      rw [hsize] at h1
      have := dict_probe_inj m hash k' 0 hm hk'lt (by positivity) (by rw [h1, h0])
      omega
    · intro k' _ hk' hcon
      exact Nat.find_min hex hk' ⟨by have := (Nat.find_spec hex).1; omega, hcon⟩
    · exact (Nat.find_spec hex).2
  · intro k' hk' hcon
    exact Nat.find_min hex hk' ⟨by have := (Nat.find_spec hex).1; omega, hcon⟩

theorem dict_hash_scalar_eq_loop {α : Type} (hash : α → Nat) (eq : α → α → Bool)
    (d : dictionary α) (y : SEXP α) (i : Nat) (h : d.hash = none ∨ d.x = y) :
    dict_hash_scalar hash eq d y i =
      dict_hash_scalar_loop eq d y i (dict_hash_of hash d y i) d.size 0 := by
  unfold dict_hash_scalar dict_hash_of
  cases hh : d.hash with
  | none => rfl
  | some hs =>
    rcases h with h | h
    · rw [hh] at h; exact Option.noConfusion h
    · simp [h]

/-! ## Positional equality and hash -/

theorem equal_scalar_iff {α : Type} (eq : α → α → Bool) (x y : SEXP α) (i j : Nat) :
    equal_scalar eq x i y j = true ↔
      ∃ a b, x.elts[i]? = some a ∧ y.elts[j]? = some b ∧ eq a b = true := by
  unfold equal_scalar
  cases h1 : x.elts[i]? with
  | none => simp
  | some a =>
    cases h2 : y.elts[j]? with
    | none => simp
    | some b => simp

theorem equal_scalar_refl {α : Type} {hash : α → Nat} {eq : α → α → Bool}
    (ok : eq_hash_ok hash eq) (x : SEXP α) (i : Nat) (hi : i < vec_size x) :
    equal_scalar eq x i x i = true := by
  rw [equal_scalar_iff]
  exact ⟨x.elts[i], x.elts[i], List.getElem?_eq_getElem hi, List.getElem?_eq_getElem hi,
    ok.refl _⟩

theorem equal_scalar_symm {α : Type} {hash : α → Nat} {eq : α → α → Bool}
    (ok : eq_hash_ok hash eq) (x y : SEXP α) (i j : Nat)
    (h : equal_scalar eq x i y j = true) : equal_scalar eq y j x i = true := by
  rw [equal_scalar_iff] at *
  obtain ⟨a, b, ha, hb, hab⟩ := h
  exact ⟨b, a, hb, ha, ok.symm a b hab⟩

theorem equal_scalar_trans {α : Type} {hash : α → Nat} {eq : α → α → Bool}
    (ok : eq_hash_ok hash eq) (x y z : SEXP α) (i j k : Nat)
    (h1 : equal_scalar eq x i y j = true) (h2 : equal_scalar eq y j z k = true) :
    equal_scalar eq x i z k = true := by
  rw [equal_scalar_iff] at *
  obtain ⟨a, b, ha, hb, hab⟩ := h1
  obtain ⟨b', c, hb', hc, hbc⟩ := h2
  rw [hb] at hb'
  cases hb'
  exact ⟨a, c, ha, hc, ok.trans a b c hab hbc⟩

theorem hash_scalar_eq {α : Type} {hash : α → Nat} {eq : α → α → Bool}
    (ok : eq_hash_ok hash eq) (x y : SEXP α) (i j : Nat)
    (h : equal_scalar eq x i y j = true) : hash_scalar hash x i = hash_scalar hash y j := by
  rw [equal_scalar_iff] at h
  obtain ⟨a, b, ha, hb, hab⟩ := h
  unfold hash_scalar
  rw [ha, hb]
  simp only
  rw [ok.hash_eq a b hab]

theorem equal_scalar_lt {α : Type} (eq : α → α → Bool) (x y : SEXP α) (i j : Nat)
    (h : equal_scalar eq x i y j = true) : i < vec_size x ∧ j < vec_size y := by
  rw [equal_scalar_iff] at h
  obtain ⟨a, b, ha, hb, _⟩ := h
  have h1 := (List.getElem?_eq_some_iff.mp ha).1
  have h2 := (List.getElem?_eq_some_iff.mp hb).1
  exact ⟨h1, h2⟩

/-! ## The shape invariant -/

theorem dict_wf_init {α : Type} (hash : α → Nat) (hashed : Bool) (x : SEXP α)
    (hn : 100 * vec_size x / 77 ≤ 2 ^ 30) :
    dict_wf hash hashed x (dict_init hash x hashed) 0 := by
  obtain ⟨m, _, hm, hsz, hlt⟩ := dict_size_spec (vec_size x) hn
  have hkey : ∀ s, s < 2 ^ m → aget (List.replicate (2 ^ m) DICT_EMPTY) s = DICT_EMPTY :=
    fun s hs => aget_replicate _ _ s hs
  refine ⟨rfl, ⟨m, hm, hsz⟩, ?_, ?_, ?_, le_refl _, ?_, ?_, rfl⟩
  · show vec_size x < Int.toNat _
    rw [hsz]; exact hlt
  · show (List.replicate (Int.toNat _) DICT_EMPTY).length = Int.toNat _
    simp
  · show 0 = List.countP _ (List.replicate (Int.toNat _) DICT_EMPTY)
    rw [hsz, List.countP_replicate]
    simp
  · intro s hs
    left
    show aget (List.replicate (Int.toNat _) DICT_EMPTY) s = DICT_EMPTY
    rw [hsz]
    exact hkey s (by rw [← hsz]; exact hs)
  · intro s t hs _ hne
    exfalso
    apply hne
    show aget (List.replicate (Int.toNat _) DICT_EMPTY) s = DICT_EMPTY
    rw [hsz]
    exact hkey s (by rw [← hsz]; exact hs)

theorem dict_wf_mono {α : Type} {hash : α → Nat} {hashed : Bool} {x : SEXP α}
    {d : dictionary α} {i : Nat} (wf : dict_wf hash hashed x d i) :
    dict_wf hash hashed x d (i + 1) := by
  refine ⟨wf.hx, wf.hpow, wf.hbig, wf.hlen, wf.hused, Nat.le_succ_of_le wf.hle, ?_, wf.hinj,
    wf.hhash⟩
  intro s hs
  rcases wf.hkeys s hs with h | ⟨j, hj, h⟩
  · exact Or.inl h
  · exact Or.inr ⟨j, Nat.lt_succ_of_lt hj, h⟩

theorem dict_put_key {α : Type} (d : dictionary α) (s i : Nat) :
    (dict_put d s i).key = d.key.set s (i : Int) := rfl

theorem dict_put_size {α : Type} (d : dictionary α) (s i : Nat) :
    (dict_put d s i).size = d.size := rfl

theorem dict_put_used {α : Type} (d : dictionary α) (s i : Nat) :
    (dict_put d s i).used = d.used + 1 := rfl

theorem dict_put_x {α : Type} (d : dictionary α) (s i : Nat) :
    (dict_put d s i).x = d.x := rfl

theorem natCast_ne_empty (j : Nat) : (j : Int) ≠ DICT_EMPTY := by
  unfold DICT_EMPTY
  omega

theorem dict_wf_put {α : Type} {hash : α → Nat} {hashed : Bool} {x : SEXP α}
    {d : dictionary α} {i : Nat} (wf : dict_wf hash hashed x d i) (s : Nat)
    (hs : s < d.size) (he : aget d.key s = DICT_EMPTY) :
    dict_wf hash hashed x (dict_put d s i) (i + 1) := by
  have hsl : s < d.key.length := by rw [wf.hlen]; exact hs
  refine ⟨wf.hx, wf.hpow, wf.hbig, ?_, ?_, ?_, ?_, ?_, wf.hhash⟩
  · show (d.key.set s (i : Int)).length = d.size
    rw [List.length_set]; exact wf.hlen
  · show d.used + 1 = List.countP _ (d.key.set s (i : Int))
    rw [List.countP_set _ _ _ _ hsl, wf.hused]
    have h1 : d.key[s] = DICT_EMPTY := by rw [← aget_eq_getElem _ _ hsl]; exact he
    rw [h1]
    simp [natCast_ne_empty]
  · show d.used + 1 ≤ i + 1
    exact Nat.succ_le_succ wf.hle
  · intro t ht
    rw [dict_put_key]
    by_cases hst : s = t
    · subst hst
      right
      exact ⟨i, Nat.lt_succ_self i, aget_set_self _ _ _ hsl⟩
    · rw [aget_set_ne _ _ _ _ hst]
      rcases wf.hkeys t ht with h | ⟨j, hj, h⟩
      · exact Or.inl h
      · exact Or.inr ⟨j, Nat.lt_succ_of_lt hj, h⟩
  · intro t u ht hu
    show aget (d.key.set s (i : Int)) t ≠ DICT_EMPTY →
      aget (d.key.set s (i : Int)) t = aget (d.key.set s (i : Int)) u → t = u
    have hfresh : ∀ v, v < d.size → aget d.key v ≠ (i : Int) := by
      intro v hv hcon
      rcases wf.hkeys v hv with h | ⟨j, hj, h⟩
      · rw [h] at hcon
        exact natCast_ne_empty i hcon.symm
      · rw [h] at hcon
        omega
    by_cases hst : s = t
    · by_cases hsu : s = u
      · intro _ _; rw [← hst, ← hsu]
      · rw [← hst, aget_set_self _ _ _ hsl, aget_set_ne _ _ _ _ hsu]
        intro _ h
        exact (hfresh u hu h.symm).elim
    · by_cases hsu : s = u
      · rw [← hsu, aget_set_self _ _ _ hsl, aget_set_ne _ _ _ _ hst]
        intro _ h
        exact (hfresh t ht h).elim
      · rw [aget_set_ne _ _ _ _ hst, aget_set_ne _ _ _ _ hsu]
        exact wf.hinj t u ht hu

theorem dict_wf_empty {α : Type} {hash : α → Nat} {hashed : Bool} {x : SEXP α}
    {d : dictionary α} {i : Nat} (wf : dict_wf hash hashed x d i) (hi : i ≤ vec_size x) :
    ∃ s, s < d.size ∧ aget d.key s = DICT_EMPTY := by
  by_contra hcon
  push_neg at hcon
  have hall : ∀ a ∈ d.key, decide (a ≠ DICT_EMPTY) = true := by
    intro a ha
    obtain ⟨s, hs, rfl⟩ := List.getElem_of_mem ha
    rw [decide_eq_true_iff, ← aget_eq_getElem _ _ hs]
    exact hcon s (by rw [← wf.hlen]; exact hs)
  have h1 := List.countP_eq_length.mpr hall
  have h2 := wf.hused
  have h3 := wf.hle
  have h4 := wf.hbig
  have h5 := wf.hlen
  omega

theorem dict_hash_of_eq {α : Type} {hash : α → Nat} {hashed : Bool} {x : SEXP α}
    {d : dictionary α} {i : Nat} (wf : dict_wf hash hashed x d i) (y : SEXP α) (q : Nat)
    (hq : hashed = false ∨ (y = x ∧ q < vec_size x)) :
    dict_hash_of hash d y q = hash_scalar hash y q := by
  unfold dict_hash_of
  rw [wf.hhash]
  cases hashed with
  | false => rfl
  | true =>
    rcases hq with h | ⟨rfl, hq⟩
    · exact Bool.noConfusion h
    · simp only [if_true]
      unfold uget hash_fill
      rw [List.getD_eq_getElem?_getD, List.getElem?_map, List.getElem?_range hq]
      rfl

/-- Under the shape invariant every probe returns a slot of the table: the first slot of
the probe sequence that is empty or holds an element equal to the query. -/
theorem dict_hash_scalar_total {α : Type} {hash : α → Nat} (eq : α → α → Bool)
    {hashed : Bool} {x : SEXP α} {d : dictionary α} {i : Nat}
    (wf : dict_wf hash hashed x d i) (hi : i ≤ vec_size x) (y : SEXP α) (q : Nat)
    (hq : hashed = false ∨ (y = x ∧ q < vec_size x)) :
    ∃ k0, k0 < d.size ∧
      dict_hash_scalar hash eq d y q = .ok (dict_probe d.size (hash_scalar hash y q) k0) ∧
      dict_probe d.size (hash_scalar hash y q) k0 < d.size ∧
      dict_stop eq d y q (dict_probe d.size (hash_scalar hash y q) k0) ∧
      ∀ k', k' < k0 → ¬ dict_stop eq d y q (dict_probe d.size (hash_scalar hash y q) k') := by
  obtain ⟨m, hm, hsize⟩ := wf.hpow
  have hloop : dict_hash_scalar hash eq d y q =
      dict_hash_scalar_loop eq d y q (hash_scalar hash y q) d.size 0 := by
    rw [dict_hash_scalar_eq_loop, dict_hash_of_eq wf y q hq]
    rcases hq with h | ⟨h, _⟩
    · left; rw [wf.hhash, h]; rfl
    · right; rw [wf.hx, h]
  obtain ⟨k0, hk0, hres, hstop, hmin⟩ :=
    dict_hash_scalar_loop_total eq d y q (hash_scalar hash y q) m (by omega) hsize
      (dict_wf_empty wf hi)
  refine ⟨k0, hk0, by rw [hloop, hres], ?_, hstop, hmin⟩
  rw [hsize]
  exact dict_probe_lt m _ k0

/-! ## The content invariant -/

theorem dict_inv_init {α : Type} (hash : α → Nat) (eq : α → α → Bool) (hashed : Bool)
    (x : SEXP α) (hn : 100 * vec_size x / 77 ≤ 2 ^ 30) :
    dict_inv hash eq hashed x (dict_init hash x hashed) 0 := by
  have wf := dict_wf_init hash hashed x hn
  have hempty : ∀ s (j : Nat), s < (dict_init hash x hashed).size →
      aget (dict_init hash x hashed).key s = (j : Int) → False := by
    intro s j hs h
    rcases wf.hkeys s hs with h1 | ⟨j', hj', _⟩
    · rw [h1] at h
      exact natCast_ne_empty j h.symm
    · omega
  refine ⟨wf, ?_, ?_, ?_⟩
  · intro s j hs h
    exact (hempty s j hs h).elim
  · intro s j hs h
    exact (hempty s j hs h).elim
  · intro j hj
    omega

/-- Result of a probe under the content invariant: an empty slot when no processed element
equals the query (with the probe path that leads to it), the slot of the first occurrence
of an equal element otherwise. -/
theorem dict_lookup {α : Type} {hash : α → Nat} {eq : α → α → Bool}
    (ok : eq_hash_ok hash eq) {hashed : Bool} {x : SEXP α} {d : dictionary α} {i : Nat}
    (inv : dict_inv hash eq hashed x d i) (hi : i ≤ vec_size x) (y : SEXP α) (q : Nat)
    (hq : hashed = false ∨ (y = x ∧ q < vec_size x)) :
    ∃ s, s < d.size ∧ dict_hash_scalar hash eq d y q = .ok s ∧
      ((aget d.key s = DICT_EMPTY ∧
          (∀ j, j < i → equal_scalar eq x j y q = false) ∧
          ∃ k0, k0 < d.size ∧ dict_probe d.size (hash_scalar hash y q) k0 = s ∧
            ∀ k', k' < k0 → ∃ j' : Nat,
              aget d.key (dict_probe d.size (hash_scalar hash y q) k') = (j' : Int) ∧
              equal_scalar eq x j' y q = false) ∨
        (∃ j : Nat, j < i ∧ aget d.key s = (j : Int) ∧ equal_scalar eq x j y q = true ∧
          ∀ j', j' < j → equal_scalar eq x j' x j = false)) := by
  obtain ⟨k0, hk0, hres, hlt, hstop, hmin⟩ := dict_hash_scalar_total eq inv.wf hi y q hq
  obtain ⟨m, hm, hsize⟩ := inv.wf.hpow
  have hplt : ∀ k, dict_probe d.size (hash_scalar hash y q) k < d.size := by
    intro k; rw [hsize]; exact dict_probe_lt m _ k
  -- slots before `k0` are occupied by elements different from the query
  have hbefore : ∀ k', k' < k0 → ∃ j' : Nat,
      aget d.key (dict_probe d.size (hash_scalar hash y q) k') = (j' : Int) ∧
      equal_scalar eq x j' y q = false := by
    intro k' hk'
    have hns := hmin k' hk'
    unfold dict_stop at hns
    push_neg at hns
    rcases inv.wf.hkeys _ (hplt k') with h | ⟨j', _, h⟩
    · exact (hns.1 h).elim
    · refine ⟨j', h, ?_⟩
      have h2 := hns.2
      rw [h, Int.toNat_ofNat, inv.wf.hx] at h2
      simpa using h2
  refine ⟨_, hlt, hres, ?_⟩
  by_cases he : aget d.key (dict_probe d.size (hash_scalar hash y q) k0) = DICT_EMPTY
  · left
    refine ⟨he, ?_, k0, hk0, rfl, hbefore⟩
    intro j hj
    by_contra hcon
    have hjq : equal_scalar eq x j y q = true := by simpa using hcon
    obtain ⟨s0, j0, hs0, hkey0, hj0⟩ := inv.hcover j hj
    have hj0q := equal_scalar_trans ok x x y j0 j q hj0 hjq
    have hh := hash_scalar_eq ok x y j0 q hj0q
    obtain ⟨k1, hk1, hp1, hb1⟩ := inv.hpath s0 j0 hs0 hkey0
    rw [hh] at hp1 hb1
    rcases Nat.lt_trichotomy k0 k1 with hlt1 | heq1 | hgt1
    · obtain ⟨j', hj', _⟩ := hb1 k0 hlt1
      rw [he] at hj'
      exact natCast_ne_empty j' hj'.symm
    · rw [heq1, hp1, hkey0] at he
      exact natCast_ne_empty j0 he
    · apply hmin k1 hgt1
      right
      rw [hp1, hkey0, Int.toNat_ofNat, inv.wf.hx]
      exact hj0q
  · right
    rcases hstop with h | h
    · exact (he h).elim
    · rcases inv.wf.hkeys _ hlt with h1 | ⟨j, hj, h1⟩
      · exact (he h1).elim
      · rw [h1, Int.toNat_ofNat, inv.wf.hx] at h
        exact ⟨j, hj, h1, h, inv.hfirst _ j hlt h1⟩

theorem dict_inv_mono {α : Type} {hash : α → Nat} {eq : α → α → Bool}
    {hashed : Bool} {x : SEXP α} {d : dictionary α} {i : Nat}
    (inv : dict_inv hash eq hashed x d i)
    (hc : ∃ (s j0 : Nat), s < d.size ∧ aget d.key s = (j0 : Int) ∧
      equal_scalar eq x j0 x i = true) :
    dict_inv hash eq hashed x d (i + 1) := by
  refine ⟨dict_wf_mono inv.wf, inv.hfirst, inv.hpath, ?_⟩
  intro j hj
  by_cases hji : j = i
  · rw [hji]; exact hc
  · exact inv.hcover j (by omega)

theorem dict_inv_put {α : Type} {hash : α → Nat} {eq : α → α → Bool}
    (ok : eq_hash_ok hash eq) {hashed : Bool} {x : SEXP α} {d : dictionary α} {i : Nat}
    (inv : dict_inv hash eq hashed x d i) (hi : i < vec_size x) (s : Nat) (hs : s < d.size)
    (he : aget d.key s = DICT_EMPTY)
    (hnew : ∀ j, j < i → equal_scalar eq x j x i = false)
    (hp : ∃ k0, k0 < d.size ∧ dict_probe d.size (hash_scalar hash x i) k0 = s ∧
      ∀ k', k' < k0 → ∃ j' : Nat,
        aget d.key (dict_probe d.size (hash_scalar hash x i) k') = (j' : Int) ∧
        equal_scalar eq x j' x i = false) :
    dict_inv hash eq hashed x (dict_put d s i) (i + 1) := by
  have hsl : s < d.key.length := by rw [inv.wf.hlen]; exact hs
  have hocc : ∀ t (j : Nat), aget d.key t = (j : Int) → s ≠ t := by
    intro t j ht hst
    rw [← hst, he] at ht
    exact natCast_ne_empty j ht.symm
  refine ⟨dict_wf_put inv.wf s hs he, ?_, ?_, ?_⟩
  · intro t j ht hkey
    rw [dict_put_key] at hkey
    by_cases hst : s = t
    · rw [← hst, aget_set_self _ _ _ hsl] at hkey
      have : i = j := by omega
      rw [← this]
      exact hnew
    · rw [aget_set_ne _ _ _ _ hst] at hkey
      exact inv.hfirst t j ht hkey
  · intro t j ht hkey
    rw [dict_put_key] at hkey
    rw [dict_put_size, dict_put_key]
    by_cases hst : s = t
    · rw [← hst, aget_set_self _ _ _ hsl] at hkey
      have hij : i = j := by omega
      rw [← hij, ← hst]
      obtain ⟨k0, hk0, hp0, hb0⟩ := hp
      refine ⟨k0, hk0, hp0, ?_⟩
      intro k' hk'
      obtain ⟨j', h1, h2⟩ := hb0 k' hk'
      refine ⟨j', ?_, h2⟩
      rw [aget_set_ne _ _ _ _ (hocc _ j' h1)]
      exact h1
    · rw [aget_set_ne _ _ _ _ hst] at hkey
      obtain ⟨k1, hk1, hp1, hb1⟩ := inv.hpath t j ht hkey
      refine ⟨k1, hk1, hp1, ?_⟩
      intro k' hk'
      obtain ⟨j', h1, h2⟩ := hb1 k' hk'
      refine ⟨j', ?_, h2⟩
      rw [aget_set_ne _ _ _ _ (hocc _ j' h1)]
      exact h1
  · intro j hj
    rw [dict_put_size, dict_put_key]
    by_cases hji : j = i
    · refine ⟨s, i, hs, aget_set_self _ _ _ hsl, ?_⟩
      rw [hji]
      exact equal_scalar_refl ok x i hi
    · obtain ⟨s0, j0, hs0, hk0, hj0⟩ := inv.hcover j (by omega)
      refine ⟨s0, j0, hs0, ?_, hj0⟩
      rw [aget_set_ne _ _ _ _ (hocc _ j0 hk0)]
      exact hk0

/-- One iteration of a filling loop: the probe for `x[i]` returns a slot; either it is
empty, `x[i]` is a first occurrence and the invariant holds after `dict_put`, or it holds
the first occurrence `j < i` of `x[i]` and the invariant holds for the unchanged table. -/
theorem dict_step {α : Type} {hash : α → Nat} {eq : α → α → Bool}
    (ok : eq_hash_ok hash eq) {hashed : Bool} {x : SEXP α} {d : dictionary α} {i : Nat}
    (inv : dict_inv hash eq hashed x d i) (hi : i < vec_size x) :
    ∃ s, s < d.size ∧ dict_hash_scalar hash eq d x i = .ok s ∧
      ((aget d.key s = DICT_EMPTY ∧
          (∀ j, j < i → equal_scalar eq x j x i = false) ∧
          dict_inv hash eq hashed x (dict_put d s i) (i + 1)) ∨
        (∃ j : Nat, j < i ∧ aget d.key s = (j : Int) ∧ equal_scalar eq x j x i = true ∧
          (∀ j', j' < j → equal_scalar eq x j' x j = false) ∧
          dict_inv hash eq hashed x d (i + 1))) := by
  have hq : hashed = false ∨ (x = x ∧ i < vec_size x) := by
    cases hashed with
    | false => exact Or.inl rfl
    | true => exact Or.inr ⟨rfl, hi⟩
  obtain ⟨s, hs, hres, hcase⟩ := dict_lookup ok inv (Nat.le_of_lt hi) x i hq
  refine ⟨s, hs, hres, ?_⟩
  rcases hcase with ⟨he, hnew, hp⟩ | ⟨j, hj, hkey, hji, hfj⟩
  · exact Or.inl ⟨he, hnew, dict_inv_put ok inv hi s hs he hnew hp⟩
  · exact Or.inr ⟨j, hj, hkey, hji, hfj, dict_inv_mono inv ⟨s, j, hs, hkey, hji⟩⟩

/-! ## Counted loops -/

theorem for_loop_from_inv {σ ε : Type} (body : Nat → σ → Except ε σ) (n : Nat)
    (P : Nat → σ → Prop)
    (hstep : ∀ i s, i < n → P i s → ∃ s1, body i s = .ok s1 ∧ P (i + 1) s1) :
    ∀ fuel i s, i + fuel = n → P i s →
      ∃ s1, for_loop_from body fuel i s = .ok s1 ∧ P n s1 := by
  intro fuel
  induction fuel with
  | zero =>
    intro i s hi hP
    have : i = n := by omega
    subst this
    exact ⟨s, rfl, hP⟩
  | succ fuel ih =>
    intro i s hi hP
    obtain ⟨s1, hb, hP1⟩ := hstep i s (by omega) hP
    obtain ⟨s2, hl, hP2⟩ := ih (i + 1) s1 (by omega) hP1
    refine ⟨s2, ?_, hP2⟩
    unfold for_loop_from
    rw [hb]
    exact hl

/-- Invariant rule of the counted loop: the loop returns, in a state where the invariant
holds at `n`. -/
theorem for_loop_inv {σ ε : Type} (n : Nat) (body : Nat → σ → Except ε σ) (s0 : σ)
    (P : Nat → σ → Prop) (h0 : P 0 s0)
    (hstep : ∀ i s, i < n → P i s → ∃ s1, body i s = .ok s1 ∧ P (i + 1) s1) :
    ∃ s1, for_loop n body s0 = .ok s1 ∧ P n s1 :=
  for_loop_from_inv body n P hstep n 0 s0 (by omega) h0

/-! ## `vctrs_unique_loc` -/

theorem first_locs_succ_new {α : Type} (eq : α → α → Bool) (x : SEXP α) (i : Nat)
    (h : ∀ j, j < i → equal_scalar eq x j x i = false) :
    first_locs eq x (i + 1) = first_locs eq x i ++ [(i : Int) + 1] := by
  unfold first_locs
  have : is_first eq x i = true := by
    unfold is_first
    exact decide_eq_true h
  rw [List.range_succ, List.filter_append, List.map_append]
  simp [this]

theorem first_locs_succ_old {α : Type} (eq : α → α → Bool) (x : SEXP α) (i j : Nat)
    (hj : j < i) (h : equal_scalar eq x j x i = true) :
    first_locs eq x (i + 1) = first_locs eq x i := by
  unfold first_locs
  have : is_first eq x i = false := by
    unfold is_first
    apply decide_eq_false
    intro hcon
    rw [hcon j hj] at h
    exact Bool.noConfusion h
  rw [List.range_succ, List.filter_append, List.map_append]
  simp [this]

theorem unique_loc_loop {α : Type} {hash : α → Nat} {eq : α → α → Bool}
    (ok : eq_hash_ok hash eq) (x : SEXP α) (hn : 100 * vec_size x / 77 ≤ 2 ^ 30) :
    ∃ s, for_loop (vec_size x) (unique_loc_body hash eq x)
        (dict_init hash x true, growable_init) = .ok s ∧
      dict_inv hash eq true x s.1 (vec_size x) ∧ s.2 = first_locs eq x (vec_size x) := by
  apply for_loop_inv (vec_size x) _ _
    (fun i (s : dictionary α × List Int) =>
      dict_inv hash eq true x s.1 i ∧ s.2 = first_locs eq x i)
  · exact ⟨dict_inv_init hash eq true x hn, rfl⟩
  · rintro i ⟨d, g⟩ hi ⟨inv, hg⟩
    obtain ⟨s, hs, hres, hcase⟩ := dict_step ok inv hi
    unfold unique_loc_body
    simp only [hres]
    rcases hcase with ⟨he, hnew, inv1⟩ | ⟨j, hj, hkey, hji, _, inv1⟩
    · rw [if_pos he]
      refine ⟨_, rfl, inv1, ?_⟩
      simp only at hg
      rw [first_locs_succ_new eq x i hnew, ← hg]
      rfl
    · rw [if_neg (by rw [hkey]; exact natCast_ne_empty j)]
      refine ⟨_, rfl, inv1, ?_⟩
      rw [first_locs_succ_old eq x i j hj hji]
      exact hg

/-- C1: `vctrs_unique_loc` returns exactly the one-based positions `i + 1`, in ascending
order, of the positions `i` such that no `j < i` holds an element equal to `x[i]`: one
position per distinct element, its first occurrence. -/
theorem vctrs_unique_loc_spec {α : Type} (hash : α → Nat) (eq : α → α → Bool)
    (ok : eq_hash_ok hash eq) (x : SEXP α) (hn : 100 * vec_size x / 77 ≤ 2 ^ 30) :
    vctrs_unique_loc hash eq x =
      .ok (((List.range (vec_size x)).filter
        (fun i => decide (∀ j, j < i → equal_scalar eq x j x i = false))).map
          (fun (i : Nat) => (i : Int) + 1)) ∧
    List.Pairwise (fun a b => a < b)
      (((List.range (vec_size x)).filter
        (fun i => decide (∀ j, j < i → equal_scalar eq x j x i = false))).map
          (fun (i : Nat) => (i : Int) + 1)) := by
  constructor
  · obtain ⟨s, hloop, _, hg⟩ := unique_loc_loop ok x hn
    unfold vctrs_unique_loc
    simp only [hloop]
    simp only [growable_values, hg]
    rfl
  · rw [List.pairwise_map]
    apply List.Pairwise.filter
    apply List.Pairwise.imp _ (List.pairwise_lt_range _)
    intro a b hab
    omega

theorem nat_eq_hash_ok : eq_hash_ok nat_hash nat_eq := by
  refine ⟨?_, ?_, ?_, ?_⟩
  · intro a; simp [nat_eq]
  · intro a b h; simp [nat_eq] at *; omega
  · intro a b c h1 h2; simp [nat_eq] at *; omega
  · intro a b h; simp [nat_eq] at h; rw [h]

/-- C1, concrete scenario: `x = [3, 1, 3, 2, 1, 1]` gives `[1, 2, 4]`. -/
theorem vctrs_unique_loc_witness :
    vctrs_unique_loc nat_hash nat_eq ⟨0, [3, 1, 3, 2, 1, 1]⟩ = .ok [1, 2, 4] := by
  rw [(vctrs_unique_loc_spec nat_hash nat_eq nat_eq_hash_ok ⟨0, [3, 1, 3, 2, 1, 1]⟩
    (by decide)).1]
  rfl

/-! ## First occurrences as `List.findIdx` -/

theorem equal_scalar_getElem {α : Type} (eq : α → α → Bool) (x y : SEXP α) (i j : Nat)
    (hi : i < x.elts.length) (hj : j < y.elts.length) :
    equal_scalar eq x i y j = eq x.elts[i] y.elts[j] := by
  unfold equal_scalar
  rw [List.getElem?_eq_getElem hi, List.getElem?_eq_getElem hj]

theorem findIdx_of_first {α : Type} {hash : α → Nat} {eq : α → α → Bool}
    (ok : eq_hash_ok hash eq) (x y : SEXP α) (q j0 : Nat) (hq : q < y.elts.length)
    (h1 : equal_scalar eq x j0 y q = true)
    (h2 : ∀ j', j' < j0 → equal_scalar eq x j' x j0 = false) :
    x.elts.findIdx (fun b => eq b y.elts[q]) = j0 ∧
      x.elts.any (fun b => eq b y.elts[q]) = true := by
  have hj0 : j0 < x.elts.length := (equal_scalar_lt eq x y j0 q h1).1
  have h1' : eq x.elts[j0] y.elts[q] = true := by
    rw [← equal_scalar_getElem eq x y j0 q hj0 hq]; exact h1
  constructor
  · rw [List.findIdx_eq hj0]
    refine ⟨h1', ?_⟩
    intro j' hj'
    by_contra hcon
    have hc : eq x.elts[j'] y.elts[q] = true := by simpa using hcon
    have h3 : equal_scalar eq x j' y q = true := by
      rw [equal_scalar_getElem eq x y j' q (by omega) hq]; exact hc
    have h4 := equal_scalar_trans ok x y x j' q j0 h3 (equal_scalar_symm ok x y j0 q h1)
    rw [h2 j' hj'] at h4
    exact Bool.noConfusion h4
  · rw [List.any_eq_true]
    exact ⟨x.elts[j0], List.getElem_mem hj0, h1'⟩

theorem any_of_none {α : Type} (eq : α → α → Bool) (x y : SEXP α) (q : Nat)
    (hq : q < y.elts.length)
    (h : ∀ j, j < vec_size x → equal_scalar eq x j y q = false) :
    x.elts.any (fun b => eq b y.elts[q]) = false := by
  rw [List.any_eq_false]
  intro b hb
  obtain ⟨j, hj, rfl⟩ := List.getElem_of_mem hb
  have := h j hj
  rw [equal_scalar_getElem eq x y j q hj hq] at this
  simp [this]

theorem list_eq_map_of_aget {α : Type} (out : List Int) (l : List α) (f : α → Int)
    (hlen : out.length = l.length)
    (h : ∀ i (hi : i < l.length), aget out i = f l[i]) : out = l.map f := by
  apply List.ext_getElem
  · rw [List.length_map]; exact hlen
  · intro i h1 h2
    rw [List.getElem_map, ← aget_eq_getElem out i h1]
    exact h i (by omega)

/-! ## `vctrs_id` -/

theorem id_loop {α : Type} {hash : α → Nat} {eq : α → α → Bool}
    (ok : eq_hash_ok hash eq) (x : SEXP α) (hn : 100 * vec_size x / 77 ≤ 2 ^ 30) :
    ∃ s, for_loop (vec_size x) (id_body hash eq x)
        (dict_init hash x true, List.replicate (vec_size x) 0) = .ok s ∧
      s.2.length = vec_size x ∧
      ∀ j, j < vec_size x → ∃ j0 : Nat, aget s.2 j = (j0 : Int) + 1 ∧
        equal_scalar eq x j0 x j = true ∧
        ∀ j', j' < j0 → equal_scalar eq x j' x j0 = false := by
  obtain ⟨s, h1, _, h2, h3⟩ := for_loop_inv (vec_size x) (id_body hash eq x)
    (dict_init hash x true, List.replicate (vec_size x) 0)
    (fun i (s : dictionary α × List Int) =>
      dict_inv hash eq true x s.1 i ∧ s.2.length = vec_size x ∧
      ∀ j, j < i → ∃ j0 : Nat, aget s.2 j = (j0 : Int) + 1 ∧
        equal_scalar eq x j0 x j = true ∧
        ∀ j', j' < j0 → equal_scalar eq x j' x j0 = false)
    ⟨dict_inv_init hash eq true x hn, by simp, fun j hj => by omega⟩
    (by
      rintro i ⟨d, out⟩ hi ⟨inv, hlen, hout⟩
      simp only at hlen hout
      obtain ⟨s, hs, hres, hcase⟩ := dict_step ok inv hi
      have hsl : s < d.key.length := by rw [inv.wf.hlen]; exact hs
      unfold id_body
      simp only [hres]
      rcases hcase with ⟨he, hnew, inv1⟩ | ⟨j, hj, hkey, hji, hfj, inv1⟩
      · rw [if_pos he]
        refine ⟨_, rfl, inv1, by simp [hlen], ?_⟩
        intro j hj
        by_cases hji : j = i
        · subst hji
          refine ⟨j, ?_, equal_scalar_refl ok x j hi, hnew⟩
          simp only
          rw [aget_set_self _ _ _ (by omega), dict_put_key, aget_set_self _ _ _ hsl]
        · simp only
          rw [aget_set_ne _ _ _ _ (fun h => hji h.symm)]
          exact hout j (by omega)
      · rw [if_neg (by rw [hkey]; exact natCast_ne_empty j)]
        refine ⟨_, rfl, inv1, by simp [hlen], ?_⟩
        intro j1 hj1
        by_cases hji1 : j1 = i
        · subst hji1
          refine ⟨j, ?_, hji, hfj⟩
          simp only
          rw [aget_set_self _ _ _ (by omega), hkey]
        · simp only
          rw [aget_set_ne _ _ _ _ (fun h => hji1 h.symm)]
          exact hout j1 (by omega))
  exact ⟨s, h1, h2, h3⟩

/-- Below the overflow bound of `dict_init`, `100 * n / 77 ≤ 2 ^ 30`:
`vctrs_id(x)[i]` is the one-based position of the first occurrence of `x[i]`,
`1 + min { j | x[j] equals x[i] }`, and the element at that position equals `x[i]`. -/
theorem vctrs_id_spec {α : Type} (hash : α → Nat) (eq : α → α → Bool)
    (ok : eq_hash_ok hash eq) (x : SEXP α) (hn : 100 * vec_size x / 77 ≤ 2 ^ 30) :
    ∃ out, vctrs_id hash eq x = .ok out ∧
      out = x.elts.map (fun a => ((x.elts.findIdx (fun b => eq b a) : Nat) : Int) + 1) ∧
      ∀ i, i < vec_size x → equal_scalar eq x (aget out i - 1).toNat x i = true := by
  obtain ⟨s, hloop, hlen, hout⟩ := id_loop ok x hn
  refine ⟨s.2, ?_, ?_, ?_⟩
  · unfold vctrs_id
    simp only [hloop]
  · apply list_eq_map_of_aget _ _ _ hlen
    intro i hi
    obtain ⟨j0, h1, h2, h3⟩ := hout i hi
    rw [h1, (findIdx_of_first ok x x i j0 hi h2 h3).1]
  · intro i hi
    obtain ⟨j0, h1, h2, _⟩ := hout i hi
    rw [h1]
    have : ((j0 : Int) + 1 - 1).toNat = j0 := by omega
    rw [this]
    exact h2

/-- Concrete scenario: `x = [3, 1, 3, 2, 1, 1]` gives `[1, 2, 1, 4, 2, 2]`. -/
theorem vctrs_id_witness :
    vctrs_id nat_hash nat_eq ⟨0, [3, 1, 3, 2, 1, 1]⟩ = .ok [1, 2, 1, 4, 2, 2] := by
  obtain ⟨out, h1, h2, _⟩ := vctrs_id_spec nat_hash nat_eq nat_eq_hash_ok
    ⟨0, [3, 1, 3, 2, 1, 1]⟩ (by decide)
  rw [h1, h2]
  rfl

/-! ## Loading loop -/

/-- One iteration of a filling loop under the shape invariant alone: the probe returns a
slot of the table and the invariant is kept, whatever the equality. -/
theorem dict_wf_step {α : Type} {hash : α → Nat} (eq : α → α → Bool)
    {hashed : Bool} {x : SEXP α} {d : dictionary α} {i : Nat}
    (wf : dict_wf hash hashed x d i) (hi : i < vec_size x) :
    ∃ s, s < d.size ∧ dict_hash_scalar hash eq d x i = .ok s ∧
      (aget d.key s = DICT_EMPTY → dict_wf hash hashed x (dict_put d s i) (i + 1)) ∧
      dict_wf hash hashed x d (i + 1) := by
  have hq : hashed = false ∨ (x = x ∧ i < vec_size x) := by
    cases hashed with
    | false => exact Or.inl rfl
    | true => exact Or.inr ⟨rfl, hi⟩
  obtain ⟨k0, _, hres, hlt, _, _⟩ := dict_hash_scalar_total eq wf (Nat.le_of_lt hi) x i hq
  exact ⟨_, hlt, hres, fun he => dict_wf_put wf _ hlt he, dict_wf_mono wf⟩

theorem load_loop_wf {α : Type} (hash : α → Nat) (eq : α → α → Bool) (hashed : Bool)
    (x : SEXP α) (hn : 100 * vec_size x / 77 ≤ 2 ^ 30) :
    ∃ d, for_loop (vec_size x) (load_body hash eq x) (dict_init hash x hashed) = .ok d ∧
      dict_wf hash hashed x d (vec_size x) := by
  apply for_loop_inv (vec_size x) _ _ (fun i (d : dictionary α) => dict_wf hash hashed x d i)
  · exact dict_wf_init hash hashed x hn
  · intro i d hi wf
    obtain ⟨s, _, hres, hput, hmono⟩ := dict_wf_step eq wf hi
    unfold load_body
    simp only [hres]
    by_cases he : aget d.key s = DICT_EMPTY
    · rw [if_pos he]
      exact ⟨_, rfl, hput he⟩
    · rw [if_neg he]
      exact ⟨_, rfl, hmono⟩

theorem first_locs_length_succ_new {α : Type} (eq : α → α → Bool) (x : SEXP α) (i : Nat)
    (h : ∀ j, j < i → equal_scalar eq x j x i = false) :
    (first_locs eq x (i + 1)).length = (first_locs eq x i).length + 1 := by
  rw [first_locs_succ_new eq x i h]
  simp

theorem load_loop {α : Type} {hash : α → Nat} {eq : α → α → Bool}
    (ok : eq_hash_ok hash eq) (hashed : Bool) (x : SEXP α)
    (hn : 100 * vec_size x / 77 ≤ 2 ^ 30) :
    ∃ d, for_loop (vec_size x) (load_body hash eq x) (dict_init hash x hashed) = .ok d ∧
      dict_inv hash eq hashed x d (vec_size x) ∧
      d.used = (first_locs eq x (vec_size x)).length := by
  apply for_loop_inv (vec_size x) _ _ (fun i (d : dictionary α) =>
    dict_inv hash eq hashed x d i ∧ d.used = (first_locs eq x i).length)
  · exact ⟨dict_inv_init hash eq hashed x hn, rfl⟩
  · rintro i d hi ⟨inv, hused⟩
    obtain ⟨s, hs, hres, hcase⟩ := dict_step ok inv hi
    unfold load_body
    simp only [hres]
    rcases hcase with ⟨he, hnew, inv1⟩ | ⟨j, hj, hkey, hji, _, inv1⟩
    · rw [if_pos he]
      refine ⟨_, rfl, inv1, ?_⟩
      rw [dict_put_used, first_locs_length_succ_new eq x i hnew, hused]
    · rw [if_neg (by rw [hkey]; exact natCast_ne_empty j)]
      refine ⟨_, rfl, inv1, ?_⟩
      rw [first_locs_succ_old eq x i j hj hji]
      exact hused

/-! ## `vctrs_match` and `vctrs_in` -/

theorem match_loop_wf {α : Type} {hash : α → Nat} (eq : α → α → Bool)
    {haystack : SEXP α} {d : dictionary α}
    (wf : dict_wf hash false haystack d (vec_size haystack)) (needles : SEXP α) :
    ∃ out, for_loop (vec_size needles) (match_body hash eq d needles)
        (List.replicate (vec_size needles) 0) = .ok out ∧
      out.length = vec_size needles ∧
      ∀ j, j < vec_size needles → ∃ s, s < d.size ∧
        dict_hash_scalar hash eq d needles j = .ok s ∧
        aget out j = if aget d.key s = DICT_EMPTY then NA_INTEGER else aget d.key s + 1 := by
  obtain ⟨out, h1, h2, h3⟩ := for_loop_inv (vec_size needles) (match_body hash eq d needles)
    (List.replicate (vec_size needles) 0)
    (fun i (out : List Int) => out.length = vec_size needles ∧
      ∀ j, j < i → ∃ s, s < d.size ∧ dict_hash_scalar hash eq d needles j = .ok s ∧
        aget out j = if aget d.key s = DICT_EMPTY then NA_INTEGER else aget d.key s + 1)
    ⟨by simp, fun j hj => by omega⟩
    (by
      rintro i out hi ⟨hlen, hout⟩
      obtain ⟨k0, _, hres, hlt, _, _⟩ :=
        dict_hash_scalar_total eq wf (le_refl _) needles i (Or.inl rfl)
      have hbody : match_body hash eq d needles i out = .ok (out.set i
          (if aget d.key (dict_probe d.size (hash_scalar hash needles i) k0) = DICT_EMPTY
            then NA_INTEGER
            else aget d.key (dict_probe d.size (hash_scalar hash needles i) k0) + 1)) := by
        unfold match_body
        simp only [hres]
        split <;> rfl
      refine ⟨_, hbody, by simp [hlen], ?_⟩
      intro j hj
      by_cases hji : j = i
      · subst hji
        exact ⟨_, hlt, hres, aget_set_self _ _ _ (by omega)⟩
      · obtain ⟨s, hs, h1, h2⟩ := hout j (by omega)
        refine ⟨s, hs, h1, ?_⟩
        rw [aget_set_ne _ _ _ _ (fun h => hji h.symm)]
        exact h2)
  exact ⟨out, h1, h2, h3⟩

theorem bget_set (l : List Bool) (s t : Nat) (v : Bool) :
    bget (l.set s v) t = if s = t ∧ s < l.length then v else bget l t := by
  unfold bget
  rw [List.getD_eq_getElem?_getD, List.getD_eq_getElem?_getD, List.getElem?_set]
  by_cases h : s = t
  · subst h
    by_cases h2 : s < l.length
    · simp [h2]
    · simp [h2]
      rw [List.getElem?_eq_none (by omega)]
      rfl
  · simp [h]

theorem bget_set_self (l : List Bool) (s : Nat) (v : Bool) (hs : s < l.length) :
    bget (l.set s v) s = v := by
  rw [bget_set]; simp [hs]

theorem bget_set_ne (l : List Bool) (s t : Nat) (v : Bool) (hs : s ≠ t) :
    bget (l.set s v) t = bget l t := by
  rw [bget_set]; simp [hs]

theorem bget_eq_getElem (l : List Bool) (s : Nat) (hs : s < l.length) :
    bget l s = l[s] := by
  unfold bget
  exact List.getD_eq_getElem l false hs

theorem list_eq_map_of_bget {α : Type} (out : List Bool) (l : List α) (f : α → Bool)
    (hlen : out.length = l.length)
    (h : ∀ i (hi : i < l.length), bget out i = f l[i]) : out = l.map f := by
  apply List.ext_getElem
  · rw [List.length_map]; exact hlen
  · intro i h1 h2
    rw [List.getElem_map, ← bget_eq_getElem out i h1]
    exact h i (by omega)

theorem in_loop_wf {α : Type} {hash : α → Nat} (eq : α → α → Bool)
    {haystack : SEXP α} {d : dictionary α}
    (wf : dict_wf hash false haystack d (vec_size haystack)) (needles : SEXP α) :
    ∃ out, for_loop (vec_size needles) (in_body hash eq d needles)
        (List.replicate (vec_size needles) false) = .ok out ∧
      out.length = vec_size needles ∧
      ∀ j, j < vec_size needles → ∃ s, s < d.size ∧
        dict_hash_scalar hash eq d needles j = .ok s ∧
        bget out j = decide (aget d.key s ≠ DICT_EMPTY) := by
  obtain ⟨out, h1, h2, h3⟩ := for_loop_inv (vec_size needles) (in_body hash eq d needles)
    (List.replicate (vec_size needles) false)
    (fun i (out : List Bool) => out.length = vec_size needles ∧
      ∀ j, j < i → ∃ s, s < d.size ∧ dict_hash_scalar hash eq d needles j = .ok s ∧
        bget out j = decide (aget d.key s ≠ DICT_EMPTY))
    ⟨by simp, fun j hj => by omega⟩
    (by
      rintro i out hi ⟨hlen, hout⟩
      obtain ⟨k0, _, hres, hlt, _, _⟩ :=
        dict_hash_scalar_total eq wf (le_refl _) needles i (Or.inl rfl)
      have hbody : in_body hash eq d needles i out = .ok (out.set i (decide
          (aget d.key (dict_probe d.size (hash_scalar hash needles i) k0) ≠ DICT_EMPTY))) := by
        unfold in_body
        simp only [hres]
      refine ⟨_, hbody, by simp [hlen], ?_⟩
      intro j hj
      by_cases hji : j = i
      · subst hji
        exact ⟨_, hlt, hres, bget_set_self _ _ _ (by omega)⟩
      · obtain ⟨s, hs, h1, h2⟩ := hout j (by omega)
        refine ⟨s, hs, h1, ?_⟩
        rw [bget_set_ne _ _ _ _ (fun h => hji h.symm)]
        exact h2)
  exact ⟨out, h1, h2, h3⟩

/-- Below the overflow bound of `dict_init`, `100 * n / 77 ≤ 2 ^ 30`:
`vctrs_in(needles, haystack)[i]` is true if and only if
`vctrs_match(needles, haystack)[i]` is not the missing marker; both functions return,
whatever the equality and the hash are. -/
theorem vctrs_in_iff_match {α : Type} (hash : α → Nat) (eq : α → α → Bool)
    (needles haystack : SEXP α) (hn : 100 * vec_size haystack / 77 ≤ 2 ^ 30) :
    ∃ li lm, vctrs_in hash eq needles haystack = .ok li ∧
      vctrs_match hash eq needles haystack = .ok lm ∧
      li.length = vec_size needles ∧ lm.length = vec_size needles ∧
      ∀ i, i < vec_size needles → (bget li i = true ↔ aget lm i ≠ NA_INTEGER) := by
  obtain ⟨d, hload, wf⟩ := load_loop_wf hash eq false haystack hn
  obtain ⟨li, hi1, hi2, hi3⟩ := in_loop_wf eq wf needles
  obtain ⟨lm, hm1, hm2, hm3⟩ := match_loop_wf eq wf needles
  refine ⟨li, lm, ?_, ?_, hi2, hm2, ?_⟩
  · unfold vctrs_in
    simp only [hload]
    exact hi1
  · unfold vctrs_match
    simp only [hload]
    exact hm1
  · intro i hi
    obtain ⟨s, hs, hr, hb⟩ := hi3 i hi
    obtain ⟨s1, _, hr1, ha⟩ := hm3 i hi
    rw [hr] at hr1
    cases hr1
    rw [hb, ha, decide_eq_true_iff]
    by_cases he : aget d.key s = DICT_EMPTY
    · simp [he]
    · rw [if_neg he]
      rcases wf.hkeys s hs with h | ⟨j, _, h⟩
      · exact (he h).elim
      · simp only [he, ne_eq, not_false_eq_true, true_iff]
        rw [h]
        unfold NA_INTEGER
        omega

/-- Concrete scenario: `needles = [1, 2, 5]`, `haystack = [3, 1, 2]`. -/
theorem vctrs_in_iff_match_witness :
    ∃ li lm, vctrs_in nat_hash nat_eq ⟨1, [1, 2, 5]⟩ ⟨0, [3, 1, 2]⟩ = .ok li ∧
      vctrs_match nat_hash nat_eq ⟨1, [1, 2, 5]⟩ ⟨0, [3, 1, 2]⟩ = .ok lm ∧
      li.length = 3 ∧ lm.length = 3 ∧
      ∀ i, i < 3 → (bget li i = true ↔ aget lm i ≠ NA_INTEGER) :=
  vctrs_in_iff_match nat_hash nat_eq ⟨1, [1, 2, 5]⟩ ⟨0, [3, 1, 2]⟩ (by decide)

theorem match_loop {α : Type} {hash : α → Nat} {eq : α → α → Bool}
    (ok : eq_hash_ok hash eq) {haystack : SEXP α} {d : dictionary α}
    (inv : dict_inv hash eq false haystack d (vec_size haystack)) (needles : SEXP α) :
    ∃ out, for_loop (vec_size needles) (match_body hash eq d needles)
        (List.replicate (vec_size needles) 0) = .ok out ∧
      out.length = vec_size needles ∧
      ∀ j (hj : j < needles.elts.length), aget out j =
        if haystack.elts.any (fun b => eq b needles.elts[j]) then
          ((haystack.elts.findIdx (fun b => eq b needles.elts[j]) : Nat) : Int) + 1
        else NA_INTEGER := by
  obtain ⟨out, h1, h2, h3⟩ := match_loop_wf eq inv.wf needles
  refine ⟨out, h1, h2, ?_⟩
  intro j hj
  obtain ⟨s, _, hr, ha⟩ := h3 j hj
  obtain ⟨s1, _, hr1, hcase⟩ := dict_lookup ok inv (le_refl _) needles j (Or.inl rfl)
  rw [hr] at hr1
  cases hr1
  rw [ha]
  rcases hcase with ⟨he, hnone, _⟩ | ⟨j0, _, hkey, hj0, hf⟩
  · rw [if_pos he, any_of_none eq haystack needles j hj hnone]
    rfl
  · obtain ⟨hidx, hany⟩ := findIdx_of_first ok haystack needles j j0 hj hj0 hf
    rw [if_neg (by rw [hkey]; exact natCast_ne_empty j0), hany, hidx, hkey]
    rfl

/-- Below the overflow bound of `dict_init`, `100 * n / 77 ≤ 2 ^ 30`:
`vctrs_match(needles, haystack)[i]` is `1 + min { j | haystack[j] equals
needles[i] }` when some element of `haystack` equals `needles[i]`, and the missing marker
otherwise. -/
theorem vctrs_match_spec {α : Type} (hash : α → Nat) (eq : α → α → Bool)
    (ok : eq_hash_ok hash eq) (needles haystack : SEXP α)
    (hn : 100 * vec_size haystack / 77 ≤ 2 ^ 30) :
    vctrs_match hash eq needles haystack =
      .ok (needles.elts.map (fun a =>
        if haystack.elts.any (fun b => eq b a) then
          ((haystack.elts.findIdx (fun b => eq b a) : Nat) : Int) + 1
        else NA_INTEGER)) := by
  obtain ⟨d, hload, inv, _⟩ := load_loop ok false haystack hn
  obtain ⟨out, h1, h2, h3⟩ := match_loop ok inv needles
  unfold vctrs_match
  simp only [hload]
  rw [h1]
  congr 1
  exact list_eq_map_of_aget out needles.elts _ h2 h3

/-- Concrete scenario: `needles = [1, 2, 5]`, `haystack = [3, 1, 2]` gives
`[2, 3, NA]`. -/
theorem vctrs_match_witness :
    vctrs_match nat_hash nat_eq ⟨1, [1, 2, 5]⟩ ⟨0, [3, 1, 2]⟩ = .ok [2, 3, NA_INTEGER] := by
  rw [vctrs_match_spec nat_hash nat_eq nat_eq_hash_ok ⟨1, [1, 2, 5]⟩ ⟨0, [3, 1, 2]⟩
    (by decide)]
  rfl

/-! ## `vctrs_duplicated_any` -/

theorem duplicated_any_loop {α : Type} {hash : α → Nat} {eq : α → α → Bool}
    (ok : eq_hash_ok hash eq) (x : SEXP α) :
    ∀ (fuel i : Nat) (d : dictionary α), i + fuel = vec_size x →
      dict_inv hash eq false x d i →
      (∀ a b, a < b → b < i → equal_scalar eq x a x b = false) →
      ∃ r, vctrs_duplicated_any_loop hash eq x fuel i d = .ok r ∧
        (r = true ↔ ∃ a b, a < b ∧ b < vec_size x ∧ equal_scalar eq x a x b = true) := by
  intro fuel
  induction fuel with
  | zero =>
    intro i d hi _ hno
    refine ⟨false, rfl, ?_⟩
    constructor
    · intro h; exact Bool.noConfusion h
    · rintro ⟨a, b, hab, hb, h⟩
      rw [hno a b hab (by omega)] at h
      exact Bool.noConfusion h
  | succ fuel ih =>
    intro i d hi inv hno
    obtain ⟨s, hs, hres, hcase⟩ := dict_step ok inv (by omega)
    unfold vctrs_duplicated_any_loop
    simp only [hres]
    rcases hcase with ⟨he, hnew, inv1⟩ | ⟨j, hj, hkey, hji, _, _⟩
    · rw [if_pos he]
      apply ih (i + 1) _ (by omega) inv1
      intro a b hab hb
      by_cases hbi : b = i
      · rw [hbi]; exact hnew a (by omega)
      · exact hno a b hab (by omega)
    · rw [if_neg (by rw [hkey]; exact natCast_ne_empty j)]
      exact ⟨true, rfl, fun _ => ⟨j, i, hj, by omega, hji⟩, fun _ => rfl⟩

/-- Below the overflow bound of `dict_init`, `100 * n / 77 ≤ 2 ^ 30`:
`vctrs_duplicated_any` returns true if and only if two positions `i < j` hold
equal elements. -/
theorem vctrs_duplicated_any_spec {α : Type} (hash : α → Nat) (eq : α → α → Bool)
    (ok : eq_hash_ok hash eq) (x : SEXP α) (hn : 100 * vec_size x / 77 ≤ 2 ^ 30) :
    ∃ r, vctrs_duplicated_any hash eq x = .ok r ∧
      (r = true ↔ ∃ i j, i < j ∧ j < vec_size x ∧ equal_scalar eq x i x j = true) := by
  unfold vctrs_duplicated_any
  exact duplicated_any_loop ok x (vec_size x) 0 _ (by omega)
    (dict_inv_init hash eq false x hn) (fun a b _ hb => by omega)

/-- Concrete scenarios: a sequence with duplicates and one without. -/
theorem vctrs_duplicated_any_witness :
    vctrs_duplicated_any nat_hash nat_eq ⟨0, [3, 1, 3, 2, 1, 1]⟩ = .ok true ∧
    vctrs_duplicated_any nat_hash nat_eq ⟨0, [3, 1, 2]⟩ = .ok false := by
  obtain ⟨r, h1, h2⟩ := vctrs_duplicated_any_spec nat_hash nat_eq nat_eq_hash_ok
    ⟨0, [3, 1, 3, 2, 1, 1]⟩ (by decide)
  refine ⟨?_, rfl⟩
  rw [h1, h2.mpr ⟨0, 2, by decide, by decide, by decide⟩]

/-! ## The probe sequence of the specification -/

theorem probe_k_lt (m h k : Nat) : probe_k (2 ^ m) h k < 2 ^ m :=
  Nat.mod_lt _ (by positivity)

theorem probe_k_inj (m h a b : Nat) (ha : a < 2 ^ m) (hb : b < 2 ^ m)
    (hab : probe_k (2 ^ m) h a = probe_k (2 ^ m) h b) : a = b := by
  unfold probe_k at hab
  have h' : a * (a + 1) / 2 % 2 ^ m = b * (b + 1) / 2 % 2 ^ m :=
    Nat.ModEq.add_left_cancel' h hab
  rcases Nat.lt_trichotomy a b with hlt | heq | hgt
  · exact (tri_mod_inj m a b hlt hb h').elim
  · exact heq
  · exact (tri_mod_inj m b a hgt ha h'.symm).elim

theorem probe_k_surj (m h s : Nat) (hs : s < 2 ^ m) :
    ∃ k, k < 2 ^ m ∧ probe_k (2 ^ m) h k = s := by
  let f : Fin (2 ^ m) → Fin (2 ^ m) := fun k => ⟨probe_k (2 ^ m) h k, probe_k_lt m h k⟩
  have hf : Function.Injective f := by
    intro a b hab
    have := congrArg Fin.val hab
    exact Fin.ext (probe_k_inj m h a b a.2 b.2 this)
  obtain ⟨k, hk⟩ := Finite.surjective_of_injective hf ⟨s, hs⟩
  exact ⟨k, k.2, congrArg Fin.val hk⟩

/-- C10: for a capacity `2 ^ m` and any starting hash, the probe sequence
`probe_k = (hash + k (k + 1) / 2) mod capacity`, `k = 0 .. capacity - 1`, visits every slot
exactly once: it maps `[0, capacity)` to itself, injectively and onto.  For the capacities
of the code (`m ≤ 31`) the `uint32_t` expression of `dict_hash_scalar` computes it. -/
theorem probe_k_bijective (m h : Nat) :
    (∀ k, k < 2 ^ m → probe_k (2 ^ m) h k < 2 ^ m) ∧
    (∀ a b, a < 2 ^ m → b < 2 ^ m → probe_k (2 ^ m) h a = probe_k (2 ^ m) h b → a = b) ∧
    (∀ s, s < 2 ^ m → ∃ k, k < 2 ^ m ∧ probe_k (2 ^ m) h k = s) ∧
    (m ≤ 31 → ∀ k, dict_probe (2 ^ m) h k = probe_k (2 ^ m) h k) :=
  ⟨fun k _ => probe_k_lt m h k, probe_k_inj m h, probe_k_surj m h,
    fun hm k => dict_probe_eq m h k hm⟩

/-- C10, concrete scenario: capacity 16 and hash 7; probes 5 and 9 differ, slot 0 is
visited, and the code computes the same probe. -/
theorem probe_k_bijective_witness :
    probe_k 16 7 5 < 16 ∧ probe_k 16 7 5 ≠ probe_k 16 7 9 ∧
    (∃ k, k < 16 ∧ probe_k 16 7 k = 0) ∧ dict_probe 16 7 5 = probe_k 16 7 5 := by
  have h := probe_k_bijective 4 7
  refine ⟨h.1 5 (by decide), ?_, h.2.2.1 0 (by decide), h.2.2.2 (by decide) 5⟩
  intro hcon
  have := h.2.1 5 9 (by decide) (by decide) hcon
  omega

/-! ## Frequencies -/

theorem freq_upto_succ {α : Type} (eq : α → α → Bool) (x : SEXP α) (j i : Nat) :
    freq_upto eq x j (i + 1) =
      freq_upto eq x j i + if equal_scalar eq x j x i = true then 1 else 0 := by
  unfold freq_upto
  rw [List.range_succ, List.countP_append]
  simp [List.countP_cons]

theorem freq_upto_new {α : Type} {hash : α → Nat} {eq : α → α → Bool}
    (ok : eq_hash_ok hash eq) (x : SEXP α) (i : Nat)
    (h : ∀ j, j < i → equal_scalar eq x j x i = false) : freq_upto eq x i i = 0 := by
  unfold freq_upto
  rw [List.countP_eq_zero]
  intro k hk hcon
  rw [List.mem_range] at hk
  have := equal_scalar_symm ok x x i k hcon
  rw [h k hk] at this
  exact Bool.noConfusion this

theorem first_unique {α : Type} {hash : α → Nat} {eq : α → α → Bool}
    (ok : eq_hash_ok hash eq) (x : SEXP α) (j j' : Nat)
    (h1 : ∀ a, a < j → equal_scalar eq x a x j = false)
    (h2 : ∀ a, a < j' → equal_scalar eq x a x j' = false)
    (h : equal_scalar eq x j x j' = true) : j = j' := by
  rcases Nat.lt_trichotomy j j' with hlt | heq | hgt
  · rw [h2 j hlt] at h
    exact Bool.noConfusion h
  · exact heq
  · have := equal_scalar_symm ok x x j j' h
    rw [h1 j' hgt] at this
    exact Bool.noConfusion this

theorem countP_range_getElem? {α : Type} (p : α → Bool) (l : List α) :
    (List.range l.length).countP (fun k => (l[k]?).any p) = l.countP p := by
  induction l using List.reverseRecOn with
  | nil => rfl
  | append_singleton l a ih =>
    rw [List.length_append, List.length_singleton, List.range_succ, List.countP_append,
      List.countP_append]
    congr 1
    · rw [← ih]
      apply List.countP_congr
      intro k hk
      rw [List.mem_range] at hk
      rw [List.getElem?_append_left hk]
    · simp [List.countP_cons]

theorem equal_scalar_any {α : Type} (eq : α → α → Bool) (x y : SEXP α) (k q : Nat)
    (hq : q < y.elts.length) :
    equal_scalar eq x k y q = (x.elts[k]?).any (fun b => eq b y.elts[q]) := by
  unfold equal_scalar
  rw [List.getElem?_eq_getElem hq]
  cases x.elts[k]? <;> rfl

theorem countP_positions {α : Type} (eq : α → α → Bool) (x y : SEXP α) (q : Nat)
    (hq : q < y.elts.length) :
    (List.range (vec_size x)).countP (fun k => equal_scalar eq x k y q) =
      x.elts.countP (fun b => eq b y.elts[q]) := by
  rw [← countP_range_getElem? (fun b => eq b y.elts[q]) x.elts]
  apply List.countP_congr
  intro k _
  rw [equal_scalar_any eq x y k q hq]

/-- The frequency of a first occurrence `j0` counts the positions equal to any member `i`
of its class. -/
theorem freq_upto_class {α : Type} {hash : α → Nat} {eq : α → α → Bool}
    (ok : eq_hash_ok hash eq) (x : SEXP α) (j0 i : Nat) (hi : i < x.elts.length)
    (h : equal_scalar eq x j0 x i = true) :
    freq_upto eq x j0 (vec_size x) = x.elts.countP (fun b => eq b x.elts[i]) := by
  rw [← countP_positions eq x x i hi]
  unfold freq_upto
  apply List.countP_congr
  intro k _
  constructor
  · intro hk
    exact equal_scalar_trans ok x x x k j0 i (equal_scalar_symm ok x x j0 k hk) h
  · intro hk
    exact equal_scalar_trans ok x x x j0 i k h (equal_scalar_symm ok x x k i hk)

/-! ## The counting loop of `vctrs_count` and `vctrs_duplicated` -/

theorem count_loop {α : Type} {hash : α → Nat} {eq : α → α → Bool}
    (ok : eq_hash_ok hash eq) (x : SEXP α) (hn : 100 * vec_size x / 77 ≤ 2 ^ 30) :
    ∃ s, for_loop (vec_size x) (count_body hash eq x)
        (dict_init hash x true, List.replicate (dict_init hash x true).size 0) = .ok s ∧
      dict_inv hash eq true x s.1 (vec_size x) ∧
      s.1.used = (first_locs eq x (vec_size x)).length ∧
      ∀ (t j : Nat), t < s.1.size → aget s.1.key t = (j : Int) →
        aget s.2 t = (freq_upto eq x j (vec_size x) : Int) := by
  obtain ⟨s, h1, h2, h3, _, h5⟩ := for_loop_inv (vec_size x) (count_body hash eq x)
    (dict_init hash x true, List.replicate (dict_init hash x true).size 0)
    (fun i (s : dictionary α × List Int) =>
      dict_inv hash eq true x s.1 i ∧ s.1.used = (first_locs eq x i).length ∧
      s.2.length = s.1.size ∧
      ∀ (t j : Nat), t < s.1.size → aget s.1.key t = (j : Int) →
        aget s.2 t = (freq_upto eq x j i : Int))
    (by
      have inv := dict_inv_init hash eq true x hn
      refine ⟨inv, rfl, by simp, ?_⟩
      intro t j ht hkey
      rcases inv.wf.hkeys t ht with h | ⟨j', hj', _⟩
      · rw [h] at hkey
        exact (natCast_ne_empty j hkey.symm).elim
      · omega)
    (by
      rintro i ⟨d, val⟩ hi ⟨inv, hused, hlen, hval⟩
      simp only at hused hlen hval
      obtain ⟨s, hs, hres, hcase⟩ := dict_step ok inv hi
      have hsl : s < d.key.length := by rw [inv.wf.hlen]; exact hs
      have hsv : s < val.length := by rw [hlen]; exact hs
      rcases hcase with ⟨he, hnew, inv1⟩ | ⟨j, hj, hkey, hji, hfj, inv1⟩
      · have hbody : count_body hash eq x i (d, val) =
            .ok (dict_put d s i, (val.set s 0).set s (aget (val.set s 0) s + 1)) := by
          unfold count_body
          simp only [hres, if_pos he]
        refine ⟨_, hbody, inv1, ?_, by simp [hlen, dict_put_size], ?_⟩
        · simp only
          rw [dict_put_used, first_locs_length_succ_new eq x i hnew, hused]
        · intro t j ht hk
          simp only [dict_put_key, dict_put_size] at ht hk ⊢
          by_cases hst : s = t
          · subst hst
            rw [aget_set_self _ _ _ hsl] at hk
            have hij : i = j := by omega
            subst hij
            rw [aget_set_self _ _ _ (by simp [hsv]), aget_set_self _ _ _ hsv,
              freq_upto_succ, freq_upto_new ok x i hnew, equal_scalar_refl ok x i hi]
            rfl
          · rw [aget_set_ne _ _ _ _ hst] at hk
            rw [aget_set_ne _ _ _ _ hst, aget_set_ne _ _ _ _ hst, hval t j ht hk,
              freq_upto_succ]
            rcases inv.wf.hkeys t ht with h | ⟨j', hj', h⟩
            · rw [h] at hk
              exact (natCast_ne_empty j hk.symm).elim
            · have : j' = j := by exact_mod_cast h.symm.trans hk
              subst this
              rw [hnew j' hj']
              simp
      · have hne : aget d.key s ≠ DICT_EMPTY := by rw [hkey]; exact natCast_ne_empty j
        have hbody : count_body hash eq x i (d, val) =
            .ok (d, val.set s (aget val s + 1)) := by
          unfold count_body
          simp only [hres, if_neg hne]
        refine ⟨_, hbody, inv1, ?_, by simp [hlen], ?_⟩
        · simp only
          rw [first_locs_succ_old eq x i j hj hji]
          exact hused
        · intro t j1 ht hk
          simp only at ht hk ⊢
          by_cases hst : s = t
          · subst hst
            have : j1 = j := by exact_mod_cast hk.symm.trans hkey
            subst this
            rw [aget_set_self _ _ _ hsv, hval s j1 hs hkey, freq_upto_succ, hji]
            simp
          · rw [aget_set_ne _ _ _ _ hst, hval t j1 ht hk, freq_upto_succ]
            have hfalse : equal_scalar eq x j1 x i = false := by
              by_contra hcon
              have hc : equal_scalar eq x j1 x i = true := by simpa using hcon
              have h2 := equal_scalar_trans ok x x x j1 i j hc
                (equal_scalar_symm ok x x j i hji)
              have h3 := first_unique ok x j1 j (inv.hfirst t j1 ht hk) hfj h2
              subst h3
              exact hst (inv.wf.hinj s t hs ht hne (by rw [hkey, hk]))
            rw [hfalse]
            simp)
  exact ⟨s, h1, h2, h3, h5⟩

/-! ## `vctrs_duplicated` -/

theorem duplicated_out_loop {α : Type} {hash : α → Nat} {eq : α → α → Bool}
    (ok : eq_hash_ok hash eq) (x : SEXP α) (d : dictionary α) (val : List Int)
    (inv : dict_inv hash eq true x d (vec_size x))
    (hval : ∀ (t j : Nat), t < d.size → aget d.key t = (j : Int) →
      aget val t = (freq_upto eq x j (vec_size x) : Int)) :
    ∃ out, for_loop (vec_size x) (duplicated_out_body hash eq d val x)
        (List.replicate (vec_size x) false) = .ok out ∧
      out.length = vec_size x ∧
      ∀ i (hi : i < x.elts.length),
        bget out i = decide (x.elts.countP (fun b => eq b x.elts[i]) ≠ 1) := by
  obtain ⟨out, h1, h2, h3⟩ := for_loop_inv (vec_size x)
    (duplicated_out_body hash eq d val x) (List.replicate (vec_size x) false)
    (fun i (out : List Bool) => out.length = vec_size x ∧
      ∀ j (hj : j < x.elts.length), j < i →
        bget out j = decide (x.elts.countP (fun b => eq b x.elts[j]) ≠ 1))
    ⟨by simp, fun j _ hj => by omega⟩
    (by
      rintro i out hi ⟨hlen, hout⟩
      obtain ⟨s, hs, hres, hcase⟩ := dict_lookup ok inv (le_refl _) x i (Or.inr ⟨rfl, hi⟩)
      have hbody : duplicated_out_body hash eq d val x i out =
          .ok (out.set i (decide (aget val s ≠ 1))) := by
        unfold duplicated_out_body
        simp only [hres]
      refine ⟨_, hbody, by simp [hlen], ?_⟩
      intro j hj hji
      by_cases hjeq : j = i
      · subst hjeq
        rw [bget_set_self _ _ _ (by omega)]
        rcases hcase with ⟨_, hnone, _⟩ | ⟨j0, _, hkey, hj0, _⟩
        · have := hnone j hi
          rw [equal_scalar_refl ok x j hi] at this
          exact Bool.noConfusion this
        · rw [hval s j0 hs hkey, freq_upto_class ok x j0 j hj hj0]
          simp
      · rw [bget_set_ne _ _ _ _ (fun h => hjeq h.symm)]
        exact hout j hj (by omega))
  exact ⟨out, h1, h2, fun i hi => h3 i hi hi⟩

/-- Below the overflow bound of `dict_init`, `100 * n / 77 ≤ 2 ^ 30`:
`vctrs_duplicated(x)[i]` is true if and only if the number of positions `j` with
`x[j]` equal to `x[i]` differs from 1. -/
theorem vctrs_duplicated_spec {α : Type} (hash : α → Nat) (eq : α → α → Bool)
    (ok : eq_hash_ok hash eq) (x : SEXP α) (hn : 100 * vec_size x / 77 ≤ 2 ^ 30) :
    vctrs_duplicated hash eq x =
      .ok (x.elts.map (fun a => decide (x.elts.countP (fun b => eq b a) ≠ 1))) := by
  obtain ⟨s, hloop, inv, _, hval⟩ := count_loop ok x hn
  obtain ⟨out, h1, h2, h3⟩ := duplicated_out_loop ok x s.1 s.2 inv hval
  unfold vctrs_duplicated
  simp only [hloop]
  rw [h1]
  congr 1
  exact list_eq_map_of_bget out x.elts _ h2 h3

/-- Concrete scenario: `x = [3, 1, 3, 2, 1, 1]` gives
`[true, true, true, false, true, true]`. -/
theorem vctrs_duplicated_witness :
    vctrs_duplicated nat_hash nat_eq ⟨0, [3, 1, 3, 2, 1, 1]⟩ =
      .ok [true, true, true, false, true, true] := by
  rw [vctrs_duplicated_spec nat_hash nat_eq nat_eq_hash_ok ⟨0, [3, 1, 3, 2, 1, 1]⟩
    (by decide)]
  rfl

/-! ## Occupied slots -/

theorem occupied_succ_empty {α : Type} (d : dictionary α) (h : Nat)
    (he : aget d.key h = DICT_EMPTY) : occupied d (h + 1) = occupied d h := by
  unfold occupied
  rw [List.range_succ, List.filter_append]
  simp [he]

theorem occupied_succ_full {α : Type} (d : dictionary α) (h : Nat)
    (he : aget d.key h ≠ DICT_EMPTY) : occupied d (h + 1) = occupied d h ++ [h] := by
  unfold occupied
  rw [List.range_succ, List.filter_append]
  simp [he]

theorem occupied_length_le {α : Type} (d : dictionary α) (h n : Nat) (hn : h ≤ n) :
    (occupied d h).length ≤ (occupied d n).length := by
  unfold occupied
  exact ((List.range_sublist.mpr hn).filter _).length_le

theorem occupied_length_used {α : Type} {hash : α → Nat} {hashed : Bool} {x : SEXP α}
    {d : dictionary α} {i : Nat} (wf : dict_wf hash hashed x d i) :
    (occupied d d.size).length = d.used := by
  rw [wf.hused, ← countP_range_getElem?, wf.hlen]
  unfold occupied
  rw [← List.countP_eq_length_filter]
  apply List.countP_congr
  intro s hs
  rw [List.mem_range] at hs
  have hsl : s < d.key.length := by rw [wf.hlen]; exact hs
  rw [aget_eq_getElem _ _ hsl, List.getElem?_eq_getElem hsl]
  rfl

theorem mem_occupied {α : Type} (d : dictionary α) (h s : Nat) :
    s ∈ occupied d h ↔ s < h ∧ aget d.key s ≠ DICT_EMPTY := by
  unfold occupied
  rw [List.mem_filter, List.mem_range, decide_eq_true_iff]

theorem take_set_succ {β : Type} (l : List β) (i : Nat) (v : β) (hi : i < l.length) :
    (l.set i v).take (i + 1) = l.take i ++ [v] := by
  induction l generalizing i with
  | nil => simp at hi
  | cons a l ih =>
    cases i with
    | zero => simp
    | succ i =>
      simp only [List.set_cons_succ, List.take_succ_cons, List.cons_append]
      rw [ih i (by simpa using hi)]

/-! ## `vctrs_count` -/

theorem count_out_loop {α : Type} {hash : α → Nat} {hashed : Bool} {x : SEXP α}
    {d : dictionary α} {i : Nat} (wf : dict_wf hash hashed x d i) (val : List Int) :
    ∃ o, for_loop d.size (count_out_body d val)
        (List.replicate d.used 0, List.replicate d.used 0, 0) = .ok o ∧
      o.1 = (occupied d d.size).map (fun s => aget d.key s + 1) ∧
      o.2.1 = (occupied d d.size).map (fun s => aget val s) := by
  obtain ⟨o, h1, h2, h3, h4, h5, h6⟩ := for_loop_inv (ε := dict_error) d.size
    (count_out_body d val) (List.replicate d.used 0, List.replicate d.used 0, 0)
    (fun h (o : List Int × List Int × Nat) =>
      o.2.2 = (occupied d h).length ∧ o.1.length = d.used ∧ o.2.1.length = d.used ∧
      o.1.take o.2.2 = (occupied d h).map (fun s => aget d.key s + 1) ∧
      o.2.1.take o.2.2 = (occupied d h).map (fun s => aget val s))
    ⟨rfl, by simp, by simp, rfl, rfl⟩
    (by
      rintro h ⟨ok, ov, oi⟩ hh ⟨hoi, hlk, hlv, hk, hv⟩
      simp only at hoi hlk hlv hk hv
      by_cases he : aget d.key h = DICT_EMPTY
      · have hbody : count_out_body d val h (ok, ov, oi) = .ok (ok, ov, oi) := by
          unfold count_out_body
          simp only [if_pos he]
        refine ⟨_, hbody, ?_⟩
        simp only [occupied_succ_empty d h he]
        exact ⟨hoi, hlk, hlv, hk, hv⟩
      · have hbody : count_out_body d val h (ok, ov, oi) =
            .ok (ok.set oi (aget d.key h + 1), ov.set oi (aget val h), oi + 1) := by
          unfold count_out_body
          simp only [if_neg he]
        have hlt : oi < d.used := by
          have h1 := occupied_length_le d (h + 1) d.size (by omega)
          rw [occupied_succ_full d h he, occupied_length_used wf] at h1
          simp at h1
          omega
        refine ⟨_, hbody, ?_⟩
        simp only [occupied_succ_full d h he]
        refine ⟨by simp [hoi], by simp [hlk], by simp [hlv], ?_, ?_⟩
        · rw [take_set_succ _ _ _ (by omega), hk]
          simp
        · rw [take_set_succ _ _ _ (by omega), hv]
          simp)
  refine ⟨o, h1, ?_, ?_⟩
  · rw [← h5, h2, occupied_length_used wf, ← h3, List.take_length]
  · rw [← h6, h2, occupied_length_used wf, ← h4, List.take_length]

/-- The first occurrences held by the occupied slots are, up to order, the first
occurrences of the sequence. -/
theorem occupied_perm {α : Type} {hash : α → Nat} {eq : α → α → Bool}
    (ok : eq_hash_ok hash eq) {x : SEXP α} {d : dictionary α}
    (inv : dict_inv hash eq true x d (vec_size x)) :
    List.Perm ((occupied d d.size).map (fun s => (aget d.key s).toNat))
      ((List.range (vec_size x)).filter (is_first eq x)) := by
  have hnd1 : ((occupied d d.size).map (fun s => (aget d.key s).toNat)).Nodup := by
    apply List.Nodup.map_on
    · intro s hs t ht hst
      rw [mem_occupied] at hs ht
      rcases inv.wf.hkeys s hs.1 with h | ⟨j, _, h⟩
      · exact (hs.2 h).elim
      · rcases inv.wf.hkeys t ht.1 with h' | ⟨j', _, h'⟩
        · exact (ht.2 h').elim
        · apply inv.wf.hinj s t hs.1 ht.1 hs.2
          simp only [h, h', Int.toNat_ofNat] at hst
          rw [h, h', hst]
    · exact (List.nodup_range _).filter _
  have hnd2 : ((List.range (vec_size x)).filter (is_first eq x)).Nodup :=
    (List.nodup_range _).filter _
  rw [List.perm_ext_iff_of_nodup hnd1 hnd2]
  intro j
  rw [List.mem_map, List.mem_filter, List.mem_range]
  constructor
  · rintro ⟨s, hs, rfl⟩
    rw [mem_occupied] at hs
    rcases inv.wf.hkeys s hs.1 with h | ⟨j, hj, h⟩
    · exact (hs.2 h).elim
    · simp only [h, Int.toNat_ofNat]
      exact ⟨hj, decide_eq_true (inv.hfirst s j hs.1 h)⟩
  · rintro ⟨hj, hf⟩
    have hf' : ∀ a, a < j → equal_scalar eq x a x j = false := of_decide_eq_true hf
    obtain ⟨s, j0, hs, hkey, hj0⟩ := inv.hcover j hj
    have := first_unique ok x j0 j (inv.hfirst s j0 hs hkey) hf' hj0
    subst this
    refine ⟨s, ?_, by simp [hkey]⟩
    rw [mem_occupied]
    exact ⟨hs, by rw [hkey]; exact natCast_ne_empty j0⟩

/-- Below the overflow bound of `dict_init`, `100 * n / 77 ≤ 2 ^ 30`:
the pairs `(key[j], val[j])` returned by `vctrs_count` are a permutation of the
pairs `(p, number of positions q with x[q] equal to x[p - 1])` taken over the positions
`p` of `vctrs_unique_loc(x)`. -/
theorem vctrs_count_spec {α : Type} (hash : α → Nat) (eq : α → α → Bool)
    (ok : eq_hash_ok hash eq) (x : SEXP α) (hn : 100 * vec_size x / 77 ≤ 2 ^ 30) :
    ∃ key val locs, vctrs_count hash eq x = .ok (key, val) ∧
      vctrs_unique_loc hash eq x = .ok locs ∧
      key.length = val.length ∧
      List.Perm (List.zip key val)
        (locs.map (fun p => (p, (((List.range (vec_size x)).countP
          (fun q => equal_scalar eq x q x (p - 1).toNat) : Nat) : Int)))) := by
  obtain ⟨s, hloop, inv, _, hval⟩ := count_loop ok x hn
  obtain ⟨o, hout, hk, hv⟩ := count_out_loop inv.wf s.2
  obtain ⟨u, huloop, _, hu⟩ := unique_loc_loop ok x hn
  refine ⟨o.1, o.2.1, u.2, ?_, ?_, ?_, ?_⟩
  · unfold vctrs_count
    simp only [hloop, hout]
  · unfold vctrs_unique_loc
    simp only [huloop]
    rfl
  · rw [hk, hv, List.length_map, List.length_map]
  · have hzip : List.zip o.1 o.2.1 =
        ((occupied s.1 s.1.size).map (fun t => (aget s.1.key t).toNat)).map
          (fun (j : Nat) => ((j : Int) + 1, (((List.range (vec_size x)).countP
            (fun q => equal_scalar eq x q x j) : Nat) : Int))) := by
      rw [hk, hv, List.zip_map', List.map_map]
      apply List.map_congr_left
      intro t ht
      rw [mem_occupied] at ht
      rcases inv.wf.hkeys t ht.1 with h | ⟨j, _, h⟩
      · exact (ht.2 h).elim
      · simp only [Function.comp_apply, h, Int.toNat_ofNat, hval t j ht.1 h]
        congr 2
        unfold freq_upto
        apply List.countP_congr
        intro k _
        exact ⟨equal_scalar_symm ok x x j k, equal_scalar_symm ok x x k j⟩
    have hlocs : u.2.map (fun p => (p, (((List.range (vec_size x)).countP
          (fun q => equal_scalar eq x q x (p - 1).toNat) : Nat) : Int))) =
        ((List.range (vec_size x)).filter (is_first eq x)).map
          (fun (j : Nat) => ((j : Int) + 1, (((List.range (vec_size x)).countP
            (fun q => equal_scalar eq x q x j) : Nat) : Int))) := by
      rw [hu]
      unfold first_locs
      rw [List.map_map]
      apply List.map_congr_left
      intro j _
      simp only [Function.comp_apply]
      have : ((j : Int) + 1 - 1).toNat = j := by omega
      rw [this]
    rw [hzip, hlocs]
    exact (occupied_perm ok inv).map _

/-- Concrete scenario: `x = [3, 1, 3, 2, 1, 1]` gives a permutation of
`(1, 2), (2, 3), (4, 1)`. -/
theorem vctrs_count_witness :
    ∃ key val, vctrs_count nat_hash nat_eq ⟨0, [3, 1, 3, 2, 1, 1]⟩ = .ok (key, val) ∧
      List.Perm (List.zip key val) [(1, 2), (2, 3), (4, 1)] := by
  obtain ⟨key, val, locs, h1, h2, _, h4⟩ := vctrs_count_spec nat_hash nat_eq nat_eq_hash_ok
    ⟨0, [3, 1, 3, 2, 1, 1]⟩ (by decide)
  refine ⟨key, val, h1, ?_⟩
  have h5 : locs = [1, 2, 4] := by
    have : vctrs_unique_loc nat_hash nat_eq ⟨0, [3, 1, 3, 2, 1, 1]⟩ = .ok [1, 2, 4] := rfl
    rw [h2] at this
    cases this
    rfl
  rw [h5] at h4
  exact h4

/-! ## Ranks of first occurrences -/

theorem rank_of_le {α : Type} (eq : α → α → Bool) (x : SEXP α) (j k : Nat) (h : j ≤ k) :
    rank_of eq x j ≤ rank_of eq x k := by
  unfold rank_of first_locs
  rw [List.length_map, List.length_map]
  exact ((List.range_sublist.mpr h).filter _).length_le

theorem rank_of_lt {α : Type} (eq : α → α → Bool) (x : SEXP α) (j k : Nat) (h : j < k)
    (hj : ∀ a, a < j → equal_scalar eq x a x j = false) :
    rank_of eq x j < rank_of eq x k := by
  have h1 := rank_of_le eq x (j + 1) k h
  have h2 : rank_of eq x (j + 1) = rank_of eq x j + 1 :=
    first_locs_length_succ_new eq x j hj
  omega

theorem rank_of_inj {α : Type} (eq : α → α → Bool) (x : SEXP α) (j k : Nat)
    (hj : ∀ a, a < j → equal_scalar eq x a x j = false)
    (hk : ∀ a, a < k → equal_scalar eq x a x k = false)
    (h : rank_of eq x j = rank_of eq x k) : j = k := by
  rcases Nat.lt_trichotomy j k with hlt | heq | hgt
  · have := rank_of_lt eq x j k hlt hj
    omega
  · exact heq
  · have := rank_of_lt eq x k j hgt hk
    omega

theorem freq_upto_le {α : Type} (eq : α → α → Bool) (x : SEXP α) (j i k : Nat) (h : i ≤ k) :
    freq_upto eq x j i ≤ freq_upto eq x j k := by
  unfold freq_upto
  exact (List.range_sublist.mpr h).countP_le _

/-- The class of a position is led by a first occurrence at or before it. -/
theorem first_le {α : Type} {hash : α → Nat} {eq : α → α → Bool}
    (ok : eq_hash_ok hash eq) (x : SEXP α) (j0 i : Nat)
    (hf : ∀ a, a < j0 → equal_scalar eq x a x j0 = false)
    (h : equal_scalar eq x j0 x i = true) : j0 ≤ i := by
  by_contra hcon
  have := equal_scalar_symm ok x x j0 i h
  rw [hf i (by omega)] at this
  exact Bool.noConfusion this

/-! ## First loop of `vctrs_duplicate_split` -/

theorem split_loop {α : Type} {hash : α → Nat} {eq : α → α → Bool}
    (ok : eq_hash_ok hash eq) (x : SEXP α) (hn : 100 * vec_size x / 77 ≤ 2 ^ 30) :
    ∃ s, for_loop (vec_size x) (split_body hash eq x)
        { d := dict_init hash x true
          tracker := List.replicate (dict_init hash x true).size 0
          count := List.replicate (dict_init hash x true).size 0
          out_pos := List.replicate (vec_size x) 0 } = .ok s ∧
      split_inv hash eq x s (vec_size x) := by
  apply for_loop_inv (vec_size x) _ _ (fun i (s : split_state α) => split_inv hash eq x s i)
  · have inv := dict_inv_init hash eq true x hn
    have hno : ∀ (t j : Nat), t < (dict_init hash x true).size →
        aget (dict_init hash x true).key t = (j : Int) → False := by
      intro t j ht hkey
      rcases inv.wf.hkeys t ht with h | ⟨j', hj', _⟩
      · rw [h] at hkey
        exact natCast_ne_empty j hkey.symm
      · omega
    exact ⟨inv, rfl, by simp, by simp, by simp, fun t j ht hk => (hno t j ht hk).elim,
      fun t j ht hk => (hno t j ht hk).elim, fun k hk => by omega⟩
  · rintro i ⟨d, tracker, count, out_pos⟩ hi ⟨inv, hused, htl, hcl, hol, htr, hcnt, hpos⟩
    simp only at inv hused htl hcl hol htr hcnt hpos
    obtain ⟨s, hs, hres, hcase⟩ := dict_step ok inv hi
    have hsl : s < d.key.length := by rw [inv.wf.hlen]; exact hs
    have hst : s < tracker.length := by rw [htl]; exact hs
    have hsc : s < count.length := by rw [hcl]; exact hs
    rcases hcase with ⟨he, hnew, inv1⟩ | ⟨j, hj, hkey, hji, hfj, inv1⟩
    · have hbody : split_body hash eq x i
            { d := d, tracker := tracker, count := count, out_pos := out_pos } =
          .ok { d := dict_put d s i
                tracker := tracker.set s (d.used : Int)
                count := (count.set s 0).set s (aget (count.set s 0) s + 1)
                out_pos := out_pos.set i (aget (tracker.set s (d.used : Int)) s) } := by
        unfold split_body
        simp only [hres, if_pos he]
      refine ⟨_, hbody, inv1, ?_, by simp [htl, dict_put_size], by simp [hcl, dict_put_size],
        by simp [hol], ?_, ?_, ?_⟩
      · simp only [dict_put_used, hused]
        exact (first_locs_length_succ_new eq x i hnew).symm
      · intro t j ht hk
        simp only [dict_put_key, dict_put_size] at ht hk ⊢
        by_cases hts : s = t
        · subst hts
          rw [aget_set_self _ _ _ hsl] at hk
          have hij : i = j := by exact_mod_cast hk
          subst hij
          rw [aget_set_self _ _ _ hst, hused]
        · rw [aget_set_ne _ _ _ _ hts] at hk
          rw [aget_set_ne _ _ _ _ hts]
          exact htr t j ht hk
      · intro t j ht hk
        simp only [dict_put_key, dict_put_size] at ht hk ⊢
        by_cases hts : s = t
        · subst hts
          rw [aget_set_self _ _ _ hsl] at hk
          have hij : i = j := by exact_mod_cast hk
          subst hij
          rw [aget_set_self _ _ _ (by simp [hsc]), aget_set_self _ _ _ hsc,
            freq_upto_succ, freq_upto_new ok x i hnew, equal_scalar_refl ok x i hi]
          rfl
        · rw [aget_set_ne _ _ _ _ hts] at hk
          rw [aget_set_ne _ _ _ _ hts, aget_set_ne _ _ _ _ hts, hcnt t j ht hk,
            freq_upto_succ]
          rcases inv.wf.hkeys t ht with h | ⟨j', hj', h⟩
          · rw [h] at hk
            exact (natCast_ne_empty j hk.symm).elim
          · have : j' = j := by exact_mod_cast h.symm.trans hk
            subst this
            rw [hnew j' hj']
            simp
      · intro k hk
        simp only
        by_cases hki : k = i
        · subst hki
          refine ⟨k, equal_scalar_refl ok x k hi, hnew, ?_⟩
          rw [aget_set_self _ _ _ (by omega), aget_set_self _ _ _ hst, hused]
        · obtain ⟨j0, h1, h2, h3⟩ := hpos k (by omega)
          refine ⟨j0, h1, h2, ?_⟩
          rw [aget_set_ne _ _ _ _ (fun h => hki h.symm)]
          exact h3
    · have hne : aget d.key s ≠ DICT_EMPTY := by rw [hkey]; exact natCast_ne_empty j
      have hbody : split_body hash eq x i
            { d := d, tracker := tracker, count := count, out_pos := out_pos } =
          .ok { d := d
                tracker := tracker
                count := count.set s (aget count s + 1)
                out_pos := out_pos.set i (aget tracker s) } := by
        unfold split_body
        simp only [hres, if_neg hne]
      refine ⟨_, hbody, inv1, ?_, htl, by simp [hcl], by simp [hol], htr, ?_, ?_⟩
      · simp only [hused]
        unfold rank_of
        rw [first_locs_succ_old eq x i j hj hji]
      · intro t j1 ht hk
        simp only at ht hk ⊢
        by_cases hts : s = t
        · subst hts
          have : j1 = j := by exact_mod_cast hk.symm.trans hkey
          subst this
          rw [aget_set_self _ _ _ hsc, hcnt s j1 hs hkey, freq_upto_succ, hji]
          simp
        · rw [aget_set_ne _ _ _ _ hts, hcnt t j1 ht hk, freq_upto_succ]
          have hfalse : equal_scalar eq x j1 x i = false := by
            by_contra hcon
            have hc : equal_scalar eq x j1 x i = true := by simpa using hcon
            have h2 := equal_scalar_trans ok x x x j1 i j hc
              (equal_scalar_symm ok x x j i hji)
            have h3 := first_unique ok x j1 j (inv.hfirst t j1 ht hk) hfj h2
            subst h3
            exact hts (inv.wf.hinj s t hs ht hne (by rw [hkey, hk]))
          rw [hfalse]
          simp
      · intro k hk
        simp only
        by_cases hki : k = i
        · subst hki
          refine ⟨j, hji, hfj, ?_⟩
          rw [aget_set_self _ _ _ (by omega)]
          exact htr s j hs hkey
        · obtain ⟨j0, h1, h2, h3⟩ := hpos k (by omega)
          refine ⟨j0, h1, h2, ?_⟩
          rw [aget_set_ne _ _ _ _ (fun h => hki h.symm)]
          exact h3

/-! ## Lists -/

theorem getD_set_self {β : Type} (l : List β) (s : Nat) (v d : β) (hs : s < l.length) :
    (l.set s v).getD s d = v := by
  rw [List.getD_eq_getElem?_getD, List.getElem?_set]
  simp [hs]

theorem getD_set_ne {β : Type} (l : List β) (s t : Nat) (v d : β) (h : s ≠ t) :
    (l.set s v).getD t d = l.getD t d := by
  rw [List.getD_eq_getElem?_getD, List.getD_eq_getElem?_getD, List.getElem?_set]
  simp [h]

/-- The element of index `r` of a filtered range is preceded by exactly `r` elements that
pass the filter. -/
theorem filter_range_getElem (p : Nat → Bool) (n r : Nat)
    (hr : r < ((List.range n).filter p).length) :
    ((List.range n).filter p)[r] < n ∧ p ((List.range n).filter p)[r] = true ∧
      ((List.range ((List.range n).filter p)[r]).filter p).length = r := by
  induction n with
  | zero => simp at hr
  | succ n ih =>
    have hsplit : (List.range (n + 1)).filter p =
        (List.range n).filter p ++ [n].filter p := by
      rw [List.range_succ, List.filter_append]
    by_cases hlt : r < ((List.range n).filter p).length
    · have hget : ((List.range (n + 1)).filter p)[r] = ((List.range n).filter p)[r] := by
        simp only [hsplit]
        exact List.getElem_append_left hlt
      rw [hget]
      obtain ⟨h1, h2, h3⟩ := ih hlt
      exact ⟨by omega, h2, h3⟩
    · by_cases hp : p n = true
      · have hlen : ((List.range (n + 1)).filter p).length =
            ((List.range n).filter p).length + 1 := by
          rw [hsplit]; simp [hp]
        have hreq : r = ((List.range n).filter p).length := by omega
        have hget : ((List.range (n + 1)).filter p)[r] = n := by
          simp only [hsplit]
          rw [List.getElem_append_right (by omega)]
          simp [hp]
        rw [hget]
        exact ⟨by omega, hp, hreq.symm⟩
      · have hlen : ((List.range (n + 1)).filter p).length =
            ((List.range n).filter p).length := by
          rw [hsplit]; simp [hp]
        omega

theorem filter_succ_true (p : Nat → Bool) (i : Nat) (h : p i = true) :
    (List.range (i + 1)).filter p = (List.range i).filter p ++ [i] := by
  rw [List.range_succ, List.filter_append]
  simp [h]

theorem filter_succ_false (p : Nat → Bool) (i : Nat) (h : p i = false) :
    (List.range (i + 1)).filter p = (List.range i).filter p := by
  rw [List.range_succ, List.filter_append]
  simp [h]

theorem freq_upto_pos {α : Type} {hash : α → Nat} {eq : α → α → Bool}
    (ok : eq_hash_ok hash eq) (x : SEXP α) (j i : Nat) (hj : j < i) (hi : i ≤ vec_size x) :
    0 < freq_upto eq x j i := by
  unfold freq_upto
  rw [List.countP_pos_iff]
  exact ⟨j, List.mem_range.mpr hj, equal_scalar_refl ok x j (by omega)⟩

/-! ## Second loop of `vctrs_duplicate_split` -/

theorem split_alloc_loop {α : Type} {hash : α → Nat} {eq : α → α → Bool}
    (ok : eq_hash_ok hash eq) (x : SEXP α) (s : split_state α)
    (si : split_inv hash eq x s (vec_size x)) :
    ∃ out_idx, for_loop s.d.size (split_alloc_body s) (List.replicate s.d.used []) =
        .ok out_idx ∧
      out_idx.length = s.d.used ∧
      ∀ j, j < vec_size x → (∀ a, a < j → equal_scalar eq x a x j = false) →
        out_idx.getD (rank_of eq x j) [] =
          List.replicate (freq_upto eq x j (vec_size x)) 0 := by
  obtain ⟨out_idx, h1, h2, h3⟩ := for_loop_inv (ε := dict_error) s.d.size
    (split_alloc_body s) (List.replicate s.d.used [])
    (fun h (out_idx : List (List Int)) => out_idx.length = s.d.used ∧
      ∀ (t j : Nat), t < h → t < s.d.size → aget s.d.key t = (j : Int) →
        out_idx.getD (rank_of eq x j) [] =
          List.replicate (freq_upto eq x j (vec_size x)) 0)
    ⟨by simp, fun t j ht => by omega⟩
    (by
      rintro h out_idx hh ⟨hlen, hprev⟩
      by_cases he : aget s.d.key h = DICT_EMPTY
      · have hbody : split_alloc_body s h out_idx = .ok out_idx := by
          unfold split_alloc_body
          simp only [if_pos he]
        refine ⟨_, hbody, hlen, ?_⟩
        intro t j ht hts hk
        by_cases hth : t = h
        · subst hth
          rw [he] at hk
          exact (natCast_ne_empty j hk.symm).elim
        · exact hprev t j (by omega) hts hk
      · rcases si.inv.wf.hkeys h hh with hk | ⟨jh, hjh, hk⟩
        · exact (he hk).elim
        · have hfh := si.inv.hfirst h jh hh hk
          have hbody : split_alloc_body s h out_idx =
              .ok (out_idx.set (rank_of eq x jh)
                (List.replicate (freq_upto eq x jh (vec_size x)) 0)) := by
            unfold split_alloc_body
            simp only [if_neg he, si.htr h jh hh hk, si.hcnt h jh hh hk, Int.toNat_ofNat]
          refine ⟨_, hbody, by simp [hlen], ?_⟩
          intro t j ht hts hkt
          by_cases hth : t = h
          · subst hth
            have : j = jh := by exact_mod_cast hkt.symm.trans hk
            subst this
            apply getD_set_self
            rw [hlen, si.hused]
            exact rank_of_lt eq x j _ hjh hfh
          · have hne : rank_of eq x jh ≠ rank_of eq x j := by
              intro hr
              have hjj := rank_of_inj eq x jh j hfh (si.inv.hfirst t j hts hkt) hr
              subst hjj
              exact hth (si.inv.wf.hinj t h hts hh
                (by rw [hkt]; exact natCast_ne_empty jh) (by rw [hkt, hk]))
            rw [getD_set_ne _ _ _ _ _ hne]
            exact hprev t j (by omega) hts hkt)
  refine ⟨out_idx, h1, h2, ?_⟩
  intro j hj hf
  obtain ⟨t, j0, ht, hkey, hj0⟩ := si.inv.hcover j hj
  have := first_unique ok x j0 j (si.inv.hfirst t j0 ht hkey) hf hj0
  subst this
  exact h3 t j0 ht ht hkey

/-! ## Last loop of `vctrs_duplicate_split` -/

theorem split_fill_loop {α : Type} {hash : α → Nat} {eq : α → α → Bool}
    (ok : eq_hash_ok hash eq) (x : SEXP α) (s : split_state α)
    (si : split_inv hash eq x s (vec_size x)) (out_idx : List (List Int))
    (hlen : out_idx.length = s.d.used)
    (hidx : ∀ j, j < vec_size x → (∀ a, a < j → equal_scalar eq x a x j = false) →
      out_idx.getD (rank_of eq x j) [] =
        List.replicate (freq_upto eq x j (vec_size x)) 0) :
    ∃ o, for_loop (vec_size x) (split_fill_body s)
        { out_key := List.replicate s.d.used 0, out_idx := out_idx,
          counters := List.replicate s.d.used 0 } = .ok o ∧
      fill_inv eq x s.d.used o (vec_size x) := by
  have hused := si.hused
  apply for_loop_inv (ε := dict_error) (vec_size x) _ _
    (fun i (o : split_out) => fill_inv eq x s.d.used o i)
  · refine ⟨by simp, hlen, by simp, ?_⟩
    intro j hj hf
    have hr : rank_of eq x j < s.d.used := by
      rw [hused]; exact rank_of_lt eq x j _ hj hf
    refine ⟨?_, ?_, ?_, fun h => by omega⟩
    · show aget (List.replicate s.d.used 0) (rank_of eq x j) = _
      rw [aget_replicate _ _ _ hr]
      rfl
    · show (out_idx.getD (rank_of eq x j) []).length = _
      rw [hidx j hj hf]
      simp
    · show (out_idx.getD (rank_of eq x j) []).take (freq_upto eq x j 0) = _
      simp [freq_upto]
  · rintro i ⟨out_key, oidx, counters⟩ hi ⟨hkl, hil, hcl, hgrp⟩
    simp only at hkl hil hcl hgrp
    obtain ⟨j0, hj0i, hf0, hpos⟩ := si.hpos i hi
    have hj0le : j0 ≤ i := first_le ok x j0 i hf0 hj0i
    have hj0n : j0 < vec_size x := by omega
    have hr0 : rank_of eq x j0 < s.d.used := by
      rw [hused]; exact rank_of_lt eq x j0 _ hj0n hf0
    obtain ⟨g1, g2, g3, g4⟩ := hgrp j0 hj0n hf0
    have hsucc : freq_upto eq x j0 (i + 1) = freq_upto eq x j0 i + 1 := by
      rw [freq_upto_succ, hj0i]; rfl
    have hclt : freq_upto eq x j0 i < freq_upto eq x j0 (vec_size x) := by
      have := freq_upto_le eq x j0 (i + 1) (vec_size x) (by omega)
      omega
    have hbody : split_fill_body s i
          { out_key := out_key, out_idx := oidx, counters := counters } =
        .ok { out_key := if (freq_upto eq x j0 i : Int) = 0
                then out_key.set (rank_of eq x j0) ((i : Int) + 1) else out_key
              out_idx := oidx.set (rank_of eq x j0)
                ((oidx.getD (rank_of eq x j0) []).set (freq_upto eq x j0 i) ((i : Int) + 1))
              counters := counters.set (rank_of eq x j0)
                ((freq_upto eq x j0 i : Int) + 1) } := by
      unfold split_fill_body
      simp only [hpos, Int.toNat_ofNat, g1]
    refine ⟨_, hbody, ?_, by simp [hil], by simp [hcl], ?_⟩
    · simp only
      split <;> simp [hkl]
    · intro j hj hf
      simp only
      by_cases hjj : j = j0
      · subst hjj
        refine ⟨?_, ?_, ?_, ?_⟩
        · rw [aget_set_self _ _ _ (by omega), hsucc]
          push_cast
          rfl
        · rw [getD_set_self _ _ _ _ (by omega), List.length_set]
          exact g2
        · rw [getD_set_self _ _ _ _ (by omega), hsucc,
            take_set_succ _ _ _ (by rw [g2]; exact hclt), g3,
            filter_succ_true _ i hj0i]
          simp
        · intro _
          by_cases hz : (freq_upto eq x j i : Int) = 0
          · rw [if_pos hz]
            have hji : j = i := by
              by_contra hne
              have := freq_upto_pos ok x j i (by omega) (by omega)
              omega
            rw [aget_set_self _ _ _ (by omega), hji]
          · rw [if_neg hz]
            apply g4
            by_contra hne
            have hji : j = i := by omega
            rw [hji] at hz hf
            apply hz
            rw [freq_upto_new ok x i hf]
            rfl
      · have hne : rank_of eq x j0 ≠ rank_of eq x j := by
          intro hr
          exact hjj (rank_of_inj eq x j0 j hf0 hf hr).symm
        have hfalse : equal_scalar eq x j x i = false := by
          by_contra hcon
          have hc : equal_scalar eq x j x i = true := by simpa using hcon
          have h2 := equal_scalar_trans ok x x x j i j0 hc
            (equal_scalar_symm ok x x j0 i hj0i)
          exact hjj (first_unique ok x j j0 hf hf0 h2)
        obtain ⟨k1, k2, k3, k4⟩ := hgrp j hj hf
        have hsame : freq_upto eq x j (i + 1) = freq_upto eq x j i := by
          rw [freq_upto_succ, hfalse]; rfl
        refine ⟨?_, ?_, ?_, ?_⟩
        · rw [aget_set_ne _ _ _ _ hne, hsame]
          exact k1
        · rw [getD_set_ne _ _ _ _ _ hne]
          exact k2
        · rw [getD_set_ne _ _ _ _ _ hne, hsame, filter_succ_false _ i hfalse]
          exact k3
        · intro hji
          have hlt : j < i := by
            by_contra hcon
            have hji' : j = i := by omega
            rw [hji', equal_scalar_refl ok x i hi] at hfalse
            exact Bool.noConfusion hfalse
          have hk := k4 hlt
          by_cases hz : (freq_upto eq x j0 i : Int) = 0
          · rw [if_pos hz, aget_set_ne _ _ _ _ hne]
            exact hk
          · rw [if_neg hz]
            exact hk

/-! ## `vctrs_duplicate_split` -/

theorem split_result {α : Type} {hash : α → Nat} {eq : α → α → Bool}
    (ok : eq_hash_ok hash eq) (x : SEXP α) (hn : 100 * vec_size x / 77 ≤ 2 ^ 30) :
    ∃ keys groups, vctrs_duplicate_split hash eq x = .ok (keys, groups) ∧
      keys = first_locs eq x (vec_size x) ∧
      groups.length = keys.length ∧
      ∀ j, j < keys.length → groups.getD j [] =
        ((List.range (vec_size x)).filter
          (fun q => equal_scalar eq x q x (aget keys j - 1).toNat)).map
            (fun (q : Nat) => (q : Int) + 1) := by
  obtain ⟨s, hloop, si⟩ := split_loop ok x hn
  obtain ⟨oidx, halloc, hlen, hidx⟩ := split_alloc_loop ok x s si
  obtain ⟨o, hfill, fi⟩ := split_fill_loop ok x s si oidx hlen hidx
  have hused : s.d.used = (first_locs eq x (vec_size x)).length := si.hused
  -- every index below `used` is the rank of a first occurrence
  have hrank : ∀ r, r < s.d.used → ∃ j, j < vec_size x ∧
      (∀ a, a < j → equal_scalar eq x a x j = false) ∧ rank_of eq x j = r ∧
      aget (first_locs eq x (vec_size x)) r = (j : Int) + 1 := by
    intro r hr
    have hr' : r < ((List.range (vec_size x)).filter (is_first eq x)).length := by
      rw [hused] at hr
      unfold first_locs at hr
      simpa using hr
    obtain ⟨h1, h2, h3⟩ := filter_range_getElem (is_first eq x) (vec_size x) r hr'
    refine ⟨_, h1, of_decide_eq_true h2, ?_, ?_⟩
    · unfold rank_of first_locs
      rw [List.length_map]
      exact h3
    · rw [aget_eq_getElem _ _ (by rw [← hused]; exact hr)]
      unfold first_locs
      rw [List.getElem_map]
  have hkeys : o.out_key = first_locs eq x (vec_size x) := by
    apply List.ext_getElem
    · rw [fi.hkl, hused]
    · intro r h1 h2
      have hr : r < s.d.used := by rw [← fi.hkl]; exact h1
      obtain ⟨j, hj, hf, hrk, hget⟩ := hrank r hr
      rw [← aget_eq_getElem _ _ h1, ← aget_eq_getElem _ _ h2, hget, ← hrk]
      exact (fi.hgrp j hj hf).2.2.2 hj
  refine ⟨o.out_key, o.out_idx, ?_, hkeys, by rw [fi.hil, fi.hkl], ?_⟩
  · unfold vctrs_duplicate_split
    simp only [hloop, halloc, hfill]
  · intro r hr
    rw [fi.hkl] at hr
    obtain ⟨j, hj, hf, hrk, hget⟩ := hrank r hr
    obtain ⟨_, g2, g3, _⟩ := fi.hgrp j hj hf
    rw [hkeys, hget, ← hrk]
    have hjj : ((j : Int) + 1 - 1).toNat = j := by omega
    rw [hjj]
    have htake : (o.out_idx.getD (rank_of eq x j) []).take
        (freq_upto eq x j (vec_size x)) = o.out_idx.getD (rank_of eq x j) [] := by
      rw [← g2, List.take_length]
    rw [← htake, g3]
    congr 1
    apply List.filter_congr
    intro k _
    rw [Bool.eq_iff_iff]
    exact ⟨equal_scalar_symm ok x x j k, equal_scalar_symm ok x x k j⟩

/-- Below the overflow bound of `dict_init`, `100 * n / 77 ≤ 2 ^ 30`:
`vctrs_duplicate_split(x)` returns `(keys, groups)` where `keys` is the list of
first occurrence positions in first occurrence order, equal to `vctrs_unique_loc(x)`,
`groups` has the length of `keys`, and `groups[j]` is the ascending list of the one-based
positions `q + 1` with `x[q]` equal to `x[keys[j] - 1]`. -/
theorem vctrs_duplicate_split_spec {α : Type} (hash : α → Nat) (eq : α → α → Bool)
    (ok : eq_hash_ok hash eq) (x : SEXP α) (hn : 100 * vec_size x / 77 ≤ 2 ^ 30) :
    ∃ keys groups, vctrs_duplicate_split hash eq x = .ok (keys, groups) ∧
      vctrs_unique_loc hash eq x = .ok keys ∧
      groups.length = keys.length ∧
      ∀ j, j < keys.length → groups.getD j [] =
        ((List.range (vec_size x)).filter
          (fun q => equal_scalar eq x q x (aget keys j - 1).toNat)).map
            (fun (q : Nat) => (q : Int) + 1) := by
  obtain ⟨keys, groups, h1, h2, h3, h4⟩ := split_result ok x hn
  obtain ⟨u, huloop, _, hu⟩ := unique_loc_loop ok x hn
  refine ⟨keys, groups, h1, ?_, h3, h4⟩
  unfold vctrs_unique_loc
  simp only [huloop, growable_values, hu, h2]

/-- Concrete scenario: `[3, 1, 3, 2, 1, 1]` gives `keys = [1, 2, 4]` and
`groups = [[1, 3], [2, 5, 6], [4]]`. -/
theorem vctrs_duplicate_split_witness :
    vctrs_duplicate_split nat_hash nat_eq ⟨0, [3, 1, 3, 2, 1, 1]⟩ =
      .ok ([1, 2, 4], [[1, 3], [2, 5, 6], [4]]) := by
  obtain ⟨keys, groups, h1, h2, h3, h4⟩ := vctrs_duplicate_split_spec nat_hash nat_eq
    nat_eq_hash_ok ⟨0, [3, 1, 3, 2, 1, 1]⟩ (by decide)
  have hk : keys = [1, 2, 4] := by
    have : vctrs_unique_loc nat_hash nat_eq ⟨0, [3, 1, 3, 2, 1, 1]⟩ = .ok [1, 2, 4] := rfl
    rw [h2] at this
    cases this
    rfl
  subst hk
  have hg : groups = [[1, 3], [2, 5, 6], [4]] := by
    apply List.ext_getElem
    · exact h3
    · intro r hr1 hr2
      have hr : r < 3 := hr2
      have := h4 r hr
      rw [List.getD_eq_getElem _ _ hr1] at this
      rw [this]
      interval_cases r <;> rfl
  rw [h1, hg]

/-! ## Agreement of the distinct counts -/

/-- Below the overflow bound of `dict_init`, `100 * n / 77 ≤ 2 ^ 30`:
the integer returned by `vctrs_n_distinct(x)`, the length of
`vctrs_unique_loc(x)`, the length of the key vector of `vctrs_count(x)` and the length of
the key vector of `vctrs_duplicate_split(x)` agree. -/
theorem distinct_counts_agree {α : Type} (hash : α → Nat) (eq : α → α → Bool)
    (ok : eq_hash_ok hash eq) (x : SEXP α) (hn : 100 * vec_size x / 77 ≤ 2 ^ 30) :
    ∃ nd locs ckey cval skey sidx,
      vctrs_n_distinct hash eq x = .ok nd ∧
      vctrs_unique_loc hash eq x = .ok locs ∧
      vctrs_count hash eq x = .ok (ckey, cval) ∧
      vctrs_duplicate_split hash eq x = .ok (skey, sidx) ∧
      nd = (locs.length : Int) ∧ locs.length = ckey.length ∧
      ckey.length = skey.length := by
  obtain ⟨d, hload, _, hdused⟩ := load_loop ok true x hn
  obtain ⟨u, huloop, _, hu⟩ := unique_loc_loop ok x hn
  obtain ⟨s, hcloop, inv, hcused, _⟩ := count_loop ok x hn
  obtain ⟨o, hout, hk, _⟩ := count_out_loop inv.wf s.2
  obtain ⟨skey, sidx, hsplit, hskey, _, _⟩ := split_result ok x hn
  refine ⟨(d.used : Int), u.2, o.1, o.2.1, skey, sidx, ?_, ?_, ?_, hsplit, ?_, ?_, ?_⟩
  · unfold vctrs_n_distinct
    simp only [hload]
  · unfold vctrs_unique_loc
    simp only [huloop]
    rfl
  · unfold vctrs_count
    simp only [hcloop, hout]
  · rw [hdused, hu]
  · rw [hk, List.length_map, occupied_length_used inv.wf, hcused, hu]
  · rw [hk, List.length_map, occupied_length_used inv.wf, hcused, hskey]

/-- Concrete scenario: `x = [3, 1, 3, 2, 1, 1]` has three distinct elements. -/
theorem distinct_counts_agree_witness :
    vctrs_n_distinct nat_hash nat_eq ⟨0, [3, 1, 3, 2, 1, 1]⟩ = .ok 3 ∧
    ∃ locs ckey cval skey sidx,
      vctrs_unique_loc nat_hash nat_eq ⟨0, [3, 1, 3, 2, 1, 1]⟩ = .ok locs ∧
      vctrs_count nat_hash nat_eq ⟨0, [3, 1, 3, 2, 1, 1]⟩ = .ok (ckey, cval) ∧
      vctrs_duplicate_split nat_hash nat_eq ⟨0, [3, 1, 3, 2, 1, 1]⟩ = .ok (skey, sidx) ∧
      locs.length = 3 ∧ ckey.length = 3 ∧ skey.length = 3 := by
  obtain ⟨nd, locs, ckey, cval, skey, sidx, h1, h2, h3, h4, h5, h6, h7⟩ :=
    distinct_counts_agree nat_hash nat_eq nat_eq_hash_ok ⟨0, [3, 1, 3, 2, 1, 1]⟩ (by decide)
  have hnd : nd = 3 := by
    have : vctrs_n_distinct nat_hash nat_eq ⟨0, [3, 1, 3, 2, 1, 1]⟩ = .ok 3 := rfl
    rw [h1] at this
    cases this
    rfl
  subst hnd
  have hl : locs.length = 3 := by omega
  exact ⟨h1, locs, ckey, cval, skey, sidx, h2, h3, h4, hl, by omega, by omega⟩

/-! ## `ceil2` as the least power of two -/

/-- C20: for `1 ≤ x ≤ 2 ^ 30`, `ceil2 x` is the least power of two that is at least `x`,
so `x ≤ ceil2 x < 2 x` and `ceil2 x = x` on powers of two; `ceil2 0 = 0`, and the
dictionary of an empty vector has the minimum size 16. -/
theorem ceil2_least_power_of_two {α : Type} (hash : α → Nat) (x : SEXP α) (hashed : Bool) :
    (∀ v : Int, 1 ≤ v → v ≤ 2 ^ 30 →
      ∃ m : Nat, ceil2 v = 2 ^ m ∧ v ≤ 2 ^ m ∧ (2 : Int) ^ m < 2 * v ∧
        (∀ k : Nat, v ≤ 2 ^ k → (2 : Int) ^ m ≤ 2 ^ k) ∧
        ((∃ e : Nat, v = 2 ^ e) → ceil2 v = v)) ∧
    ceil2 0 = 0 ∧
    (vec_size x = 0 → (dict_init hash x hashed).size = 16) := by
  refine ⟨?_, ceil2_zero, ?_⟩
  · intro v h1 h2
    obtain ⟨n, rfl⟩ : ∃ n : Nat, v = (n : Int) := ⟨v.toNat, by omega⟩
    have h1' : 1 ≤ n := by omega
    have h2' : n ≤ 2 ^ 30 := by
      have : (n : Int) ≤ 2 ^ 30 := by omega
      exact_mod_cast this
    obtain ⟨m, _, hc, hle, hlt⟩ := ceil2_spec n h1' h2'
    have hmono : ∀ k : Nat, n ≤ 2 ^ k → 2 ^ m ≤ 2 ^ k := by
      intro k hk
      have h3 : 2 ^ m < 2 ^ (k + 1) := by rw [pow_succ]; omega
      have h4 : m < k + 1 := (Nat.pow_lt_pow_iff_right (by omega)).mp h3
      exact Nat.pow_le_pow_right (by omega) (by omega)
    refine ⟨m, ?_, ?_, ?_, ?_, ?_⟩
    · rw [hc]; push_cast; rfl
    · exact_mod_cast hle
    · exact_mod_cast hlt
    · intro k hk
      have : n ≤ 2 ^ k := by exact_mod_cast hk
      exact_mod_cast hmono k this
    · rintro ⟨e, he⟩
      have hne : n = 2 ^ e := by exact_mod_cast he
      have h5 := hmono e (by omega)
      have : 2 ^ m = n := by omega
      rw [hc, this]
  · intro h0
    unfold dict_init
    simp only [h0]
    decide

/-- C20, concrete scenario: `ceil2 17 = 32`. -/
theorem ceil2_least_power_of_two_witness : ceil2 17 = 32 := by
  obtain ⟨m, h1, h2, h3, _, _⟩ :=
    (ceil2_least_power_of_two nat_hash ⟨0, []⟩ true).1 17 (by decide) (by decide)
  have hm : m = 5 := by
    have h4 : (2 : Int) ^ m < 2 ^ 6 := by omega
    have h5 : (2 : Int) ^ 4 < 2 ^ m := by omega
    have h6 : m < 6 := (pow_lt_pow_iff_right₀ (by norm_num : (1 : Int) < 2)).mp h4
    have h7 : 4 < m := (pow_lt_pow_iff_right₀ (by norm_num : (1 : Int) < 2)).mp h5
    omega
  rw [h1, hm]
  rfl

/-! ## The wrapped probe arithmetic -/

/-- C18: for a table size `2 ^ m` with `m ≤ 31`, every `uint32_t` hash and every
`k < size`, the probe computed in 32-bit arithmetic, wraps included, is
`(hash + k (k + 1) / 2) mod size` computed over the natural numbers. -/
theorem dict_probe_wraps (m hash k : Nat) (hm : m ≤ 31) (_ : hash < 2 ^ 32)
    (_ : k < 2 ^ m) :
    dict_probe (2 ^ m) hash k = (hash + k * (k + 1) / 2) % 2 ^ m ∧
    ((hash + (k * (k + 1)) % 2 ^ 32 / 2) % 2 ^ 32) % 2 ^ m =
      (hash + k * (k + 1) / 2) % 2 ^ m :=
  ⟨dict_probe_eq m hash k hm, dict_probe_eq m hash k hm⟩

/-- C18, concrete scenario: `k = 2 ^ 16`, where `k (k + 1)` no longer fits 32 bits. -/
theorem dict_probe_wraps_witness :
    65536 * (65536 + 1) ≥ 2 ^ 32 ∧
    dict_probe (2 ^ 31) 4000000000 65536 =
      (4000000000 + 65536 * (65536 + 1) / 2) % 2 ^ 31 :=
  ⟨by decide, (dict_probe_wraps 31 4000000000 65536 (by decide) (by decide) (by decide)).1⟩

/-! ## Capacity and load factor -/

theorem next_pow2_17 : next_pow2 17 = 32 := by
  unfold next_pow2
  have h1 : Nat.clog 2 17 ≤ 5 := (Nat.le_pow_iff_clog_le (by norm_num)).mp (by norm_num)
  have h2 : 4 < Nat.clog 2 17 := (Nat.pow_lt_iff_lt_clog (by norm_num)).mp (by norm_num)
  have : Nat.clog 2 17 = 5 := by omega
  rw [this]
  rfl

/-- The capacity that `dict_init` computes: the quotient `100 n / 77` is truncated before
it is rounded up to a power of two. -/
theorem dict_init_size_floor {α : Type} (hash : α → Nat) (x : SEXP α) (hashed : Bool)
    (hn : 100 * vec_size x / 77 ≤ 2 ^ 30) :
    (dict_init hash x hashed).size = max 16 (next_pow2 (100 * vec_size x / 77)) := by
  show (if ceil2 (Int.ofNat (100 * vec_size x / 77)) < 16 then (16 : Int)
    else ceil2 (Int.ofNat (100 * vec_size x / 77))).toNat = _
  by_cases h0 : 100 * vec_size x / 77 = 0
  · rw [h0]
    unfold next_pow2
    simp [ceil2_zero]
  · obtain ⟨m, _, hc, hle, hlt⟩ := ceil2_spec (100 * vec_size x / 77) (by omega) (by omega)
    have hclog : Nat.clog 2 (100 * vec_size x / 77) = m := by
      have h1 : Nat.clog 2 (100 * vec_size x / 77) ≤ m :=
        (Nat.le_pow_iff_clog_le (by norm_num)).mp hle
      cases m with
      | zero => omega
      | succ k =>
        have h2 : 2 ^ k < 100 * vec_size x / 77 := by rw [pow_succ] at hlt; omega
        have h3 := (Nat.pow_lt_iff_lt_clog (by norm_num)).mp h2
        omega
    unfold next_pow2
    rw [hclog, Int.ofNat_eq_coe, hc]
    by_cases h16 : ((2 ^ m : Nat) : Int) < 16
    · rw [if_pos h16]
      have : 2 ^ m < 16 := by exact_mod_cast h16
      rw [max_eq_left (by omega)]
      rfl
    · rw [if_neg h16, Int.toNat_ofNat]
      have : ¬ 2 ^ m < 16 := by
        intro h; exact h16 (by exact_mod_cast h)
      rw [max_eq_right (by omega)]

/-- C13: at `n = 13` the capacity of `dict_init` is 16, while
`max(16, nextPow2(ceil(100 n / 77)))` is 32: `100 * 13 / 77` is truncated to 16 where its
ceiling is 17. -/
theorem dict_init_capacity_13 :
    (dict_init nat_hash ⟨0, List.range 13⟩ true).size = 16 ∧
    (dict_init nat_hash ⟨0, List.range 13⟩ false).size = 16 ∧
    spec_capacity 13 = 32 := by
  refine ⟨by decide, by decide, ?_⟩
  unfold spec_capacity
  rw [show (100 * 13 + 76) / 77 = 17 by norm_num, next_pow2_17]
  rfl

/-- C12: thirteen pairwise distinct elements fill 13 of the 16 slots of the dictionary,
a load factor of 0.8125: `100 * used ≤ 77 * size` fails. -/
theorem load_factor_exceeded :
    ∃ d, for_loop 13 (load_body nat_hash nat_eq ⟨0, List.range 13⟩)
        (dict_init nat_hash ⟨0, List.range 13⟩ true) = .ok d ∧
      d.used = 13 ∧ d.size = 16 ∧ ¬ (100 * d.used ≤ 77 * d.size) :=
  ⟨_, rfl, rfl, rfl, by decide⟩

/-! ## The dictionary is never full -/

theorem dict_reach_wf {α : Type} (hash : α → Nat) (eq : α → α → Bool) (hashed : Bool)
    (x : SEXP α) (hn : 100 * vec_size x / 77 ≤ 2 ^ 30) (d : dictionary α) (i : Nat)
    (h : dict_reach hash eq hashed x d i) :
    dict_wf hash hashed x d i ∧ i ≤ vec_size x := by
  induction h with
  | init => exact ⟨dict_wf_init hash hashed x hn, Nat.zero_le _⟩
  | put d i h _ hi hres he ih =>
    obtain ⟨s, _, hres', hput, _⟩ := dict_wf_step eq ih.1 hi
    rw [hres] at hres'
    cases hres'
    exact ⟨hput he, hi⟩
  | keep d i h _ hi _ _ ih => exact ⟨dict_wf_mono ih.1, hi⟩

theorem for_loop_ok {σ ε : Type} (n : Nat) (body : Nat → σ → Except ε σ) (s0 : σ)
    (h : ∀ i s, ∃ s1, body i s = .ok s1) : ∃ s1, for_loop n body s0 = .ok s1 := by
  obtain ⟨s1, h1, _⟩ := for_loop_inv n body s0 (fun _ _ => True) trivial
    (fun i s _ _ => by
      obtain ⟨s1, h1⟩ := h i s
      exact ⟨s1, h1, trivial⟩)
  exact ⟨s1, h1⟩

theorem unique_loc_loop_wf {α : Type} (hash : α → Nat) (eq : α → α → Bool) (x : SEXP α)
    (hn : 100 * vec_size x / 77 ≤ 2 ^ 30) :
    ∃ s, for_loop (vec_size x) (unique_loc_body hash eq x)
      (dict_init hash x true, growable_init) = .ok s := by
  obtain ⟨s, h, _⟩ := for_loop_inv (vec_size x) (unique_loc_body hash eq x)
    (dict_init hash x true, growable_init)
    (fun i (s : dictionary α × List Int) => dict_wf hash true x s.1 i)
    (dict_wf_init hash true x hn)
    (by
      rintro i ⟨d, g⟩ hi wf
      obtain ⟨s, _, hres, hput, hmono⟩ := dict_wf_step eq wf hi
      unfold unique_loc_body
      simp only [hres]
      by_cases he : aget d.key s = DICT_EMPTY
      · rw [if_pos he]
        exact ⟨_, rfl, hput he⟩
      · rw [if_neg he]
        exact ⟨_, rfl, hmono⟩)
  exact ⟨s, h⟩

theorem id_loop_wf {α : Type} (hash : α → Nat) (eq : α → α → Bool) (x : SEXP α)
    (hn : 100 * vec_size x / 77 ≤ 2 ^ 30) :
    ∃ s, for_loop (vec_size x) (id_body hash eq x)
      (dict_init hash x true, List.replicate (vec_size x) 0) = .ok s := by
  obtain ⟨s, h, _⟩ := for_loop_inv (vec_size x) (id_body hash eq x)
    (dict_init hash x true, List.replicate (vec_size x) 0)
    (fun i (s : dictionary α × List Int) => dict_wf hash true x s.1 i)
    (dict_wf_init hash true x hn)
    (by
      rintro i ⟨d, out⟩ hi wf
      obtain ⟨s, _, hres, hput, hmono⟩ := dict_wf_step eq wf hi
      unfold id_body
      simp only [hres]
      by_cases he : aget d.key s = DICT_EMPTY
      · simp only [if_pos he]
        exact ⟨_, rfl, hput he⟩
      · simp only [if_neg he]
        exact ⟨_, rfl, hmono⟩)
  exact ⟨s, h⟩

theorem count_loop_wf {α : Type} (hash : α → Nat) (eq : α → α → Bool) (x : SEXP α)
    (hn : 100 * vec_size x / 77 ≤ 2 ^ 30) :
    ∃ s, for_loop (vec_size x) (count_body hash eq x)
        (dict_init hash x true, List.replicate (dict_init hash x true).size 0) = .ok s ∧
      dict_wf hash true x s.1 (vec_size x) := by
  apply for_loop_inv (vec_size x) (count_body hash eq x)
    (dict_init hash x true, List.replicate (dict_init hash x true).size 0)
    (fun i (s : dictionary α × List Int) => dict_wf hash true x s.1 i)
    (dict_wf_init hash true x hn)
  rintro i ⟨d, val⟩ hi wf
  obtain ⟨s, _, hres, hput, hmono⟩ := dict_wf_step eq wf hi
  unfold count_body
  simp only [hres]
  by_cases he : aget d.key s = DICT_EMPTY
  · simp only [if_pos he]
    exact ⟨_, rfl, hput he⟩
  · simp only [if_neg he]
    exact ⟨_, rfl, hmono⟩

theorem split_loop_wf {α : Type} (hash : α → Nat) (eq : α → α → Bool) (x : SEXP α)
    (hn : 100 * vec_size x / 77 ≤ 2 ^ 30) :
    ∃ s, for_loop (vec_size x) (split_body hash eq x)
        { d := dict_init hash x true
          tracker := List.replicate (dict_init hash x true).size 0
          count := List.replicate (dict_init hash x true).size 0
          out_pos := List.replicate (vec_size x) 0 } = .ok s := by
  obtain ⟨s, h, _⟩ := for_loop_inv (vec_size x) (split_body hash eq x)
    { d := dict_init hash x true
      tracker := List.replicate (dict_init hash x true).size 0
      count := List.replicate (dict_init hash x true).size 0
      out_pos := List.replicate (vec_size x) 0 }
    (fun i (s : split_state α) => dict_wf hash true x s.d i)
    (dict_wf_init hash true x hn)
    (by
      rintro i ⟨d, tracker, count, out_pos⟩ hi wf
      obtain ⟨s, _, hres, hput, hmono⟩ := dict_wf_step eq wf hi
      unfold split_body
      simp only [hres]
      by_cases he : aget d.key s = DICT_EMPTY
      · simp only [if_pos he]
        exact ⟨_, rfl, hput he⟩
      · simp only [if_neg he]
        exact ⟨_, rfl, hmono⟩)
  exact ⟨s, h⟩

theorem duplicated_any_loop_wf {α : Type} (hash : α → Nat) (eq : α → α → Bool)
    (x : SEXP α) :
    ∀ (fuel i : Nat) (d : dictionary α), i + fuel = vec_size x →
      dict_wf hash false x d i →
      ∃ r, vctrs_duplicated_any_loop hash eq x fuel i d = .ok r := by
  intro fuel
  induction fuel with
  | zero => intro i d _ _; exact ⟨false, rfl⟩
  | succ fuel ih =>
    intro i d hi wf
    obtain ⟨s, _, hres, hput, _⟩ := dict_wf_step eq wf (by omega)
    unfold vctrs_duplicated_any_loop
    simp only [hres]
    by_cases he : aget d.key s = DICT_EMPTY
    · rw [if_pos he]
      exact ih (i + 1) _ (by omega) (hput he)
    · rw [if_neg he]
      exact ⟨true, rfl⟩

theorem duplicated_out_loop_wf {α : Type} (hash : α → Nat) (eq : α → α → Bool)
    (x : SEXP α) (d : dictionary α) (val : List Int)
    (wf : dict_wf hash true x d (vec_size x)) :
    ∃ out, for_loop (vec_size x) (duplicated_out_body hash eq d val x)
      (List.replicate (vec_size x) false) = .ok out := by
  obtain ⟨out, h, _⟩ := for_loop_inv (vec_size x) (duplicated_out_body hash eq d val x)
    (List.replicate (vec_size x) false) (fun _ (_ : List Bool) => True) trivial
    (by
      intro i out hi _
      obtain ⟨k0, _, hres, _, _, _⟩ :=
        dict_hash_scalar_total eq wf (le_refl _) x i (Or.inr ⟨rfl, hi⟩)
      unfold duplicated_out_body
      simp only [hres]
      exact ⟨_, rfl, trivial⟩)
  exact ⟨out, h⟩

/-- C11: the table-full error is unreachable.  Every call of `dict_hash_scalar` on a
dictionary reached from `dict_init` by the filling loop returns a slot below the capacity
that is empty or holds an element equal to the query, and each of the nine entry points
returns a result, whatever the equality and the hash are. -/
theorem dictionary_never_full {α : Type} (hash : α → Nat) (eq : α → α → Bool)
    (x : SEXP α) (hn : 100 * vec_size x / 77 ≤ 2 ^ 30) :
    (∀ (hashed : Bool) (d : dictionary α) (i : Nat), dict_reach hash eq hashed x d i →
      ∀ (y : SEXP α) (q : Nat), (hashed = false ∨ (y = x ∧ q < vec_size x)) →
        ∃ s, dict_hash_scalar hash eq d y q = .ok s ∧ s < d.size ∧
          (aget d.key s = DICT_EMPTY ∨
            equal_scalar eq d.x (aget d.key s).toNat y q = true)) ∧
    (∃ r, vctrs_unique_loc hash eq x = .ok r) ∧
    (∃ r, vctrs_duplicated_any hash eq x = .ok r) ∧
    (∃ r, vctrs_n_distinct hash eq x = .ok r) ∧
    (∃ r, vctrs_id hash eq x = .ok r) ∧
    (∀ needles, ∃ r, vctrs_match hash eq needles x = .ok r) ∧
    (∀ needles, ∃ r, vctrs_in hash eq needles x = .ok r) ∧
    (∃ r, vctrs_count hash eq x = .ok r) ∧
    (∃ r, vctrs_duplicated hash eq x = .ok r) ∧
    (∃ r, vctrs_duplicate_split hash eq x = .ok r) := by
  refine ⟨?_, ?_, ?_, ?_, ?_, ?_, ?_, ?_, ?_, ?_⟩
  · intro hashed d i hr y q hq
    obtain ⟨wf, hi⟩ := dict_reach_wf hash eq hashed x hn d i hr
    obtain ⟨k0, _, hres, hlt, hstop, _⟩ := dict_hash_scalar_total eq wf hi y q hq
    exact ⟨_, hres, hlt, hstop⟩
  · obtain ⟨s, h⟩ := unique_loc_loop_wf hash eq x hn
    exact ⟨growable_values s.2, by unfold vctrs_unique_loc; simp only [h]⟩
  · unfold vctrs_duplicated_any
    exact duplicated_any_loop_wf hash eq x (vec_size x) 0 _ (by omega)
      (dict_wf_init hash false x hn)
  · obtain ⟨d, h, _⟩ := load_loop_wf hash eq true x hn
    exact ⟨(d.used : Int), by unfold vctrs_n_distinct; simp only [h]⟩
  · obtain ⟨s, h⟩ := id_loop_wf hash eq x hn
    exact ⟨s.2, by unfold vctrs_id; simp only [h]⟩
  · intro needles
    obtain ⟨d, h, wf⟩ := load_loop_wf hash eq false x hn
    obtain ⟨out, h1, _⟩ := match_loop_wf eq wf needles
    exact ⟨out, by unfold vctrs_match; simp only [h]; exact h1⟩
  · intro needles
    obtain ⟨d, h, wf⟩ := load_loop_wf hash eq false x hn
    obtain ⟨out, h1, _⟩ := in_loop_wf eq wf needles
    exact ⟨out, by unfold vctrs_in; simp only [h]; exact h1⟩
  · obtain ⟨s, h, wf⟩ := count_loop_wf hash eq x hn
    obtain ⟨o, h1, _⟩ := count_out_loop wf s.2
    exact ⟨(o.1, o.2.1), by unfold vctrs_count; simp only [h, h1]⟩
  · obtain ⟨s, h, wf⟩ := count_loop_wf hash eq x hn
    obtain ⟨out, h1⟩ := duplicated_out_loop_wf hash eq x s.1 s.2 wf
    exact ⟨out, by unfold vctrs_duplicated; simp only [h]; exact h1⟩
  · obtain ⟨s, h⟩ := split_loop_wf hash eq x hn
    obtain ⟨oi, h1⟩ := for_loop_ok (ε := dict_error) s.d.size (split_alloc_body s)
      (List.replicate s.d.used [])
      (fun i o => by unfold split_alloc_body; split <;> exact ⟨_, rfl⟩)
    obtain ⟨o, h2⟩ := for_loop_ok (ε := dict_error) (vec_size x) (split_fill_body s)
      { out_key := List.replicate s.d.used 0, out_idx := oi,
        counters := List.replicate s.d.used 0 }
      (fun i o => ⟨_, rfl⟩)
    exact ⟨(o.out_key, o.out_idx), by
      unfold vctrs_duplicate_split; simp only [h, h1, h2]⟩

/-- C11, concrete scenario: on fifteen elements that all hash to the same value the
first probe of the initial table and the entry points return. -/
theorem dictionary_never_full_witness :
    (∃ s, dict_hash_scalar (fun _ => 7) nat_eq
        (dict_init (fun _ => 7) ⟨0, List.range 15⟩ true) ⟨0, List.range 15⟩ 3 = .ok s ∧
      s < (dict_init (fun _ => 7) (⟨0, List.range 15⟩ : SEXP Nat) true).size) ∧
    (∃ r, vctrs_unique_loc (fun _ => 7) nat_eq ⟨0, List.range 15⟩ = .ok r) := by
  have h := dictionary_never_full (fun _ => 7) nat_eq ⟨0, List.range 15⟩ (by decide)
  obtain ⟨s, h1, h2, _⟩ := h.1 true _ 0 dict_reach.init ⟨0, List.range 15⟩ 3
    (Or.inr ⟨rfl, by decide⟩)
  exact ⟨⟨s, h1, h2⟩, h.2.1⟩

/-! ## Sum of the frequencies -/

theorem sum_map_add_ite {β : Type} (l : List β) (f : β → Nat) (p : β → Bool) :
    (l.map (fun j => f j + if p j = true then 1 else 0)).sum =
      (l.map f).sum + l.countP p := by
  induction l with
  | nil => rfl
  | cons a l ih =>
    simp only [List.map_cons, List.sum_cons, List.countP_cons, ih]
    omega

theorem countP_eq_one_of_unique {β : Type} (l : List β) (p : β → Bool) (a : β)
    (hnd : l.Nodup) (ha : a ∈ l) (hp : p a = true)
    (huniq : ∀ b, b ∈ l → p b = true → b = a) : l.countP p = 1 := by
  induction l with
  | nil => simp at ha
  | cons c l ih =>
    rw [List.nodup_cons] at hnd
    rw [List.countP_cons]
    by_cases hc : p c = true
    · have hca : c = a := huniq c (List.mem_cons_self _ _) hc
      have hz : l.countP p = 0 := by
        rw [List.countP_eq_zero]
        intro b hb hpb
        have := huniq b (List.mem_cons_of_mem _ hb) hpb
        rw [this, ← hca] at hb
        exact hnd.1 hb
      rw [hz, if_pos hc]
    · rw [if_neg hc]
      have hal : a ∈ l := by
        rcases List.mem_cons.mp ha with h | h
        · rw [h] at hp; exact (hc hp).elim
        · exact h
      rw [ih hnd.2 hal (fun b hb => huniq b (List.mem_cons_of_mem _ hb))]

/-- Every position that is not a first occurrence has a first occurrence before it that
holds an equal element. -/
theorem exists_first {α : Type} {hash : α → Nat} {eq : α → α → Bool}
    (ok : eq_hash_ok hash eq) (x : SEXP α) (i : Nat)
    (h : ∃ j, j < i ∧ equal_scalar eq x j x i = true) :
    ∃ j0, j0 < i ∧ equal_scalar eq x j0 x i = true ∧
      ∀ a, a < j0 → equal_scalar eq x a x j0 = false := by
  classical
  refine ⟨Nat.find h, (Nat.find_spec h).1, (Nat.find_spec h).2, ?_⟩
  intro a ha
  by_contra hcon
  have hc : equal_scalar eq x a x (Nat.find h) = true := by simpa using hcon
  have h2 := equal_scalar_trans ok x x x a (Nat.find h) i hc (Nat.find_spec h).2
  exact Nat.find_min h ha ⟨by have := (Nat.find_spec h).1; omega, h2⟩

/-- The frequencies of the first occurrences among the first `i` positions add up
to `i`. -/
theorem sum_freq_upto {α : Type} {hash : α → Nat} {eq : α → α → Bool}
    (ok : eq_hash_ok hash eq) (x : SEXP α) (i : Nat) (hi : i ≤ vec_size x) :
    (((List.range i).filter (is_first eq x)).map (fun j => freq_upto eq x j i)).sum = i := by
  induction i with
  | zero => rfl
  | succ i ih =>
    have ih' := ih (by omega)
    have hstep : (((List.range i).filter (is_first eq x)).map
        (fun j => freq_upto eq x j (i + 1))).sum =
        i + ((List.range i).filter (is_first eq x)).countP
          (fun j => equal_scalar eq x j x i) := by
      have : (fun j => freq_upto eq x j (i + 1)) =
          (fun j => freq_upto eq x j i + if equal_scalar eq x j x i = true then 1 else 0) := by
        funext j
        exact freq_upto_succ eq x j i
      rw [this, sum_map_add_ite, ih']
    by_cases hf : is_first eq x i = true
    · have hnew : ∀ j, j < i → equal_scalar eq x j x i = false := of_decide_eq_true hf
      rw [filter_succ_true _ i hf, List.map_append, List.sum_append, hstep]
      have hz : ((List.range i).filter (is_first eq x)).countP
          (fun j => equal_scalar eq x j x i) = 0 := by
        rw [List.countP_eq_zero]
        intro j hj
        rw [List.mem_filter, List.mem_range] at hj
        rw [hnew j hj.1]
        simp
      rw [hz]
      simp only [List.map_cons, List.map_nil, List.sum_cons, List.sum_nil]
      rw [freq_upto_succ, freq_upto_new ok x i hnew, equal_scalar_refl ok x i (by omega)]
      rfl
    · have hf' : is_first eq x i = false := by simpa using hf
      have hex : ∃ j, j < i ∧ equal_scalar eq x j x i = true := by
        by_contra hcon
        push_neg at hcon
        apply hf
        unfold is_first
        apply decide_eq_true
        intro j hj
        simpa using hcon j hj
      obtain ⟨j0, hj0, he0, hf0⟩ := exists_first ok x i hex
      rw [filter_succ_false _ i hf', hstep]
      have hone : ((List.range i).filter (is_first eq x)).countP
          (fun j => equal_scalar eq x j x i) = 1 := by
        apply countP_eq_one_of_unique _ _ j0 ((List.nodup_range _).filter _)
        · rw [List.mem_filter, List.mem_range]
          exact ⟨hj0, decide_eq_true hf0⟩
        · exact he0
        · intro b hb hpb
          rw [List.mem_filter] at hb
          have hfb : ∀ a, a < b → equal_scalar eq x a x b = false := of_decide_eq_true hb.2
          have h2 := equal_scalar_trans ok x x x b i j0 hpb
            (equal_scalar_symm ok x x j0 i he0)
          exact first_unique ok x b j0 hfb hf0 h2
      rw [hone]

/-- Below the overflow bound of `dict_init`, `100 * n / 77 ≤ 2 ^ 30`:
the values returned by `vctrs_count(x)` add up to the size of `x`. -/
theorem vctrs_count_sum {α : Type} (hash : α → Nat) (eq : α → α → Bool)
    (ok : eq_hash_ok hash eq) (x : SEXP α) (hn : 100 * vec_size x / 77 ≤ 2 ^ 30) :
    ∃ key val, vctrs_count hash eq x = .ok (key, val) ∧ val.sum = (vec_size x : Int) := by
  obtain ⟨s, hloop, inv, _, hval⟩ := count_loop ok x hn
  obtain ⟨o, hout, _, hv⟩ := count_out_loop inv.wf s.2
  refine ⟨o.1, o.2.1, ?_, ?_⟩
  · unfold vctrs_count
    simp only [hloop, hout]
  · have hmap : o.2.1 = (((occupied s.1 s.1.size).map (fun t => (aget s.1.key t).toNat)).map
        (fun j => freq_upto eq x j (vec_size x))).map (fun (c : Nat) => (c : Int)) := by
      rw [hv, List.map_map, List.map_map]
      apply List.map_congr_left
      intro t ht
      rw [mem_occupied] at ht
      rcases inv.wf.hkeys t ht.1 with h | ⟨j, _, h⟩
      · exact (ht.2 h).elim
      · simp only [Function.comp_apply, h, Int.toNat_ofNat]
        exact hval t j ht.1 h
    rw [hmap, ← Nat.cast_list_sum, ((occupied_perm ok inv).map _).sum_eq,
      sum_freq_upto ok x (vec_size x) (le_refl _)]

/-- Concrete scenario: the counts of `[3, 1, 3, 2, 1, 1]` add up to 6. -/
theorem vctrs_count_sum_witness :
    ∃ key val, vctrs_count nat_hash nat_eq ⟨0, [3, 1, 3, 2, 1, 1]⟩ = .ok (key, val) ∧
      val.sum = 6 :=
  vctrs_count_sum nat_hash nat_eq nat_eq_hash_ok ⟨0, [3, 1, 3, 2, 1, 1]⟩ (by decide)

/-! ## Filtering a sequence down to its unique positions -/

theorem filterMap_getElem? {β : Type} (xs : List β) (l : List Nat)
    (h : ∀ j, j ∈ l → j < xs.length) (r : Nat) :
    (l.filterMap (fun j => xs[j]?))[r]? = (l[r]?).bind (fun j => xs[j]?) := by
  induction l generalizing r with
  | nil => rfl
  | cons a l ih =>
    have ha : a < xs.length := h a (List.mem_cons_self _ _)
    have hl : ∀ j, j ∈ l → j < xs.length := fun j hj => h j (List.mem_cons_of_mem _ hj)
    rw [List.filterMap_cons_some (List.getElem?_eq_getElem ha)]
    cases r with
    | zero => simp [List.getElem?_eq_getElem ha]
    | succ r => simpa using ih hl r

theorem filterMap_length {β : Type} (xs : List β) (l : List Nat)
    (h : ∀ j, j ∈ l → j < xs.length) :
    (l.filterMap (fun j => xs[j]?)).length = l.length := by
  induction l with
  | nil => rfl
  | cons a l ih =>
    have ha : a < xs.length := h a (List.mem_cons_self _ _)
    have hl : ∀ j, j ∈ l → j < xs.length := fun j hj => h j (List.mem_cons_of_mem _ hj)
    rw [List.filterMap_cons_some (List.getElem?_eq_getElem ha), List.length_cons,
      List.length_cons, ih hl]

theorem filterMap_range_self {β : Type} (xs : List β) :
    (List.range xs.length).filterMap (fun j => xs[j]?) = xs := by
  apply List.ext_getElem?
  intro r
  rw [filterMap_getElem? xs _ (fun j hj => List.mem_range.mp hj)]
  by_cases hr : r < xs.length
  · rw [List.getElem?_range hr]
    rfl
  · rw [List.getElem?_eq_none (by simpa using hr), List.getElem?_eq_none (by omega)]
    rfl

theorem vec_slice_succ {α : Type} (x : SEXP α) (l : List Nat) :
    (vec_slice x (l.map (fun (j : Nat) => (j : Int) + 1))).elts =
      l.filterMap (fun j => x.elts[j]?) := by
  unfold vec_slice
  simp only
  rw [List.filterMap_map]
  congr 1
  funext j
  simp only [Function.comp_apply]
  have : ((j : Int) + 1 - 1).toNat = j := by omega
  rw [this]

/-- The sequence of the first occurrences of `x` has no two equal elements: each of its
positions is a first occurrence. -/
theorem vec_slice_first {α : Type} (eq : α → α → Bool) (x : SEXP α) (r : Nat)
    (hr : r < vec_size (vec_slice x (first_locs eq x (vec_size x)))) :
    is_first eq (vec_slice x (first_locs eq x (vec_size x))) r = true := by
  have helts : (vec_slice x (first_locs eq x (vec_size x))).elts =
      ((List.range (vec_size x)).filter (is_first eq x)).filterMap (fun j => x.elts[j]?) := by
    unfold first_locs
    exact vec_slice_succ x _
  have hmem : ∀ j, j ∈ (List.range (vec_size x)).filter (is_first eq x) →
      j < x.elts.length := by
    intro j hj
    rw [List.mem_filter, List.mem_range] at hj
    exact hj.1
  have hlen : vec_size (vec_slice x (first_locs eq x (vec_size x))) =
      ((List.range (vec_size x)).filter (is_first eq x)).length := by
    show (vec_slice x (first_locs eq x (vec_size x))).elts.length = _
    rw [helts, filterMap_length x.elts _ hmem]
  rw [hlen] at hr
  unfold is_first
  apply decide_eq_true
  intro r' hr'
  have hr'lt : r' < ((List.range (vec_size x)).filter (is_first eq x)).length := by omega
  obtain ⟨_, _, c1⟩ := filter_range_getElem (is_first eq x) (vec_size x) r' hr'lt
  obtain ⟨_, b2, c2⟩ := filter_range_getElem (is_first eq x) (vec_size x) r hr
  have hlt : ((List.range (vec_size x)).filter (is_first eq x))[r'] <
      ((List.range (vec_size x)).filter (is_first eq x))[r] := by
    by_contra hcon
    have := ((List.range_sublist.mpr (Nat.le_of_not_lt hcon)).filter (is_first eq x)).length_le
    omega
  have hfalse := (of_decide_eq_true b2 :
    ∀ a, a < ((List.range (vec_size x)).filter (is_first eq x))[r] →
      equal_scalar eq x a x ((List.range (vec_size x)).filter (is_first eq x))[r] = false)
    _ hlt
  rw [← hfalse]
  unfold equal_scalar
  rw [helts, filterMap_getElem? x.elts _ hmem, filterMap_getElem? x.elts _ hmem,
    List.getElem?_eq_getElem hr'lt, List.getElem?_eq_getElem hr]
  rfl

theorem first_locs_of_all {α : Type} (eq : α → α → Bool) (y : SEXP α)
    (h : ∀ r, r < vec_size y → is_first eq y r = true) :
    first_locs eq y (vec_size y) =
      (List.range (vec_size y)).map (fun (j : Nat) => (j : Int) + 1) := by
  unfold first_locs
  rw [List.filter_eq_self.mpr]
  intro r hr
  exact h r (List.mem_range.mp hr)

/-- C16, as stated, fails: for `x = [3, 1, 3, 2, 1, 1]` the unique positions are
`[1, 2, 4]`, the filtered sequence is `[3, 1, 2]` and its unique positions are
`[1, 2, 3]`. -/
theorem unique_loc_filter_differs :
    vctrs_unique_loc nat_hash nat_eq ⟨0, [3, 1, 3, 2, 1, 1]⟩ = .ok [1, 2, 4] ∧
    (vec_slice (⟨0, [3, 1, 3, 2, 1, 1]⟩ : SEXP Nat) [1, 2, 4]).elts = [3, 1, 2] ∧
    vctrs_unique_loc nat_hash nat_eq (vec_slice ⟨0, [3, 1, 3, 2, 1, 1]⟩ [1, 2, 4]) =
      .ok [1, 2, 3] ∧
    vctrs_unique_loc nat_hash nat_eq (vec_slice ⟨0, [3, 1, 3, 2, 1, 1]⟩ [1, 2, 4]) ≠
      vctrs_unique_loc nat_hash nat_eq ⟨0, [3, 1, 3, 2, 1, 1]⟩ := by
  refine ⟨rfl, rfl, rfl, ?_⟩
  intro h
  have h1 : vctrs_unique_loc nat_hash nat_eq (vec_slice ⟨0, [3, 1, 3, 2, 1, 1]⟩ [1, 2, 4]) =
      .ok [1, 2, 3] := rfl
  have h2 : vctrs_unique_loc nat_hash nat_eq ⟨0, [3, 1, 3, 2, 1, 1]⟩ = .ok [1, 2, 4] := rfl
  rw [h1, h2] at h
  cases h

/-- C16, amended: for `x` of a size `n` below the overflow bound of `dict_init`,
`100 * n / 77 ≤ 2 ^ 30`, and with `y` the sequence `x` filtered down to its unique positions,
`vctrs_unique_loc(y)` is `[1, 2, ..., k]` where `k` is the length of
`vctrs_unique_loc(x)` and of `y` (every element of `y` is a first occurrence), so that
filtering `y` down to its unique positions gives `y` again. -/
theorem unique_loc_filter_idempotent {α : Type} (hash : α → Nat) (eq : α → α → Bool)
    (ok : eq_hash_ok hash eq) (x : SEXP α) (hn : 100 * vec_size x / 77 ≤ 2 ^ 30) :
    ∃ locs locs2, vctrs_unique_loc hash eq x = .ok locs ∧
      vctrs_unique_loc hash eq (vec_slice x locs) = .ok locs2 ∧
      vec_size (vec_slice x locs) = locs.length ∧
      locs2 = (List.range locs.length).map (fun (j : Nat) => (j : Int) + 1) ∧
      (vec_slice (vec_slice x locs) locs2).elts = (vec_slice x locs).elts := by
  obtain ⟨u, huloop, _, hu⟩ := unique_loc_loop ok x hn
  have hmem : ∀ j, j ∈ (List.range (vec_size x)).filter (is_first eq x) →
      j < x.elts.length := by
    intro j hj
    rw [List.mem_filter, List.mem_range] at hj
    exact hj.1
  have hsize : vec_size (vec_slice x (first_locs eq x (vec_size x))) =
      (first_locs eq x (vec_size x)).length := by
    show (vec_slice x (first_locs eq x (vec_size x))).elts.length = _
    have : (vec_slice x (first_locs eq x (vec_size x))).elts =
        ((List.range (vec_size x)).filter (is_first eq x)).filterMap
          (fun j => x.elts[j]?) := by
      unfold first_locs
      exact vec_slice_succ x _
    rw [this, filterMap_length x.elts _ hmem]
    unfold first_locs
    rw [List.length_map]
  have hle : vec_size (vec_slice x (first_locs eq x (vec_size x))) ≤ vec_size x := by
    rw [hsize]
    unfold first_locs
    rw [List.length_map]
    have := List.length_filter_le (is_first eq x) (List.range (vec_size x))
    simpa using this
  have hn2 : 100 * vec_size (vec_slice x (first_locs eq x (vec_size x))) / 77 ≤ 2 ^ 30 := by
    have := Nat.div_le_div_right (c := 77) (Nat.mul_le_mul_left 100 hle)
    omega
  obtain ⟨v, hvloop, _, hv⟩ := unique_loc_loop ok _ hn2
  have hall : first_locs eq (vec_slice x (first_locs eq x (vec_size x)))
      (vec_size (vec_slice x (first_locs eq x (vec_size x)))) =
      (List.range (first_locs eq x (vec_size x)).length).map
        (fun (j : Nat) => (j : Int) + 1) := by
    rw [first_locs_of_all eq _ (fun r hr => vec_slice_first eq x r hr), hsize]
  refine ⟨u.2, v.2, ?_, ?_, ?_, ?_, ?_⟩
  · unfold vctrs_unique_loc
    simp only [huloop]
    rfl
  · rw [hu]
    unfold vctrs_unique_loc
    simp only [hvloop]
    rfl
  · rw [hu]; exact hsize
  · rw [hv, hu]; exact hall
  · rw [hv, hu, hall, vec_slice_succ, ← hsize]
    exact filterMap_range_self _

/-- C16 amended, concrete scenario: `x = [3, 1, 3, 2, 1, 1]`. -/
theorem unique_loc_filter_idempotent_witness :
    vctrs_unique_loc nat_hash nat_eq (vec_slice ⟨0, [3, 1, 3, 2, 1, 1]⟩ [1, 2, 4]) =
      .ok [1, 2, 3] := by
  obtain ⟨locs, locs2, h1, h2, _, h4, _⟩ := unique_loc_filter_idempotent nat_hash nat_eq
    nat_eq_hash_ok ⟨0, [3, 1, 3, 2, 1, 1]⟩ (by decide)
  have hl : locs = [1, 2, 4] := by
    have : vctrs_unique_loc nat_hash nat_eq ⟨0, [3, 1, 3, 2, 1, 1]⟩ = .ok [1, 2, 4] := rfl
    rw [h1] at this
    cases this
    rfl
  subst hl
  rw [h2, h4]
  rfl

/-! ## `truelength_realloc_size` -/

/-- C14: for `0 ≤ size_alloc ≤ max_size_alloc < 2 ^ 63`, `truelength_realloc_size` returns
`min(TRUELENGTH_SIZE_ALLOC_DEFAULT, max_size_alloc)` when `size_alloc = 0` and
`min(2 * size_alloc, max_size_alloc)` otherwise, the doubling does not overflow 64 bits,
and the result never exceeds `max_size_alloc`. -/
theorem truelength_realloc_size_spec {β : Type} (size_default : Int) (p : truelength_info β)
    (h0 : 0 ≤ p.size_alloc) (h1 : p.size_alloc ≤ p.max_size_alloc)
    (h2 : p.max_size_alloc < 2 ^ 63) :
    (p.size_alloc = 0 →
      truelength_realloc_size size_default p = min size_default p.max_size_alloc) ∧
    (0 < p.size_alloc →
      truelength_realloc_size size_default p = min (2 * p.size_alloc) p.max_size_alloc ∧
      to_uint64 p.size_alloc * 2 < 2 ^ 64 ∧
      ((to_uint64 p.size_alloc * 2 : Nat) : Int) = 2 * p.size_alloc) ∧
    truelength_realloc_size size_default p ≤ p.max_size_alloc := by
  have e1 : to_uint64 p.size_alloc = p.size_alloc.toNat := by
    unfold to_uint64
    rw [Int.emod_eq_of_lt h0 (by omega)]
  have e2 : to_uint64 p.max_size_alloc = p.max_size_alloc.toNat := by
    unfold to_uint64
    rw [Int.emod_eq_of_lt (by omega) (by omega)]
  have e3 : p.size_alloc.toNat * 2 < 2 ^ 64 := by omega
  unfold truelength_realloc_size
  simp only [e1, e2, Nat.mod_eq_of_lt e3]
  refine ⟨?_, ?_, ?_⟩
  · intro hz
    rw [if_pos hz]
    split <;> omega
  · intro hpos
    rw [if_neg (by omega)]
    refine ⟨?_, e3, by omega⟩
    unfold to_xlen
    split
    · omega
    · split <;> omega
  · unfold to_xlen
    split
    · split <;> omega
    · split
      · omega
      · split <;> omega

/-- C14, concrete scenarios: first allocation, doubling and clamping with the default
size 10000. -/
theorem truelength_realloc_size_witness :
    truelength_realloc_size 10000 (new_truelength_info 50 : truelength_info Nat) = 50 ∧
    truelength_realloc_size 10000
      ({ (new_truelength_info 50 : truelength_info Nat) with size_alloc := 30 }) = 50 ∧
    truelength_realloc_size 10000
        ({ (new_truelength_info 50 : truelength_info Nat) with size_alloc := 30 }) ≤ 50 := by
  have h := truelength_realloc_size_spec 10000
    ({ (new_truelength_info 50 : truelength_info Nat) with size_alloc := 30 })
    (by decide) (by decide) (by decide)
  exact ⟨by decide, (h.2.1 (by decide)).1, h.2.2⟩

/-! ## `truelength_save` -/

theorem p_resize_length {γ : Type} (fill : γ) (l : List γ) (used size : Int)
    (h0 : 0 ≤ used) (h1 : used ≤ size) (hl : used.toNat ≤ l.length) :
    (p_resize fill l used size).length = size.toNat := by
  unfold p_resize
  rw [min_eq_left h1, List.length_append, List.length_take, List.length_replicate]
  omega

theorem p_resize_getElem? {γ : Type} (fill : γ) (l : List γ) (used size : Int)
    (h1 : used ≤ size) (j : Nat) (hj : j < used.toNat) (hl : used.toNat ≤ l.length) :
    (p_resize fill l used size)[j]? = l[j]? := by
  unfold p_resize
  rw [min_eq_left h1, List.getElem?_append_left (by rw [List.length_take]; omega),
    List.getElem?_take_of_lt hj]

theorem lengths_extend_length (l : List Int) (used size : Int)
    (h0 : 0 ≤ used) (h1 : used ≤ size) (hl : used.toNat ≤ l.length) :
    (truelength_lengths_extend l used size).length = size.toNat := by
  unfold truelength_lengths_extend
  rw [List.length_append, List.length_take, List.length_replicate]
  omega

theorem lengths_extend_getElem? (l : List Int) (used size : Int)
    (j : Nat) (hj : j < used.toNat) (hl : used.toNat ≤ l.length) :
    (truelength_lengths_extend l used size)[j]? = l[j]? := by
  unfold truelength_lengths_extend
  rw [List.getElem?_append_left (by rw [List.length_take]; omega),
    List.getElem?_take_of_lt hj]

theorem realloc_size_gt {β : Type} (size_default : Int) (p : truelength_info β)
    (wf : truelength_wf p) (hlt : p.size_used < p.max_size_alloc) (hD : 0 < size_default)
    (hfull : p.size_used = p.size_alloc) :
    p.size_used < truelength_realloc_size size_default p ∧
      truelength_realloc_size size_default p ≤ p.max_size_alloc := by
  have h0 := wf.h0
  have h2 := wf.h2
  have h3 := wf.h3
  have e1 : to_uint64 p.size_alloc = p.size_alloc.toNat := by
    unfold to_uint64
    rw [Int.emod_eq_of_lt (by omega) (by omega)]
  have e2 : to_uint64 p.max_size_alloc = p.max_size_alloc.toNat := by
    unfold to_uint64
    rw [Int.emod_eq_of_lt (by omega) (by omega)]
  have e3 : p.size_alloc.toNat * 2 < 2 ^ 64 := by omega
  unfold truelength_realloc_size to_xlen
  simp only [e1, e2, Nat.mod_eq_of_lt e3]
  split
  · split <;> omega
  · split
    · omega
    · split <;> omega

/-- The cache in which `truelength_save` writes has room at index `size_used` and keeps
the recorded entries. -/
theorem truelength_room_spec {β : Type} (size_default : Int) (blank : β)
    (p : truelength_info β) (wf : truelength_wf p) (hlt : p.size_used < p.max_size_alloc)
    (hD : 0 < size_default) :
    truelength_wf (truelength_room size_default blank p) ∧
    (truelength_room size_default blank p).size_used = p.size_used ∧
    p.size_used < (truelength_room size_default blank p).size_alloc ∧
    (truelength_room size_default blank p).max_size_alloc = p.max_size_alloc ∧
    (truelength_room size_default blank p).max_string_size = p.max_string_size ∧
    (truelength_room size_default blank p).reencode = p.reencode ∧
    ∀ j, j < p.size_used.toNat →
      (truelength_room size_default blank p).strings[j]? = p.strings[j]? ∧
      (truelength_room size_default blank p).lengths[j]? = p.lengths[j]? ∧
      (truelength_room size_default blank p).uniques[j]? = p.uniques[j]? ∧
      (truelength_room size_default blank p).sizes[j]? = p.sizes[j]? := by
  unfold truelength_room
  by_cases hfull : p.size_used = p.size_alloc
  · rw [if_pos hfull]
    obtain ⟨hgt, hle⟩ := realloc_size_gt size_default p wf hlt hD hfull
    have h0 := wf.h0
    have hs := wf.hs
    have hl := wf.hl
    have hu := wf.hu
    have hz := wf.hz
    have ha := wf.ha
    have hlen : ∀ {γ : Type} (fill : γ) (l : List γ), l.length = p.size_alloc.toNat →
        (p_resize fill l p.size_used (truelength_realloc_size size_default p)).length =
          (truelength_realloc_size size_default p).toNat := by
      intro γ fill l hl'
      exact p_resize_length fill l _ _ h0 (by omega) (by rw [hl', hfull])
    refine ⟨⟨h0, ?_, hle, wf.h3, hlen blank _ hs, ?_, hlen blank _ hu, hlen 0 _ hz,
      hlen 0 _ ha⟩, rfl, hgt, rfl, rfl, rfl, ?_⟩
    · show p.size_used ≤ truelength_realloc_size size_default p
      omega
    · exact lengths_extend_length _ _ _ h0 (by omega) (by rw [hl, hfull])
    · intro j hj
      exact ⟨p_resize_getElem? blank _ _ _ (by omega) j hj (by rw [hs, hfull]),
        lengths_extend_getElem? _ _ _ j hj (by rw [hl, hfull]),
        p_resize_getElem? blank _ _ _ (by omega) j hj (by rw [hu, hfull]),
        p_resize_getElem? 0 _ _ _ (by omega) j hj (by rw [hz, hfull])⟩
  · rw [if_neg hfull]
    have h1 := wf.h1
    exact ⟨wf, rfl, by omega, rfl, rfl, rfl, fun j _ => ⟨rfl, rfl, rfl, rfl⟩⟩

theorem truelength_save_eq {β : Type} (size_default : Int) (blank : β)
    (p : truelength_info β) (x : β) (truelength size : Int) :
    truelength_save size_default blank p x truelength size =
      { truelength_room size_default blank p with
        strings := (truelength_room size_default blank p).strings.set
          (truelength_room size_default blank p).size_used.toNat x
        lengths := (truelength_room size_default blank p).lengths.set
          (truelength_room size_default blank p).size_used.toNat truelength
        uniques := (truelength_room size_default blank p).uniques.set
          (truelength_room size_default blank p).size_used.toNat x
        sizes := (truelength_room size_default blank p).sizes.set
          (truelength_room size_default blank p).size_used.toNat size
        size_used := (truelength_room size_default blank p).size_used + 1 } := rfl

/-- Effect of `truelength_save` on a consistent cache that is not at its maximum. -/
theorem truelength_save_props {β : Type} (size_default : Int) (blank : β)
    (p : truelength_info β) (x : β) (truelength size : Int)
    (wf : truelength_wf p) (hlt : p.size_used < p.max_size_alloc) (hD : 0 < size_default) :
    (truelength_save size_default blank p x truelength size).size_used = p.size_used + 1 ∧
    p.size_used < (truelength_save size_default blank p x truelength size).size_alloc ∧
    (truelength_save size_default blank p x truelength size).strings[p.size_used.toNat]? =
      some x ∧
    (truelength_save size_default blank p x truelength size).lengths[p.size_used.toNat]? =
      some truelength ∧
    (truelength_save size_default blank p x truelength size).uniques[p.size_used.toNat]? =
      some x ∧
    (truelength_save size_default blank p x truelength size).sizes[p.size_used.toNat]? =
      some size ∧
    (∀ j, j < p.size_used.toNat →
      (truelength_save size_default blank p x truelength size).strings[j]? = p.strings[j]? ∧
      (truelength_save size_default blank p x truelength size).lengths[j]? = p.lengths[j]? ∧
      (truelength_save size_default blank p x truelength size).uniques[j]? = p.uniques[j]? ∧
      (truelength_save size_default blank p x truelength size).sizes[j]? = p.sizes[j]?) ∧
    (truelength_save size_default blank p x truelength size).max_size_alloc =
      p.max_size_alloc ∧
    truelength_wf (truelength_save size_default blank p x truelength size) ∧
    (truelength_save size_default blank p x truelength size).size_alloc =
      (truelength_room size_default blank p).size_alloc ∧
    (truelength_save size_default blank p x truelength size).max_string_size =
      p.max_string_size ∧
    (truelength_save size_default blank p x truelength size).reencode = p.reencode := by
  obtain ⟨rwf, ru, rlt, rmax, _, _, rpre⟩ :=
    truelength_room_spec size_default blank p wf hlt hD
  have h0 := wf.h0
  have hidx : ∀ {γ : Type} (l : List γ),
      l.length = (truelength_room size_default blank p).size_alloc.toNat →
      p.size_used.toNat < l.length := by
    intro γ l hl
    rw [hl]
    omega
  rw [truelength_save_eq]
  refine ⟨?_, rlt, ?_, ?_, ?_, ?_, ?_, rmax, ?_, rfl, ?_, ?_⟩
  · show (truelength_room size_default blank p).size_used + 1 = p.size_used + 1
    rw [ru]
  · show ((truelength_room size_default blank p).strings.set
      (truelength_room size_default blank p).size_used.toNat x)[p.size_used.toNat]? = some x
    rw [ru, List.getElem?_set]
    simp [hidx _ rwf.hs]
  · show ((truelength_room size_default blank p).lengths.set
      (truelength_room size_default blank p).size_used.toNat truelength)[p.size_used.toNat]? =
        some truelength
    rw [ru, List.getElem?_set]
    simp [hidx _ rwf.hl]
  · show ((truelength_room size_default blank p).uniques.set
      (truelength_room size_default blank p).size_used.toNat x)[p.size_used.toNat]? = some x
    rw [ru, List.getElem?_set]
    simp [hidx _ rwf.hu]
  · show ((truelength_room size_default blank p).sizes.set
      (truelength_room size_default blank p).size_used.toNat size)[p.size_used.toNat]? =
        some size
    rw [ru, List.getElem?_set]
    simp [hidx _ rwf.hz]
  · intro j hj
    obtain ⟨a, b, c, d⟩ := rpre j hj
    have hne : (truelength_room size_default blank p).size_used.toNat ≠ j := by
      rw [ru]; omega
    refine ⟨?_, ?_, ?_, ?_⟩
    · show ((truelength_room size_default blank p).strings.set _ x)[j]? = _
      rw [List.getElem?_set, if_neg hne]; exact a
    · show ((truelength_room size_default blank p).lengths.set _ truelength)[j]? = _
      rw [List.getElem?_set, if_neg hne]; exact b
    · show ((truelength_room size_default blank p).uniques.set _ x)[j]? = _
      rw [List.getElem?_set, if_neg hne]; exact c
    · show ((truelength_room size_default blank p).sizes.set _ size)[j]? = _
      rw [List.getElem?_set, if_neg hne]; exact d
  · refine ⟨?_, ?_, rwf.h2, rwf.h3, ?_, ?_, ?_, ?_, rwf.ha⟩
    · show (0 : Int) ≤ (truelength_room size_default blank p).size_used + 1
      omega
    · show (truelength_room size_default blank p).size_used + 1 ≤
        (truelength_room size_default blank p).size_alloc
      omega
    · show ((truelength_room size_default blank p).strings.set _ x).length = _
      rw [List.length_set]; exact rwf.hs
    · show ((truelength_room size_default blank p).lengths.set _ truelength).length = _
      rw [List.length_set]; exact rwf.hl
    · show ((truelength_room size_default blank p).uniques.set _ x).length = _
      rw [List.length_set]; exact rwf.hu
    · show ((truelength_room size_default blank p).sizes.set _ size).length = _
      rw [List.length_set]; exact rwf.hz
  · show (truelength_room size_default blank p).max_string_size = p.max_string_size
    exact (truelength_room_spec size_default blank p wf hlt hD).2.2.2.2.1
  · show (truelength_room size_default blank p).reencode = p.reencode
    exact (truelength_room_spec size_default blank p wf hlt hD).2.2.2.2.2.1

/-- C19: bounds of the cache across `truelength_save`.  With a consistent cache that is
not at its maximum and a positive default size, the allocation chosen when the arrays are
full is larger than `size_used`, the entry is written at index `size_used`, below the new
`size_alloc`, the recorded entries are unchanged, `size_used` grows by one and the cache is
consistent afterwards. -/
theorem truelength_save_bounds {β : Type} (size_default : Int) (blank : β)
    (p : truelength_info β) (x : β) (truelength size : Int)
    (wf : truelength_wf p) (hlt : p.size_used < p.max_size_alloc) (hD : 0 < size_default) :
    (p.size_used = p.size_alloc →
      p.size_used < truelength_realloc_size size_default p) ∧
    (truelength_save size_default blank p x truelength size).size_used = p.size_used + 1 ∧
    p.size_used < (truelength_save size_default blank p x truelength size).size_alloc ∧
    (truelength_save size_default blank p x truelength size).strings[p.size_used.toNat]? =
      some x ∧
    (truelength_save size_default blank p x truelength size).lengths[p.size_used.toNat]? =
      some truelength ∧
    (truelength_save size_default blank p x truelength size).uniques[p.size_used.toNat]? =
      some x ∧
    (truelength_save size_default blank p x truelength size).sizes[p.size_used.toNat]? =
      some size ∧
    (∀ j, j < p.size_used.toNat →
      (truelength_save size_default blank p x truelength size).strings[j]? = p.strings[j]? ∧
      (truelength_save size_default blank p x truelength size).lengths[j]? = p.lengths[j]? ∧
      (truelength_save size_default blank p x truelength size).uniques[j]? = p.uniques[j]? ∧
      (truelength_save size_default blank p x truelength size).sizes[j]? = p.sizes[j]?) ∧
    (truelength_save size_default blank p x truelength size).max_size_alloc =
      p.max_size_alloc ∧
    truelength_wf (truelength_save size_default blank p x truelength size) := by
  obtain ⟨h1, h2, h3, h4, h5, h6, h7, h8, h9, _⟩ :=
    truelength_save_props size_default blank p x truelength size wf hlt hD
  refine ⟨?_, h1, h2, h3, h4, h5, h6, h7, h8, h9⟩
  intro hfull
  exact (realloc_size_gt size_default p wf hlt hD hfull).1

theorem new_truelength_info_wf {β : Type} (max_size_alloc : Int) (h0 : 0 ≤ max_size_alloc)
    (h1 : max_size_alloc < 2 ^ 63) :
    truelength_wf (new_truelength_info max_size_alloc : truelength_info β) :=
  ⟨le_refl _, le_refl _, h0, h1, rfl, rfl, rfl, rfl, rfl⟩

/-- C19, concrete scenario: the first save into a new cache of maximum size 3 with the
default size 2. -/
theorem truelength_save_bounds_witness :
    (truelength_save 2 0 (new_truelength_info 3 : truelength_info Nat) 7 5 1).size_used = 1 ∧
    (truelength_save 2 0 (new_truelength_info 3 : truelength_info Nat) 7 5 1).strings[0]? =
      some 7 ∧
    truelength_wf (truelength_save 2 0 (new_truelength_info 3 : truelength_info Nat) 7 5 1) := by
  have h := truelength_save_bounds 2 0 (new_truelength_info 3 : truelength_info Nat) 7 5 1
    (new_truelength_info_wf 3 (by decide) (by decide)) (by decide) (by decide)
  exact ⟨h.2.1, h.2.2.2.1, h.2.2.2.2.2.2.2.2.2⟩

/-! ## `truelength_save` followed by `truelength_reset` -/

theorem truelength_save_all_snoc {β : Type} (size_default : Int) (blank : β) (T : β → Int)
    (p : truelength_info β) (es : List (β × Int)) (e : β × Int) :
    truelength_save_all size_default blank T p (es ++ [e]) =
      truelength_save size_default blank (truelength_save_all size_default blank T p es)
        e.1 (T e.1) e.2 := by
  unfold truelength_save_all
  rw [List.foldl_append]
  rfl

/-- After saving the entries `es` into an empty consistent cache with room for them, the
cache holds the strings and their truelengths at the indices below `size_used`. -/
theorem truelength_save_all_spec {β : Type} (size_default : Int) (blank : β) (T : β → Int)
    (p0 : truelength_info β) (wf0 : truelength_wf p0) (hused : p0.size_used = 0)
    (hD : 0 < size_default) (es : List (β × Int))
    (hk : (es.length : Int) ≤ p0.max_size_alloc) :
    truelength_wf (truelength_save_all size_default blank T p0 es) ∧
    (truelength_save_all size_default blank T p0 es).size_used = (es.length : Int) ∧
    (truelength_save_all size_default blank T p0 es).max_size_alloc = p0.max_size_alloc ∧
    ∀ j, j < es.length →
      (truelength_save_all size_default blank T p0 es).strings[j]? =
        (es[j]?).map Prod.fst ∧
      (truelength_save_all size_default blank T p0 es).lengths[j]? =
        (es[j]?).map (fun e => T e.1) := by
  induction es using List.reverseRecOn with
  | nil =>
    refine ⟨wf0, ?_, rfl, fun j hj => by simp at hj⟩
    show p0.size_used = _
    rw [hused]
    rfl
  | append_singleton es e ih =>
    rw [List.length_append, List.length_singleton] at hk
    push_cast at hk
    obtain ⟨wf, hu, hmax, hent⟩ := ih (by omega)
    have hlt : (truelength_save_all size_default blank T p0 es).size_used <
        (truelength_save_all size_default blank T p0 es).max_size_alloc := by
      rw [hu, hmax]; omega
    obtain ⟨h1, _, h3, h4, _, _, h7, h8, h9, _⟩ :=
      truelength_save_props size_default blank _ e.1 (T e.1) e.2 wf hlt hD
    rw [truelength_save_all_snoc]
    have hidx : (truelength_save_all size_default blank T p0 es).size_used.toNat =
        es.length := by rw [hu]; rfl
    rw [hidx] at h3 h4 h7
    refine ⟨h9, ?_, by rw [h8, hmax], ?_⟩
    · rw [h1, hu, List.length_append, List.length_singleton]
      push_cast
      rfl
    · intro j hj
      rw [List.length_append, List.length_singleton] at hj
      by_cases hje : j = es.length
      · subst hje
        rw [h3, h4, List.getElem?_append_right (le_refl _)]
        simp
      · have hjl : j < es.length := by omega
        obtain ⟨a, b, _, _⟩ := h7 j hjl
        obtain ⟨c, d⟩ := hent j hjl
        rw [a, b, c, d, List.getElem?_append_left hjl]
        exact ⟨rfl, rfl⟩

/-- The loop of `truelength_reset` restores the tags of the recorded strings and leaves
the other tags. -/
theorem truelength_reset_loop_spec {β : Type} [DecidableEq β] (p : truelength_info β)
    (T T0 : β → Int) (es : List (β × Int))
    (hent : ∀ j, j < es.length →
      p.strings[j]? = (es[j]?).map Prod.fst ∧ p.lengths[j]? = (es[j]?).map (fun e => T e.1)) :
    ∀ (fuel i : Nat) (Ti : β → Int), i + fuel = es.length →
      (∀ e, (e ∈ (es.take i).map Prod.fst → Ti e = T e) ∧
        (e ∉ (es.take i).map Prod.fst → Ti e = T0 e)) →
      ∀ e, (e ∈ es.map Prod.fst → truelength_reset_loop p fuel i Ti e = T e) ∧
        (e ∉ es.map Prod.fst → truelength_reset_loop p fuel i Ti e = T0 e) := by
  intro fuel
  induction fuel with
  | zero =>
    intro i Ti hi hQ e
    have : i = es.length := by omega
    subst this
    rw [List.take_length] at hQ
    exact hQ e
  | succ fuel ih =>
    intro i Ti hi hQ
    have hil : i < es.length := by omega
    obtain ⟨hs, hl⟩ := hent i hil
    rw [List.getElem?_eq_getElem hil] at hs hl
    simp only [Option.map_some'] at hs hl
    have hlen : aget p.lengths i = T es[i].1 := by
      unfold aget
      rw [List.getD_eq_getElem?_getD, hl]
      rfl
    unfold truelength_reset_loop
    simp only [hs, hlen]
    apply ih (i + 1) _ (by omega)
    intro e
    have htake : (es.take (i + 1)).map Prod.fst = (es.take i).map Prod.fst ++ [es[i].1] := by
      rw [List.take_succ, List.getElem?_eq_getElem hil, List.map_append]
      rfl
    rw [htake]
    unfold SET_TRUELENGTH
    by_cases he : e = es[i].1
    · rw [if_pos he]
      refine ⟨fun _ => by rw [he], fun hn => ?_⟩
      exact (hn (by rw [he]; simp)).elim
    · rw [if_neg he]
      refine ⟨fun hm => (hQ e).1 ?_, fun hn => (hQ e).2 ?_⟩
      · rcases List.mem_append.mp hm with h | h
        · exact h
        · exact (he (by simpa using h)).elim
      · intro h
        exact hn (List.mem_append_left _ h)

/-- C15: save and reset round trip.  After the strings of `es` were saved with their
truelengths in the tag store `T` and their tags were overwritten arbitrarily (tag store
`T0`, equal to `T` on every other string), `truelength_reset` makes the tag store equal to
`T` again, sets `size_used = 0`, `max_string_size = 0` and `reencode = false`, and leaves
`size_alloc` and `max_size_alloc` unchanged. -/
theorem truelength_save_reset {β : Type} [DecidableEq β] (size_default : Int) (blank : β)
    (T T0 : β → Int) (p0 : truelength_info β) (wf0 : truelength_wf p0)
    (hused : p0.size_used = 0) (hD : 0 < size_default) (es : List (β × Int))
    (hk : (es.length : Int) ≤ p0.max_size_alloc)
    (hT0 : ∀ e, e ∉ es.map Prod.fst → T0 e = T e) :
    (truelength_reset (truelength_save_all size_default blank T p0 es) T0).2 = T ∧
    (truelength_reset (truelength_save_all size_default blank T p0 es) T0).1.size_used = 0 ∧
    (truelength_reset (truelength_save_all size_default blank T p0 es) T0).1.max_string_size
      = 0 ∧
    (truelength_reset (truelength_save_all size_default blank T p0 es) T0).1.reencode
      = false ∧
    (truelength_reset (truelength_save_all size_default blank T p0 es) T0).1.size_alloc =
      (truelength_save_all size_default blank T p0 es).size_alloc ∧
    (truelength_reset (truelength_save_all size_default blank T p0 es) T0).1.max_size_alloc =
      (truelength_save_all size_default blank T p0 es).max_size_alloc := by
  refine ⟨?_, rfl, rfl, rfl, rfl, rfl⟩
  obtain ⟨_, hu, _, hent⟩ :=
    truelength_save_all_spec size_default blank T p0 wf0 hused hD es hk
  funext e
  show truelength_reset_loop _ (truelength_save_all size_default blank T p0 es).size_used.toNat
    0 T0 e = T e
  rw [hu, Int.toNat_ofNat]
  have h := truelength_reset_loop_spec _ T T0 es hent es.length 0 T0 (by omega)
    (fun e => ⟨fun hm => by simp at hm, fun _ => rfl⟩) e
  by_cases hm : e ∈ es.map Prod.fst
  · exact h.1 hm
  · rw [h.2 hm, hT0 e hm]

/-- C15, concrete scenario: two strings saved into a new cache, their tags overwritten
with -1 and -2, then reset. -/
theorem truelength_save_reset_witness :
    (truelength_reset (truelength_save_all 2 (0 : Nat) (fun (e : Nat) => (e : Int) + 10)
        (new_truelength_info 5) [((3 : Nat), (1 : Int)), (4, 1)])
      (SET_TRUELENGTH (SET_TRUELENGTH (fun (e : Nat) => (e : Int) + 10) 3 (-1)) 4 (-2))).2 =
      (fun (e : Nat) => (e : Int) + 10) := by
  refine (truelength_save_reset 2 (0 : Nat) (fun (e : Nat) => (e : Int) + 10) _
    (new_truelength_info 5) (new_truelength_info_wf 5 (by decide) (by decide)) rfl
    (by decide) [((3 : Nat), (1 : Int)), (4, 1)] (by decide) ?_).1
  intro e he
  have h3 : e ≠ 3 := fun h => he (by rw [h]; decide)
  have h4 : e ≠ 4 := fun h => he (by rw [h]; decide)
  unfold SET_TRUELENGTH
  rw [if_neg h4, if_neg h3]

/-- In every dictionary that the filling loop reaches, fewer slots are used than the
table has. -/
theorem dict_reach_used_lt_size {α : Type} (hash : α → Nat) (eq : α → α → Bool)
    (hashed : Bool) (x : SEXP α) (hn : 100 * vec_size x / 77 ≤ 2 ^ 30) (d : dictionary α)
    (i : Nat) (h : dict_reach hash eq hashed x d i) : d.used < d.size := by
  obtain ⟨wf, hi⟩ := dict_reach_wf hash eq hashed x hn d i h
  have h1 := wf.hle
  have h2 := wf.hbig
  omega

/-! ## Overflow of the capacity computation -/

/-- Without a slot at which it stops, the probing loop raises the table-full error. -/
theorem dict_hash_scalar_loop_full {α : Type} (eq : α → α → Bool) (d : dictionary α)
    (y : SEXP α) (i hash : Nat) (hpos : 0 < d.size)
    (hno : ∀ s, s < d.size → ¬ dict_stop eq d y i s) :
    ∀ (fuel k : Nat), dict_hash_scalar_loop eq d y i hash fuel k = .error .dictionary_full := by
  intro fuel
  induction fuel with
  | zero => intro k; rfl
  | succ fuel ih =>
    intro k
    have hlt : dict_probe d.size hash k < d.size := Nat.mod_lt _ hpos
    have hns := hno _ hlt
    unfold dict_stop at hns
    push_neg at hns
    unfold dict_hash_scalar_loop
    simp only
    by_cases hb : k > 1 ∧ dict_probe d.size hash k = hash
    · rw [if_pos hb]
    · rw [if_neg hb, if_neg hns.1, if_neg hns.2]
      exact ih (k + 1)

theorem dict_small_init {α : Type} (hash : α → Nat) (x : SEXP α) (hashed : Bool)
    (hsz : (dict_init hash x hashed).size = 16) :
    dict_small x (dict_init hash x hashed) 0 := by
  have hkey : (dict_init hash x hashed).key =
      List.replicate (dict_init hash x hashed).size DICT_EMPTY := rfl
  refine ⟨rfl, hsz, ?_, ?_, ?_⟩
  · rw [hkey, hsz]; rfl
  · rw [hkey, hsz]; rfl
  · intro s hs
    left
    rw [hkey, hsz]
    exact aget_replicate 16 _ s hs

/-- In a table of 16 slots holding `i < 16` elements, an element different from all of
them lands on an empty slot and is inserted. -/
theorem dict_small_step {α : Type} (hash : α → Nat) (eq : α → α → Bool) {x : SEXP α}
    {d : dictionary α} {i : Nat} (ds : dict_small x d i) (hi : i < 16)
    (hdist : ∀ j, j < i → equal_scalar eq x j x i = false) :
    ∃ h, dict_hash_scalar hash eq d x i = .ok h ∧ aget d.key h = DICT_EMPTY ∧
      dict_small x (dict_put d h i) (i + 1) := by
  have hempty : ∃ s, s < d.size ∧ aget d.key s = DICT_EMPTY := by
    by_contra hcon
    push_neg at hcon
    have hall : ∀ a ∈ d.key, decide (a ≠ DICT_EMPTY) = true := by
      intro a ha
      obtain ⟨s, hs, rfl⟩ := List.getElem_of_mem ha
      rw [decide_eq_true_iff, ← aget_eq_getElem _ _ hs]
      exact hcon s (by rw [ds.hsize, ← ds.hlen]; exact hs)
    have h1 := List.countP_eq_length.mpr hall
    have h2 := ds.hused
    have h3 := ds.hlen
    omega
  obtain ⟨k0, _, hres, hstop, _⟩ := dict_hash_scalar_loop_total eq d x i
    (dict_hash_of hash d x i) 4 (by omega) (by rw [ds.hsize]; rfl) hempty
  have hlt : dict_probe d.size (dict_hash_of hash d x i) k0 < 16 := by
    rw [ds.hsize]
    exact Nat.mod_lt _ (by omega)
  have he : aget d.key (dict_probe d.size (dict_hash_of hash d x i) k0) = DICT_EMPTY := by
    rcases hstop with h | h
    · exact h
    · rcases ds.hkeys _ hlt with h1 | ⟨j, hj, h1⟩
      · exact h1
      · rw [h1, Int.toNat_ofNat, ds.hx, hdist j hj] at h
        exact Bool.noConfusion h
  have hsl : dict_probe d.size (dict_hash_of hash d x i) k0 < d.key.length := by
    rw [ds.hlen]; exact hlt
  refine ⟨_, ?_, he, ?_⟩
  · rw [dict_hash_scalar_eq_loop hash eq d x i (Or.inr ds.hx), hres]
  · refine ⟨ds.hx, ds.hsize, ?_, ?_, ?_⟩
    · rw [dict_put_key, List.length_set]; exact ds.hlen
    · rw [dict_put_key, List.countP_set _ _ _ _ hsl, ds.hused]
      have h1 : d.key[dict_probe d.size (dict_hash_of hash d x i) k0] = DICT_EMPTY := by
        rw [← aget_eq_getElem _ _ hsl]; exact he
      rw [h1]
      simp [natCast_ne_empty]
    · intro t ht
      rw [dict_put_key]
      by_cases hst : dict_probe d.size (dict_hash_of hash d x i) k0 = t
      · right
        rw [← hst]
        exact ⟨i, Nat.lt_succ_self i, aget_set_self _ _ _ hsl⟩
      · rw [aget_set_ne _ _ _ _ hst]
        rcases ds.hkeys t ht with h | ⟨j, hj, h⟩
        · exact Or.inl h
        · exact Or.inr ⟨j, Nat.lt_succ_of_lt hj, h⟩

/-- In a table of 16 slots holding 16 elements, the probe of an element different from
all of them raises the table-full error. -/
theorem dict_small_full {α : Type} (hash : α → Nat) (eq : α → α → Bool) {x : SEXP α}
    {d : dictionary α} (ds : dict_small x d 16)
    (hdist : ∀ j, j < 16 → equal_scalar eq x j x 16 = false) :
    dict_hash_scalar hash eq d x 16 = .error .dictionary_full := by
  rw [dict_hash_scalar_eq_loop hash eq d x 16 (Or.inr ds.hx)]
  apply dict_hash_scalar_loop_full eq d x 16 _ (by rw [ds.hsize]; omega)
  intro s hs hstop
  rw [ds.hsize] at hs
  have hall : ∀ t, t < 16 → aget d.key t ≠ DICT_EMPTY := by
    intro t ht hcon
    have htl : t < d.key.length := by rw [ds.hlen]; exact ht
    have hnot : ¬ ∀ a ∈ d.key, decide (a ≠ DICT_EMPTY) = true := by
      intro hall
      have := hall d.key[t] (List.getElem_mem htl)
      rw [← aget_eq_getElem _ _ htl, hcon] at this
      simp at this
    apply hnot
    apply List.countP_eq_length.mp
    rw [ds.hused, ds.hlen]
  rcases hstop with h | h
  · exact hall s hs h
  · rcases ds.hkeys s hs with h1 | ⟨j, hj, h1⟩
    · exact hall s hs h1
    · rw [h1, Int.toNat_ofNat, ds.hx, hdist j hj] at h
      exact Bool.noConfusion h

/-- A filling loop over a vector whose first 17 elements are pairwise different raises the
table-full error when the table has 16 slots.  `proj` gives the dictionary of a loop
state; the loop body probes `x[i]` and inserts it on an empty slot. -/
theorem for_loop_small_full {α σ : Type} (hash : α → Nat) (eq : α → α → Bool) (x : SEXP α)
    (hdist : ∀ i j, j < i → i ≤ 16 → equal_scalar eq x j x i = false)
    (body : Nat → σ → Except dict_error σ) (proj : σ → dictionary α)
    (herr : ∀ i s e, dict_hash_scalar hash eq (proj s) x i = .error e →
      body i s = .error e)
    (hok : ∀ i s h, dict_hash_scalar hash eq (proj s) x i = .ok h →
      ∃ s1, body i s = .ok s1 ∧
        proj s1 = if aget (proj s).key h = DICT_EMPTY then dict_put (proj s) h i
          else proj s) :
    ∀ (fuel i : Nat) (s : σ), i ≤ 16 → 16 < i + fuel → dict_small x (proj s) i →
      for_loop_from body fuel i s = .error .dictionary_full := by
  intro fuel
  induction fuel with
  | zero => intro i s h1 h2; omega
  | succ fuel ih =>
    intro i s h1 h2 ds
    unfold for_loop_from
    by_cases hi : i < 16
    · obtain ⟨h, hres, he, ds1⟩ := dict_small_step hash eq ds hi
        (fun j hj => hdist i j hj h1)
      obtain ⟨s1, hb, hp⟩ := hok i s h hres
      rw [hb]
      simp only
      apply ih (i + 1) s1 (by omega) (by omega)
      rw [hp, if_pos he]
      exact ds1
    · have h16 : i = 16 := by omega
      subst h16
      rw [herr 16 s _ (dict_small_full hash eq ds (fun j hj => hdist 16 j hj (le_refl _)))]

/-! ### A vector of 826781206 distinct elements

`826781206` is the shortest length at which the increment of `ceil2` in `dict_init`
overflows: `100 * 826781206 / 77 = 2 ^ 30 + 1`. -/

theorem distinct_vec_size (n : Nat) : vec_size (distinct_vec n) = n := by
  unfold vec_size distinct_vec
  exact List.length_range n

theorem distinct_vec_dist (n i j : Nat) (hij : i < j) :
    equal_scalar nat_eq (distinct_vec n) i (distinct_vec n) j = false := by
  by_contra hcon
  have hc : equal_scalar nat_eq (distinct_vec n) i (distinct_vec n) j = true := by
    simpa using hcon
  rw [equal_scalar_iff] at hc
  obtain ⟨a, b, ha, hb, hab⟩ := hc
  obtain ⟨ha1, ha2⟩ := List.getElem?_eq_some_iff.mp ha
  obtain ⟨hb1, hb2⟩ := List.getElem?_eq_some_iff.mp hb
  unfold distinct_vec at ha2 hb2
  simp only [List.getElem_range] at ha2 hb2
  simp only [nat_eq, beq_iff_eq] at hab
  omega

theorem dict_init_size {α : Type} (hash : α → Nat) (x : SEXP α) (hashed : Bool) :
    (dict_init hash x hashed).size =
      (if ceil2 (Int.ofNat (100 * vec_size x / 77)) < 16 then (16 : Int)
        else ceil2 (Int.ofNat (100 * vec_size x / 77))).toNat := rfl

/-- The capacity that `dict_init` computes for 826781206 elements: the quotient is
`2 ^ 30 + 1`, bit smearing gives `2 ^ 31 - 1`, the increment wraps to `- 2 ^ 31` and the
minimum of 16 applies. -/
theorem overflow_size_16 (hash : Nat → Nat) (hashed : Bool) :
    (dict_init hash (distinct_vec 826781206) hashed).size = 16 := by
  rw [dict_init_size, distinct_vec_size]
  decide

/-- A filling loop over the 826781206 distinct elements raises the table-full error. -/
theorem overflow_loop_full {σ : Type} (hash : Nat → Nat) (hashed : Bool)
    (body : Nat → σ → Except dict_error σ) (proj : σ → dictionary Nat) (s0 : σ)
    (h0 : proj s0 = dict_init hash (distinct_vec 826781206) hashed)
    (herr : ∀ i s e,
      dict_hash_scalar hash nat_eq (proj s) (distinct_vec 826781206) i = .error e →
        body i s = .error e)
    (hok : ∀ i s h,
      dict_hash_scalar hash nat_eq (proj s) (distinct_vec 826781206) i = .ok h →
        ∃ s1, body i s = .ok s1 ∧
          proj s1 = if aget (proj s).key h = DICT_EMPTY then dict_put (proj s) h i
            else proj s) :
    for_loop (vec_size (distinct_vec 826781206)) body s0 = .error .dictionary_full := by
  unfold for_loop
  apply for_loop_small_full hash nat_eq (distinct_vec 826781206)
    (fun i j hj _ => distinct_vec_dist 826781206 j i hj) body proj herr hok
    (vec_size (distinct_vec 826781206)) 0 s0 (by omega)
    (by rw [distinct_vec_size]; omega)
  rw [h0]
  exact dict_small_init hash _ hashed (overflow_size_16 hash hashed)

theorem load_loop_overflow (hash : Nat → Nat) (hashed : Bool) :
    for_loop (vec_size (distinct_vec 826781206))
      (load_body hash nat_eq (distinct_vec 826781206))
      (dict_init hash (distinct_vec 826781206) hashed) = .error .dictionary_full := by
  apply overflow_loop_full hash hashed _ (fun d => d) _ rfl
  · intro i s e h
    unfold load_body
    simp only [h]
  · intro i s h hh
    unfold load_body
    simp only [hh]
    split <;> exact ⟨_, rfl, rfl⟩

theorem id_loop_overflow (hash : Nat → Nat) :
    for_loop (vec_size (distinct_vec 826781206))
      (id_body hash nat_eq (distinct_vec 826781206))
      (dict_init hash (distinct_vec 826781206) true,
        List.replicate (vec_size (distinct_vec 826781206)) 0) =
        .error .dictionary_full := by
  apply overflow_loop_full hash true _ Prod.fst _ rfl
  · intro i s e h
    unfold id_body
    simp only [h]
  · intro i s h hh
    unfold id_body
    simp only [hh]
    exact ⟨_, rfl, rfl⟩

theorem count_loop_overflow (hash : Nat → Nat) :
    for_loop (vec_size (distinct_vec 826781206))
      (count_body hash nat_eq (distinct_vec 826781206))
      (dict_init hash (distinct_vec 826781206) true,
        List.replicate (dict_init hash (distinct_vec 826781206) true).size 0) =
        .error .dictionary_full := by
  apply overflow_loop_full hash true _ Prod.fst _ rfl
  · intro i s e h
    unfold count_body
    simp only [h]
  · intro i s h hh
    unfold count_body
    simp only [hh]
    refine ⟨_, rfl, ?_⟩
    simp only
    split <;> rfl

theorem split_loop_overflow (hash : Nat → Nat) :
    for_loop (vec_size (distinct_vec 826781206))
      (split_body hash nat_eq (distinct_vec 826781206))
      { d := dict_init hash (distinct_vec 826781206) true
        tracker := List.replicate (dict_init hash (distinct_vec 826781206) true).size 0
        count := List.replicate (dict_init hash (distinct_vec 826781206) true).size 0
        out_pos := List.replicate (vec_size (distinct_vec 826781206)) 0 } =
        .error .dictionary_full := by
  apply overflow_loop_full hash true _ split_state.d _ rfl
  · intro i s e h
    unfold split_body
    simp only [h]
  · intro i s h hh
    unfold split_body
    simp only [hh]
    refine ⟨_, rfl, ?_⟩
    simp only
    split <;> rfl

theorem duplicated_any_loop_overflow (hash : Nat → Nat) :
    ∀ (fuel i : Nat) (d : dictionary Nat), i ≤ 16 → 16 < i + fuel →
      dict_small (distinct_vec 826781206) d i →
      vctrs_duplicated_any_loop hash nat_eq (distinct_vec 826781206) fuel i d =
        .error .dictionary_full := by
  intro fuel
  induction fuel with
  | zero => intro i d h1 h2; omega
  | succ fuel ih =>
    intro i d h1 h2 ds
    unfold vctrs_duplicated_any_loop
    by_cases hi : i < 16
    · obtain ⟨h, hres, he, ds1⟩ := dict_small_step hash nat_eq ds hi
        (fun j hj => distinct_vec_dist 826781206 j i hj)
      simp only [hres, if_pos he]
      exact ih (i + 1) _ (by omega) (by omega) ds1
    · have h16 : i = 16 := by omega
      subst h16
      rw [dict_small_full hash nat_eq ds
        (fun j hj => distinct_vec_dist 826781206 j 16 hj)]

/-! ### Errors of the first loop reach the caller -/

theorem vctrs_id_error {α : Type} (hash : α → Nat) (eq : α → α → Bool)
    (x : SEXP α) (e : dict_error)
    (h : for_loop (vec_size x) (id_body hash eq x)
      (dict_init hash x true, List.replicate (vec_size x) 0) = .error e) :
    vctrs_id hash eq x = .error e := by
  unfold vctrs_id
  simp only [h]

theorem vctrs_match_error {α : Type} (hash : α → Nat) (eq : α → α → Bool)
    (needles haystack : SEXP α) (e : dict_error)
    (h : for_loop (vec_size haystack) (load_body hash eq haystack)
      (dict_init hash haystack false) = .error e) :
    vctrs_match hash eq needles haystack = .error e := by
  unfold vctrs_match
  simp only [h]

theorem vctrs_count_error {α : Type} (hash : α → Nat) (eq : α → α → Bool)
    (x : SEXP α) (e : dict_error)
    (h : for_loop (vec_size x) (count_body hash eq x)
      (dict_init hash x true, List.replicate (dict_init hash x true).size 0) = .error e) :
    vctrs_count hash eq x = .error e := by
  unfold vctrs_count
  simp only [h]

theorem vctrs_duplicated_error {α : Type} (hash : α → Nat) (eq : α → α → Bool)
    (x : SEXP α) (e : dict_error)
    (h : for_loop (vec_size x) (count_body hash eq x)
      (dict_init hash x true, List.replicate (dict_init hash x true).size 0) = .error e) :
    vctrs_duplicated hash eq x = .error e := by
  unfold vctrs_duplicated
  simp only [h]

theorem vctrs_duplicate_split_error {α : Type} (hash : α → Nat) (eq : α → α → Bool)
    (x : SEXP α) (e : dict_error)
    (h : for_loop (vec_size x) (split_body hash eq x)
      { d := dict_init hash x true
        tracker := List.replicate (dict_init hash x true).size 0
        count := List.replicate (dict_init hash x true).size 0
        out_pos := List.replicate (vec_size x) 0 } = .error e) :
    vctrs_duplicate_split hash eq x = .error e := by
  unfold vctrs_duplicate_split
  simp only [h]

theorem duplicated_any_full_error (hash : Nat → Nat) :
    vctrs_duplicated_any hash nat_eq (distinct_vec 826781206) =
      .error .dictionary_full := by
  unfold vctrs_duplicated_any
  exact duplicated_any_loop_overflow hash _ 0 _ (by omega)
    (by rw [distinct_vec_size]; omega)
    (dict_small_init hash _ false (overflow_size_16 hash false))

/-- With equality of naturals every hash is consistent: the hypotheses on equality and
hash hold whatever the hash. -/
theorem nat_eq_ok (hash : Nat → Nat) : eq_hash_ok hash nat_eq := by
  refine ⟨?_, ?_, ?_, ?_⟩
  · intro a; simp [nat_eq]
  · intro a b h; simp [nat_eq] at *; omega
  · intro a b c h1 h2; simp [nat_eq] at *; omega
  · intro a b h; simp [nat_eq] at h; rw [h]

/-! ### The entry points on 826781206 distinct elements -/

/-- C2: on the 826781206 pairwise distinct elements `0, 1, ..., 826781205`, whatever the
hash, `dict_init` builds a table of 16 slots and `vctrs_id` raises the table-full error
instead of returning the positions of the first occurrences; the equality is an
equivalence and the hash is consistent with it. -/
theorem vctrs_id_overflow (hash : Nat → Nat) :
    eq_hash_ok hash nat_eq ∧
    (dict_init hash (distinct_vec 826781206) true).size = 16 ∧
    vctrs_id hash nat_eq (distinct_vec 826781206) = .error .dictionary_full :=
  ⟨nat_eq_ok hash, overflow_size_16 hash true,
    vctrs_id_error hash nat_eq _ _ (id_loop_overflow hash)⟩

/-- C3: with a haystack of the 826781206 pairwise distinct elements `0, ..., 826781205`
and the needle `0`, which the haystack holds at position 1, `vctrs_match` builds a table
of 16 slots and raises the table-full error instead of returning `[1]`. -/
theorem vctrs_match_overflow (hash : Nat → Nat) :
    eq_hash_ok hash nat_eq ∧
    (dict_init hash (distinct_vec 826781206) false).size = 16 ∧
    vctrs_match hash nat_eq ⟨1, [0]⟩ (distinct_vec 826781206) =
      .error .dictionary_full :=
  ⟨nat_eq_ok hash, overflow_size_16 hash false,
    vctrs_match_error hash nat_eq _ _ _ (load_loop_overflow hash false)⟩

/-- C4: on the 826781206 pairwise distinct elements `0, ..., 826781205`, whatever the
hash, `vctrs_duplicated` builds a table of 16 slots and raises the table-full error
instead of returning a vector of `false`. -/
theorem vctrs_duplicated_overflow (hash : Nat → Nat) :
    eq_hash_ok hash nat_eq ∧
    (dict_init hash (distinct_vec 826781206) true).size = 16 ∧
    vctrs_duplicated hash nat_eq (distinct_vec 826781206) = .error .dictionary_full :=
  ⟨nat_eq_ok hash, overflow_size_16 hash true,
    vctrs_duplicated_error hash nat_eq _ _ (count_loop_overflow hash)⟩

/-- C5: on the 826781206 pairwise distinct elements `0, ..., 826781205`, whatever the
hash, `vctrs_duplicate_split` builds a table of 16 slots and raises the table-full error
instead of returning keys and groups. -/
theorem vctrs_duplicate_split_overflow (hash : Nat → Nat) :
    eq_hash_ok hash nat_eq ∧
    (dict_init hash (distinct_vec 826781206) true).size = 16 ∧
    vctrs_duplicate_split hash nat_eq (distinct_vec 826781206) =
      .error .dictionary_full :=
  ⟨nat_eq_ok hash, overflow_size_16 hash true,
    vctrs_duplicate_split_error hash nat_eq _ _ (split_loop_overflow hash)⟩

/-- C6: on the 826781206 pairwise distinct elements `0, ..., 826781205`, whatever the
hash, `vctrs_count` builds a table of 16 slots and raises the table-full error: it returns
no pairs of `key` and `val`. -/
theorem vctrs_count_overflow (hash : Nat → Nat) :
    eq_hash_ok hash nat_eq ∧
    (dict_init hash (distinct_vec 826781206) true).size = 16 ∧
    vctrs_count hash nat_eq (distinct_vec 826781206) = .error .dictionary_full :=
  ⟨nat_eq_ok hash, overflow_size_16 hash true,
    vctrs_count_error hash nat_eq _ _ (count_loop_overflow hash)⟩

/-- C9: the 826781206 elements `0, ..., 826781205` hold no two equal elements, and
`vctrs_duplicated_any` raises the table-full error on them instead of returning false. -/
theorem vctrs_duplicated_any_overflow (hash : Nat → Nat) :
    eq_hash_ok hash nat_eq ∧
    vctrs_duplicated_any hash nat_eq (distinct_vec 826781206) =
      .error .dictionary_full ∧
    ¬ ∃ i j, i < j ∧ j < vec_size (distinct_vec 826781206) ∧
      equal_scalar nat_eq (distinct_vec 826781206) i (distinct_vec 826781206) j = true := by
  refine ⟨nat_eq_ok hash, duplicated_any_full_error hash, ?_⟩
  rintro ⟨i, j, hij, _, h⟩
  rw [distinct_vec_dist 826781206 i j hij] at h
  exact Bool.noConfusion h

/-- C17: on the 826781206 pairwise distinct elements `0, ..., 826781205`, whatever the
hash, `vctrs_count` raises the table-full error, so it returns no `val` vector whose sum
is the size. -/
theorem vctrs_count_sum_overflow (hash : Nat → Nat) :
    eq_hash_ok hash nat_eq ∧
    vctrs_count hash nat_eq (distinct_vec 826781206) = .error .dictionary_full ∧
    ¬ ∃ key val, vctrs_count hash nat_eq (distinct_vec 826781206) = .ok (key, val) ∧
      val.sum = (vec_size (distinct_vec 826781206) : Int) := by
  have herr := vctrs_count_error hash nat_eq _ _ (count_loop_overflow hash)
  refine ⟨nat_eq_ok hash, herr, ?_⟩
  rintro ⟨key, val, h, _⟩
  rw [herr] at h
  exact Except.noConfusion h

end Vctrs
